import Mathlib

/-! # Huffman archiver (`huffman.h` / `huffman.cpp`): embedding and verification

Bytes (`unsigned char`) and `uint32_t` values are natural numbers; every place
where the C++ arithmetic wraps carries an explicit `% 2 ^ 32`.
A `std::unique_ptr<TreeNode>` is a value of `TreeNode`: either `nullptr` or a
node with its five fields.  `std::queue<bool>` and `std::vector<bool>` are
`List Bool` (front of the queue = head of the list, `push`/`push_back` appends
at the end).  The input file is the list of its bytes together with a get
position; the output file is the list of bytes written so far.
-/

namespace huffman_algo

/-! ## TreeNode -/

/-- A `std::unique_ptr<TreeNode>`: `nullptr`, or an owned node holding
`_frequency`, `_is_leaf`, `_value`, `_left_child`, `_right_child`. -/
inductive TreeNode where
  | nullptr : TreeNode
  | mk (frequency : Nat) (is_leaf : Bool) (value : Nat)
      (left_child right_child : TreeNode) : TreeNode
  deriving DecidableEq, Repr

namespace TreeNode

/-- `TreeNode::get_frequency` (the value for `nullptr` is a placeholder: the code
never dereferences a null pointer). -/
def get_frequency : TreeNode → Nat
  | nullptr => 0
  | mk f _ _ _ _ => f

/-- `TreeNode::is_leaf`. -/
def is_leaf : TreeNode → Bool
  | nullptr => false
  | mk _ l _ _ _ => l

/-- `TreeNode::get_value`. -/
def get_value : TreeNode → Nat
  | nullptr => 0
  | mk _ _ v _ _ => v

/-- `TreeNode::get_left_child`. -/
def get_left_child : TreeNode → TreeNode
  | nullptr => nullptr
  | mk _ _ _ l _ => l

/-- `TreeNode::get_right_child`. -/
def get_right_child : TreeNode → TreeNode
  | nullptr => nullptr
  | mk _ _ _ _ r => r

end TreeNode

open TreeNode

/-! ## HuffTree -/

/-- The scan of `HuffTree::find_min`: `it` runs over the remaining nodes, `min` is the
position of the current minimum, replaced only on a strictly smaller frequency. -/
def find_min_loop (nodes : List TreeNode) : List TreeNode → Nat → Nat → Nat
  | [], _, min => min
  | x :: rest, it, min =>
    find_min_loop nodes rest (it + 1)
      (if x.get_frequency < (nodes.getD min nullptr).get_frequency then it else min)

/-- `HuffTree::find_min`: the iterator is a position in the list; on the empty list the
result `0` is `nodes.end()`. -/
def find_min (nodes : List TreeNode) : Nat :=
  find_min_loop nodes nodes 0 0

/-- The first loop of `build_tree`: one leaf per symbol with a non-zero count, in
ascending symbol order. -/
def init_nodes (vocabulary : List Nat) : List TreeNode :=
  (List.range 256).filterMap fun i =>
    if vocabulary.getD i 0 ≠ 0 then some (mk (vocabulary.getD i 0) true i nullptr nullptr)
    else none

/-- One iteration of the `while (nodes.size() >= 2)` loop of `build_tree`. -/
def build_step (nodes : List TreeNode) : List TreeNode :=
  let first_min := find_min nodes
  let left_child := nodes.getD first_min nullptr
  let nodes1 := nodes.eraseIdx first_min
  let second_min := find_min nodes1
  let right_child := nodes1.getD second_min nullptr
  let nodes2 := nodes1.eraseIdx second_min
  nodes2 ++ [mk ((left_child.get_frequency + right_child.get_frequency) % 2 ^ 32)
    false 0 left_child right_child]

/-- The `while (nodes.size() >= 2)` loop of `build_tree`, with an iteration budget. -/
def build_loop : Nat → List TreeNode → List TreeNode
  | 0, nodes => nodes
  | fuel + 1, nodes =>
    if 2 ≤ nodes.length then build_loop fuel (build_step nodes) else nodes

/-- `HuffTree::build_tree`.  Every iteration shortens the list by one, so a budget of
`nodes.size()` iterations lets the loop run until its own exit test fails
(`build_loop_length_lt`). -/
def build_tree (vocabulary : List Nat) : TreeNode :=
  let nodes := init_nodes vocabulary
  (build_loop nodes.length nodes).headD nullptr

/-- `HuffTree::get_next_code`, with `_cur_node` as the first argument and the pair
(`_chars_to_codes`, `code`) threaded through. -/
def get_next_code : TreeNode → List (List Bool) × List Bool → List (List Bool) × List Bool
  | nullptr, s => s
  | mk _ leaf v l r, (tbl, code) =>
    let code := if code.isEmpty && leaf then code ++ [true] else code
    if leaf then (tbl.set v code, code)
    else
      let s1 := get_next_code l (tbl, code ++ [true])
      let s2 := get_next_code r (s1.1, s1.2.dropLast ++ [false])
      (s2.1, s2.2.dropLast)

/-- The class `HuffTree`: `_root`, `_chars_to_codes`, `_cur_node`.  The cursor is the
subtree it points to; for a cursor inside the tree, being equal to the root as a value
is the same as being the root pointer (a proper subtree is strictly smaller). -/
structure HuffTree where
  root : TreeNode
  chars_to_codes : List (List Bool)
  cur_node : TreeNode
  deriving DecidableEq, Repr

/-- `HuffTree::get_codes`. -/
def get_codes (root : TreeNode) : List (List Bool) :=
  (get_next_code root (List.replicate 256 [], [])).1

/-- The constructor `HuffTree::HuffTree(vocabulary)`. -/
def HuffTree.new (vocabulary : List Nat) : HuffTree :=
  let root := build_tree vocabulary
  { root := root, chars_to_codes := get_codes root, cur_node := root }

/-- `HuffTree::get_code_by_char`. -/
def HuffTree.get_code_by_char (tree : HuffTree) (chr : Nat) : List Bool :=
  tree.chars_to_codes.getD chr []

/-- The `while (_cur_node && !_cur_node->is_leaf() && !buffer.empty())` loop of
`try_extract_code`: returns the new cursor and the remaining queue. -/
def walk : TreeNode → List Bool → TreeNode × List Bool
  | cur, [] => (cur, [])
  | nullptr, buffer => (nullptr, buffer)
  | mk f leaf v l r, bit :: rest =>
    if leaf then (mk f leaf v l r, bit :: rest)
    else walk (if bit then l else r) rest

/-- Result of a call of `try_extract_code`: `ret = none` when `std::logic_error` is
thrown, otherwise the returned flag; together with the tree, queue and `chr` after
the call. -/
structure Extracted where
  ret : Option Bool
  tree : HuffTree
  buffer : List Bool
  chr : Nat
  deriving DecidableEq, Repr

/-- `HuffTree::try_extract_code`. -/
def try_extract_code (tree : HuffTree) (buffer : List Bool) (chr : Nat) : Extracted :=
  if tree.cur_node ≠ nullptr ∧ tree.cur_node = tree.root ∧ tree.cur_node.is_leaf = true
      ∧ buffer ≠ [] then
    { ret := some true, tree := tree, buffer := buffer.tail, chr := tree.cur_node.get_value }
  else
    let w := walk tree.cur_node buffer
    if w.1 = nullptr then
      { ret := none, tree := { tree with cur_node := w.1 }, buffer := w.2, chr := chr }
    else if w.1.is_leaf then
      { ret := some true, tree := { tree with cur_node := tree.root }, buffer := w.2,
        chr := w.1.get_value }
    else
      { ret := some false, tree := { tree with cur_node := w.1 }, buffer := w.2, chr := chr }

/-! ## HuffmanArchiver -/

/-- The four bytes of a `uint32_t` in the host's native layout, as written by
`_out.write((char *)&x, sizeof(x))`: least significant byte first on a little-endian
host (`be = false`), most significant byte first on a big-endian host. -/
def u32_bytes (be : Bool) (x : Nat) : List Nat :=
  if be then [x / 16777216 % 256, x / 65536 % 256, x / 256 % 256, x % 256]
  else [x % 256, x / 256 % 256, x / 65536 % 256, x / 16777216 % 256]

/-- The `uint32_t` whose native layout is the given four bytes, as filled in by
`_in.read((char *)&x, sizeof(x))`. -/
def u32_of_bytes (be : Bool) (bs : List Nat) : Nat :=
  match bs with
  | [b0, b1, b2, b3] =>
    if be then b3 + 256 * b2 + 65536 * b1 + 16777216 * b0
    else b0 + 256 * b1 + 65536 * b2 + 16777216 * b3
  | _ => 0

/-- The class `HuffmanArchiver`: `_in` is the content of the input file with its get
position, `_out` the bytes written to the output file, then the three counters. -/
structure HuffmanArchiver where
  in_data : List Nat
  in_pos : Nat
  out : List Nat
  in_file_size : Nat
  out_file_size : Nat
  extra_data_size : Nat
  deriving DecidableEq, Repr

/-- The constructor, on an input file that opens (with the given content) and an output
file that is created empty. -/
def HuffmanArchiver.new (file : List Nat) : HuffmanArchiver :=
  { in_data := file, in_pos := 0, out := [], in_file_size := 0, out_file_size := 0,
    extra_data_size := 0 }

/-- The `while (_in.read(&chr, 1)) ++vocabulary.at(chr);` loop over the bytes that are
left in the source; `uint32_t` increments wrap. -/
def build_vocabulary_loop : List Nat → List Nat → List Nat
  | [], vocabulary => vocabulary
  | chr :: rest, vocabulary =>
    build_vocabulary_loop rest (vocabulary.set chr ((vocabulary.getD chr 0 + 1) % 2 ^ 32))

/-- `HuffmanArchiver::build_vocabulary`: the table, and the archiver with its source
read to the end. -/
def build_vocabulary (a : HuffmanArchiver) : List Nat × HuffmanArchiver :=
  (build_vocabulary_loop (a.in_data.drop a.in_pos) (List.replicate 256 0),
    { a with in_pos := max a.in_pos a.in_data.length })

/-- The inner `for` loop of `extract_buffer`: `chr |= buffer.front() << i`. -/
def pack_loop : List Bool → Nat → Nat → Nat
  | [], _, chr => chr
  | bit :: rest, i, chr => pack_loop rest (i + 1) (chr ||| (bit.toNat <<< i))

/-- `HuffmanArchiver::extract_buffer`: the queue and the sink after the call. -/
def extract_buffer : List Bool → List Nat → List Bool × List Nat
  | b0 :: b1 :: b2 :: b3 :: b4 :: b5 :: b6 :: b7 :: rest, out =>
    extract_buffer rest (out ++ [pack_loop [b0, b1, b2, b3, b4, b5, b6, b7] 0 0])
  | buffer, out => (buffer, out)

/-- The `while (buffer.size() % CHAR_BIT != 0) buffer.push(false);` loop of `encode`,
with an iteration budget. -/
def pad_loop : Nat → List Bool → List Bool
  | 0, buffer => buffer
  | fuel + 1, buffer =>
    if buffer.length % 8 ≠ 0 then pad_loop fuel (buffer ++ [false]) else buffer

/-- The `while (_in.read(&chr, 1))` loop of `encode` over the bytes of the source. -/
def encode_loop (tree : HuffTree) : List Nat → List Bool × List Nat → List Bool × List Nat
  | [], s => s
  | chr :: rest, (buffer, out) =>
    let s1 := extract_buffer buffer out
    encode_loop tree rest (s1.1 ++ tree.get_code_by_char chr, s1.2)

/-- `HuffmanArchiver::encode`: the source is rewound and read to its end; the result is
the sink.  The padding loop needs at most seven iterations (`pad_loop_spec`). -/
def encode (tree : HuffTree) (in_data : List Nat) (out : List Nat) : List Nat :=
  let s := encode_loop tree in_data ([], out)
  (extract_buffer (pad_loop 8 s.1) s.2).2

/-- The vocabulary records collected by `zip`: `(i, vocabulary.at(i))` for every symbol
with a non-zero count, in ascending order. -/
def zip_records (vocabulary : List Nat) : List (Nat × Nat) :=
  (List.range 256).filterMap fun i =>
    if vocabulary.getD i 0 ≠ 0 then some (i, vocabulary.getD i 0) else none

/-- `HuffmanArchiver::zip`. -/
def zip (be : Bool) (a : HuffmanArchiver) : HuffmanArchiver :=
  let v := build_vocabulary a
  let vocabulary := v.1
  let tree := HuffTree.new vocabulary
  let in_file_size := v.2.in_pos % 2 ^ 32
  let out := a.out ++ u32_bytes be in_file_size
  let records := zip_records vocabulary
  let vocabulary_size := records.length % 2 ^ 32
  let out := out ++ u32_bytes be vocabulary_size
  let out := out ++ records.flatMap fun record => record.1 :: u32_bytes be record.2
  let extra_data_size := out.length % 2 ^ 32
  let out := encode tree a.in_data out
  { in_data := a.in_data, in_pos := a.in_data.length, out := out,
    in_file_size := in_file_size,
    out_file_size := (out.length % 2 ^ 32 + 2 ^ 32 - extra_data_size) % 2 ^ 32,
    extra_data_size := extra_data_size }

/-- The exceptions the decoder throws: `std::ios_base::failure` from a short read under
the `badbit | failbit` mask, `std::logic_error` from `try_extract_code`. -/
inductive Exn where
  | ios_failure
  | logic_error
  deriving DecidableEq, Repr

/-- `_in.read(p, n)` under the mask `badbit | failbit`: the `n` bytes at the get
position, or `none` when fewer than `n` remain (the read fails and throws). -/
def read_exact (data : List Nat) (pos n : Nat) : Option (List Nat) :=
  if pos + n ≤ data.length then some ((data.drop pos).take n) else none

/-- The `for (i < vocabulary_size)` loop of `extract_vocabulary`; the first argument is
the number of records still to read.  `none` when a read throws. -/
def extract_vocabulary_loop (be : Bool) (data : List Nat) :
    Nat → Nat → List Nat → Option (List Nat × Nat)
  | 0, pos, vocabulary => some (vocabulary, pos)
  | n + 1, pos, vocabulary =>
    match read_exact data pos 1 with
    | none => none
    | some chr =>
      match read_exact data (pos + 1) 4 with
      | none => none
      | some frequency =>
        extract_vocabulary_loop be data n (pos + 5)
          (vocabulary.set (chr.headD 0) (u32_of_bytes be frequency))

/-- `HuffmanArchiver::extract_vocabulary` from get position `pos`: the table and the new
get position, or `none` when a read throws. -/
def extract_vocabulary (be : Bool) (data : List Nat) (pos : Nat) : Option (List Nat × Nat) :=
  match read_exact data pos 4 with
  | none => none
  | some b =>
    extract_vocabulary_loop be data (u32_of_bytes be b) (pos + 4) (List.replicate 256 0)

/-- The `for` loop of `fill_buffer`: the bits `chr & (1 << i)` for `i = 0, ..., 7`, in the
order they are pushed. -/
def byte_bits (chr : Nat) : List Bool :=
  (List.range 8).map fun i => (chr &&& (1 <<< i)) != 0

/-- `HuffmanArchiver::fill_buffer` as `decode` calls it (exception mask set): the new get
position and queue, or `none` when the read throws at the end of the source. -/
def fill_buffer (data : List Nat) (pos : Nat) (buffer : List Bool) :
    Option (Nat × List Bool) :=
  match data.get? pos with
  | none => none
  | some chr => some (pos + 1, buffer ++ byte_bits chr)

/-- The locals of `decode` (`buffer`, `chr`, `i`), its tree, and the members it changes
(the get position of `_in`, the bytes of `_out`). -/
structure DecodeState where
  tree : HuffTree
  buffer : List Bool
  chr : Nat
  i : Nat
  in_pos : Nat
  out : List Nat
  deriving DecidableEq, Repr

/-- What a run that may throw ends with: the final state, or the exception together
with the bytes the sink holds at that moment. -/
inductive Outcome (α : Type) where
  | done (a : α)
  | thrown (e : Exn) (out : List Nat)
  deriving DecidableEq, Repr

/-- The `while (i < _out_file_size)` loop of `decode` with an iteration budget; `none`
when the budget runs out before the loop ends. -/
def decode_loop (data : List Nat) (out_file_size : Nat) :
    Nat → DecodeState → Option (Outcome DecodeState)
  | 0, s => if s.i < out_file_size then none else some (.done s)
  | fuel + 1, s =>
    if s.i < out_file_size then
      match (if s.buffer = [] then fill_buffer data s.in_pos s.buffer
             else some (s.in_pos, s.buffer)) with
      | none => some (.thrown .ios_failure s.out)
      | some (pos, buffer) =>
        let e := try_extract_code s.tree buffer s.chr
        match e.ret with
        | none => some (.thrown .logic_error s.out)
        | some true =>
          decode_loop data out_file_size fuel
            { tree := e.tree, buffer := e.buffer, chr := e.chr, i := s.i + 1, in_pos := pos,
              out := s.out ++ [e.chr] }
        | some false =>
          decode_loop data out_file_size fuel
            { tree := e.tree, buffer := e.buffer, chr := e.chr, i := s.i, in_pos := pos,
              out := s.out }
    else some (.done s)

/-- `HuffmanArchiver::decode`.  An iteration that emits nothing leaves the queue empty, so
the loop runs at most `_out_file_size` plus the number of unread source bytes times
(`decode_loop_fuel`); that is the budget given. -/
def decode (tree : HuffTree) (data : List Nat) (out_file_size pos : Nat) (out : List Nat) :
    Option (Outcome DecodeState) :=
  decode_loop data out_file_size (out_file_size + (data.length - pos))
    { tree := tree, buffer := [], chr := 0, i := 0, in_pos := pos, out := out }

/-- `HuffmanArchiver::unzip`; `none` only if the decode loop exhausts its budget. -/
def unzip (be : Bool) (a : HuffmanArchiver) : Option (Outcome HuffmanArchiver) :=
  match read_exact a.in_data a.in_pos 4 with
  | none => some (.thrown .ios_failure a.out)
  | some b =>
    let out_file_size := u32_of_bytes be b
    match extract_vocabulary be a.in_data (a.in_pos + 4) with
    | none => some (.thrown .ios_failure a.out)
    | some (vocabulary, pos) =>
      let extra_data_size := pos % 2 ^ 32
      let tree := HuffTree.new vocabulary
      match decode tree a.in_data out_file_size pos a.out with
      | none => none
      | some (.thrown e out) => some (.thrown e out)
      | some (.done s) =>
        some (.done
          { in_data := a.in_data, in_pos := s.in_pos, out := s.out,
            in_file_size := (s.in_pos % 2 ^ 32 + 2 ^ 32 - extra_data_size) % 2 ^ 32,
            out_file_size := out_file_size,
            extra_data_size := extra_data_size })

/-! ## Notions used in the statements -/

/-- The byte values that occur in `S`, in ascending order. -/
def present_symbols (S : List Nat) : List Nat :=
  (List.range 256).filter fun b => decide (b ∈ S)

/-- The header `zip` is expected to write for the input `S`: the length, the number of
vocabulary entries, then one record (symbol, count) per symbol of `S`, ascending. -/
def expected_header (be : Bool) (S : List Nat) : List Nat :=
  u32_bytes be S.length ++ u32_bytes be (present_symbols S).length ++
    (present_symbols S).flatMap fun b => b :: u32_bytes be (S.count b)

/-- The leaves a traversal from the given node reaches through internal nodes, left
subtree first: each with the path leading to it (`true` for a left edge, `false` for a
right edge) and its symbol. -/
def leaf_paths : TreeNode → List (List Bool × Nat)
  | nullptr => []
  | mk _ true v _ _ => [([], v)]
  | mk _ false _ l r =>
    (leaf_paths l).map (fun x => (true :: x.1, x.2)) ++
      (leaf_paths r).map (fun x => (false :: x.1, x.2))

/-- Number of nodes of the tree that are flagged as leaves. -/
def count_leaves : TreeNode → Nat
  | nullptr => 0
  | mk _ leaf _ l r => (if leaf then 1 else 0) + count_leaves l + count_leaves r

/-- Number of nodes of the tree that are not flagged as leaves (internal nodes). -/
def count_internal : TreeNode → Nat
  | nullptr => 0
  | mk _ leaf _ l r => (if leaf then 0 else 1) + count_internal l + count_internal r

/-- The symbols with a non-zero count in a frequency table, in ascending order. -/
def nonzero_symbols (vocabulary : List Nat) : List Nat :=
  (List.range 256).filter fun i => decide (vocabulary.getD i 0 ≠ 0)

/-- The bits `q` are what is still to be read to decode `sym` with the cursor at `cur`:
either `q` is the non-empty path from `cur` to the leaf of `sym`, or the tree is a single
leaf carrying `sym`, the cursor is at the root, and `q` is one bit. -/
def CodeAt (root cur : TreeNode) (q : List Bool) (sym : Nat) : Prop :=
  (q ≠ [] ∧ (q, sym) ∈ leaf_paths cur) ∨
    (cur = root ∧ (∃ f l r, cur = mk f true sym l r) ∧ q.length = 1)

/-- The Kraft sum of code lengths `ls`, scaled by `2 ^ N`. -/
def kraft_sum (N : Nat) (ls : List Nat) : Nat :=
  (ls.map fun l => 2 ^ (N - l)).sum

/-- The lengths `ls` are at most `N` and satisfy Kraft's inequality
`sum (2 ^ (-l)) ≤ 1`, written without fractions. -/
def Kraft (N : Nat) (ls : List Nat) : Prop :=
  (∀ l ∈ ls, l ≤ N) ∧ kraft_sum N ls ≤ 2 ^ N

/-- Weighted length sum of a list of (weight, length) pairs. -/
def pairs_cost (ps : List (Nat × Nat)) : Nat :=
  (ps.map fun p => p.1 * p.2).sum

/-- Sum of the table counts of the leaves of a tree. -/
def leaf_weight (vocabulary : List Nat) (t : TreeNode) : Nat :=
  ((leaf_paths t).map fun x => vocabulary.getD x.2 0).sum

/-- Sum over the leaves of a tree of table count times depth. -/
def leaf_cost (vocabulary : List Nat) (t : TreeNode) : Nat :=
  ((leaf_paths t).map fun x => vocabulary.getD x.2 0 * x.1.length).sum

/-- Neither of two bit sequences is a prefix of the other. -/
def Incomparable (x y : List Bool) : Prop :=
  ¬ x <+: y ∧ ¬ y <+: x

/-- The bit sequences of `cs` that start with the bit `b`, with that first bit removed. -/
def tails_after (b : Bool) (cs : List (List Bool)) : List (List Bool) :=
  cs.filterMap fun x =>
    match x with
    | [] => none
    | b' :: t => if b' = b then some t else none

/-- `HuffmanArchiver::get_in_file_size`. -/
def HuffmanArchiver.get_in_file_size (a : HuffmanArchiver) : Nat := a.in_file_size

/-- `HuffmanArchiver::get_out_file_size`. -/
def HuffmanArchiver.get_out_file_size (a : HuffmanArchiver) : Nat := a.out_file_size

/-- `HuffmanArchiver::get_extra_data_size`. -/
def HuffmanArchiver.get_extra_data_size (a : HuffmanArchiver) : Nat := a.extra_data_size

/-- The symbols carried by the leaves that a traversal from the given node reaches. -/
def leaf_values (t : TreeNode) : List Nat :=
  (leaf_paths t).map Prod.snd

/-- A vocabulary entry count whose header, `8 + 5 * 858993459 = 2 ^ 32 + 7` bytes, does not
fit a `uint32_t`. -/
def huge_header_count : Nat := 858993459

/-- A source that `unzip` accepts: original size 0, `huge_header_count` vocabulary
entries (all of them the record "symbol 0, frequency 0"), no payload. -/
def huge_header_archive (be : Bool) : List Nat :=
  u32_bytes be 0 ++ u32_bytes be huge_header_count ++
    (List.replicate huge_header_count ((0 : Nat), (0 : Nat))).flatMap
      fun r => r.1 :: u32_bytes be r.2

/-- Every node of a tree: the node a non-null pointer owns, then the nodes below its left
child and the nodes below its right child. -/
def subtrees : TreeNode → List TreeNode
  | nullptr => []
  | mk f leaf v l r => mk f leaf v l r :: (subtrees l ++ subtrees r)

/-- The pointer reached from `t` along a sequence of edges: `true` goes through
`get_left_child`, `false` through `get_right_child`. -/
def follow : TreeNode → List Bool → TreeNode
  | t, [] => t
  | t, bit :: rest => follow (if bit then t.get_left_child else t.get_right_child) rest

/-- The local shape of a node of a tree made by `build_tree` from `vocabulary`: an internal
node has two children, the sum of their frequencies (as a `uint32_t`) and the smaller
frequency on the left; a leaf has no children and carries a symbol of the table with its
non-zero count. -/
def node_ok (vocabulary : List Nat) (n : TreeNode) : Prop :=
  (n.is_leaf = false →
    n.get_left_child ≠ nullptr ∧ n.get_right_child ≠ nullptr ∧
    n.get_frequency =
      (n.get_left_child.get_frequency + n.get_right_child.get_frequency) % 2 ^ 32 ∧
    n.get_left_child.get_frequency ≤ n.get_right_child.get_frequency) ∧
  (n.is_leaf = true →
    n.get_left_child = nullptr ∧ n.get_right_child = nullptr ∧ n.get_value < 256 ∧
    vocabulary.getD n.get_value 0 ≠ 0 ∧ n.get_frequency = vocabulary.getD n.get_value 0)

/-- The tree object after a series of calls of `try_extract_code`, each call with its own
bit queue and `chr` argument. -/
def after_calls (tree : HuffTree) (calls : List (List Bool × Nat)) : HuffTree :=
  calls.foldl (fun t c => (try_extract_code t c.1 c.2).tree) tree

/-! # Verification -/

theorem getD_set_eq {α : Type} (v : List α) (i j : Nat) (x d : α) :
    (v.set i x).getD j d = if i = j ∧ i < v.length then x else v.getD j d := by
  simp only [List.getD_eq_getElem?_getD, List.getElem?_set]
  by_cases h : i = j
  · subst h
    by_cases h2 : i < v.length
    · simp [h2]
    · simp [h2, List.getElem?_eq_none (Nat.le_of_not_lt h2)]
  · simp [h]

theorem build_vocabulary_loop_length (S v : List Nat) :
    (build_vocabulary_loop S v).length = v.length := by
  induction S generalizing v with
  | nil => rfl
  | cons c S ih => simp [build_vocabulary_loop, ih]

theorem build_vocabulary_loop_getD (S v : List Nat) (b : Nat)
    (hS : ∀ c ∈ S, c < v.length) (hv : v.getD b 0 < 2 ^ 32) :
    (build_vocabulary_loop S v).getD b 0 = (v.getD b 0 + S.count b) % 2 ^ 32 := by
  induction S generalizing v with
  | nil => simp only [build_vocabulary_loop, List.count_nil]; omega
  | cons c S ih =>
    have hc : c < v.length := hS c (List.mem_cons_self _ _)
    have hS2 : ∀ x ∈ S, x < (v.set c ((v.getD c 0 + 1) % 2 ^ 32)).length := by
      intro x hx; simpa using hS x (List.mem_cons_of_mem _ hx)
    simp only [build_vocabulary_loop]
    rw [ih _ hS2]
    · rw [getD_set_eq, List.count_cons]
      by_cases h : c = b
      · subst h; simp [hc]; omega
      · have h2 : ¬ (c == b) = true := by simpa using h
        simp [h, h2]
    · rw [getD_set_eq]
      split
      · omega
      · exact hv

theorem sum_indicator_range (c n : Nat) :
    ((List.range n).map (fun b => if c = b then 1 else 0)).sum = if c < n then 1 else 0 := by
  induction n with
  | zero => simp
  | succ n ih =>
    rw [List.range_succ, List.map_append, List.sum_append, ih]
    by_cases h1 : c < n
    · have h3 : c ≠ n := by omega
      have h4 : c < n + 1 := by omega
      simp [h1, h3, h4]
    · by_cases h2 : c = n
      · simp [h2]
      · have : ¬ c < n + 1 := by omega
        simp [h1, h2, this]

theorem sum_count_range (S : List Nat) (n : Nat) (hS : ∀ b ∈ S, b < n) :
    ((List.range n).map (fun b => S.count b)).sum = S.length := by
  induction S with
  | nil => simp
  | cons c S ih =>
    have hc : c < n := hS c (List.mem_cons_self _ _)
    have e : (fun b => (c :: S).count b) = fun b => S.count b + (if c = b then 1 else 0) := by
      funext b
      rw [List.count_cons]
      by_cases h : c = b <;> simp [h]
    rw [e, List.sum_map_add, ih (fun b hb => hS b (List.mem_cons_of_mem _ hb)),
      sum_indicator_range]
    simp [hc]

theorem sum_eq_sum_getD (v : List Nat) :
    v.sum = ((List.range v.length).map (fun b => v.getD b 0)).sum := by
  congr 1
  apply List.ext_getElem
  · simp
  · intro i h1 h2
    simp [List.getD_eq_getElem?_getD, List.getElem?_eq_getElem h1]

theorem build_vocabulary_fst (S : List Nat) :
    (build_vocabulary (HuffmanArchiver.new S)).1 =
      build_vocabulary_loop S (List.replicate 256 0) := by
  simp only [build_vocabulary, HuffmanArchiver.new, List.drop_zero]

theorem getD_replicate_zero (n b : Nat) : (List.replicate n 0).getD b 0 = 0 := by
  simp only [List.getD_eq_getElem?_getD, List.getElem?_replicate]
  split <;> rfl

theorem build_vocabulary_getD (S : List Nat) (hS : ∀ b ∈ S, b < 256) (b : Nat) :
    (build_vocabulary (HuffmanArchiver.new S)).1.getD b 0 = S.count b % 2 ^ 32 := by
  rw [build_vocabulary_fst, build_vocabulary_loop_getD]
  · rw [getD_replicate_zero, Nat.zero_add]
  · intro c hc
    rw [List.length_replicate]
    exact hS c hc
  · rw [getD_replicate_zero]; omega

theorem build_vocabulary_length (S : List Nat) :
    (build_vocabulary (HuffmanArchiver.new S)).1.length = 256 := by
  rw [build_vocabulary_fst, build_vocabulary_loop_length, List.length_replicate]

/-- C7: when no byte value occurs `2 ^ 32` or more times in the input, `build_vocabulary`
returns a table of 256 entries whose entry for every byte value `b` is the number of
occurrences of `b` in the input. -/
theorem build_vocabulary_counts (S : List Nat) (hS : ∀ b ∈ S, b < 256)
    (hcount : ∀ b, b < 256 → S.count b < 2 ^ 32) :
    (build_vocabulary (HuffmanArchiver.new S)).1.length = 256 ∧
      ∀ b, b < 256 → (build_vocabulary (HuffmanArchiver.new S)).1.getD b 0 = S.count b := by
  refine ⟨build_vocabulary_length S, fun b hb => ?_⟩
  rw [build_vocabulary_getD S hS b, Nat.mod_eq_of_lt (hcount b hb)]

theorem build_vocabulary_counts_witness :
    (∀ b ∈ [97, 98, 97], b < 256) ∧ (∀ b, b < 256 → [97, 98, 97].count b < 2 ^ 32) ∧
      ((build_vocabulary (HuffmanArchiver.new [97, 98, 97])).1.length = 256 ∧
        ∀ b, b < 256 →
          (build_vocabulary (HuffmanArchiver.new [97, 98, 97])).1.getD b 0
            = [97, 98, 97].count b) :=
  ⟨by decide, fun _ _ => lt_of_le_of_lt (List.count_le_length _ _) (by decide),
    build_vocabulary_counts [97, 98, 97] (by decide)
      (fun _ _ => lt_of_le_of_lt (List.count_le_length _ _) (by decide))⟩

/-- C8: for an input of fewer than `2 ^ 32` bytes, the 256 counts returned by
`build_vocabulary` add up to the length of the input. -/
theorem build_vocabulary_sum (S : List Nat) (hS : ∀ b ∈ S, b < 256)
    (hlen : S.length < 2 ^ 32) :
    (build_vocabulary (HuffmanArchiver.new S)).1.sum = S.length := by
  rw [sum_eq_sum_getD, build_vocabulary_length]
  have e : (fun b => (build_vocabulary (HuffmanArchiver.new S)).1.getD b 0)
      = fun b => S.count b := by
    funext b
    rw [build_vocabulary_getD S hS b]
    exact Nat.mod_eq_of_lt (lt_of_le_of_lt (List.count_le_length _ _) hlen)
  rw [e, sum_count_range S 256 hS]

theorem build_vocabulary_sum_witness :
    (∀ b ∈ [97, 98, 97], b < 256) ∧ [97, 98, 97].length < 2 ^ 32 ∧
      (build_vocabulary (HuffmanArchiver.new [97, 98, 97])).1.sum = [97, 98, 97].length :=
  ⟨by decide, by decide, build_vocabulary_sum [97, 98, 97] (by decide) (by decide)⟩

theorem pack_loop_bits (b0 b1 b2 b3 b4 b5 b6 b7 : Bool) :
    byte_bits (pack_loop [b0, b1, b2, b3, b4, b5, b6, b7] 0 0) = [b0, b1, b2, b3, b4, b5, b6, b7]
      ∧ pack_loop [b0, b1, b2, b3, b4, b5, b6, b7] 0 0 < 256 := by
  revert b0 b1 b2 b3 b4 b5 b6 b7
  decide

theorem extract_buffer_cons8 (b0 b1 b2 b3 b4 b5 b6 b7 : Bool) (rest : List Bool) (out : List Nat) :
    extract_buffer (b0 :: b1 :: b2 :: b3 :: b4 :: b5 :: b6 :: b7 :: rest) out =
      extract_buffer rest (out ++ [pack_loop [b0, b1, b2, b3, b4, b5, b6, b7] 0 0]) := by
  rw [extract_buffer]

theorem length_lt_eight_of_not_cons8 (buffer : List Bool)
    (h : ∀ (b0 b1 b2 b3 b4 b5 b6 b7 : Bool) (rest : List Bool),
      buffer = b0 :: b1 :: b2 :: b3 :: b4 :: b5 :: b6 :: b7 :: rest → False) :
    buffer.length < 8 := by
  match buffer, h with
  | [], _ => simp
  | [_], _ => simp
  | [_, _], _ => simp
  | [_, _, _], _ => simp
  | [_, _, _, _], _ => simp
  | [_, _, _, _, _], _ => simp
  | [_, _, _, _, _, _], _ => simp
  | [_, _, _, _, _, _, _], _ => simp
  | _ :: _ :: _ :: _ :: _ :: _ :: _ :: _ :: _, h => exact (h _ _ _ _ _ _ _ _ _ rfl).elim

theorem extract_buffer_short (buffer : List Bool) (out : List Nat) (h : buffer.length < 8) :
    extract_buffer buffer out = (buffer, out) := by
  match buffer, h with
  | [], _ => rfl
  | [_], _ => rfl
  | [_, _], _ => rfl
  | [_, _, _], _ => rfl
  | [_, _, _, _], _ => rfl
  | [_, _, _, _, _], _ => rfl
  | [_, _, _, _, _, _], _ => rfl
  | [_, _, _, _, _, _, _], _ => rfl
  | _ :: _ :: _ :: _ :: _ :: _ :: _ :: _ :: _, h => simp at h; omega

theorem extract_buffer_spec (buffer : List Bool) (out : List Nat) :
    ∃ bytes : List Nat,
      extract_buffer buffer out = (buffer.drop (8 * bytes.length), out ++ bytes) ∧
      bytes.flatMap byte_bits = buffer.take (8 * bytes.length) ∧
      bytes.length = buffer.length / 8 ∧ ∀ b ∈ bytes, b < 256 := by
  induction buffer, out using extract_buffer.induct with
  | case1 b0 b1 b2 b3 b4 b5 b6 b7 rest out ih =>
    obtain ⟨bytes, h1, h2, h3, h4⟩ := ih
    have hp := pack_loop_bits b0 b1 b2 b3 b4 b5 b6 b7
    refine ⟨pack_loop [b0, b1, b2, b3, b4, b5, b6, b7] 0 0 :: bytes, ?_, ?_, ?_, ?_⟩
    · rw [extract_buffer_cons8, h1]
      simp [Nat.mul_succ, List.append_assoc]
    · rw [List.flatMap_cons, hp.1, h2]
      simp [Nat.mul_succ]
    · simp only [List.length_cons, h3]
      omega
    · intro b hb
      rcases List.mem_cons.1 hb with h | h
      · rw [h]; exact hp.2
      · exact h4 b h
  | case2 buffer out h =>
    have hl := length_lt_eight_of_not_cons8 buffer h
    refine ⟨[], ?_, ?_, ?_, ?_⟩
    · rw [extract_buffer_short buffer out hl]; simp
    · simp
    · simp; omega
    · simp

theorem byte_bits_length (chr : Nat) : (byte_bits chr).length = 8 := by
  simp [byte_bits]

theorem flatMap_byte_bits_length (bytes : List Nat) :
    (bytes.flatMap byte_bits).length = 8 * bytes.length := by
  induction bytes with
  | nil => rfl
  | cons b bs ih =>
    rw [List.flatMap_cons, List.length_append, ih, byte_bits_length, List.length_cons]
    omega

theorem encode_loop_spec (tree : HuffTree) (S : List Nat) (buffer : List Bool) (out : List Nat) :
    ∃ bytes : List Nat,
      (encode_loop tree S (buffer, out)).2 = out ++ bytes ∧
      bytes.flatMap byte_bits ++ (encode_loop tree S (buffer, out)).1 =
        buffer ++ S.flatMap tree.get_code_by_char ∧
      ∀ b ∈ bytes, b < 256 := by
  induction S generalizing buffer out with
  | nil => exact ⟨[], by simp [encode_loop]⟩
  | cons c S ih =>
    obtain ⟨bytes1, h1, h2, _, h4⟩ := extract_buffer_spec buffer out
    obtain ⟨bytes2, g1, g2, g3⟩ :=
      ih (buffer.drop (8 * bytes1.length) ++ tree.get_code_by_char c) (out ++ bytes1)
    refine ⟨bytes1 ++ bytes2, ?_, ?_, ?_⟩
    · simp only [encode_loop, h1, g1, List.append_assoc]
    · simp only [encode_loop, h1, List.flatMap_append, List.append_assoc, g2, List.flatMap_cons,
        h2]
      rw [← List.append_assoc, List.take_append_drop]
    · intro b hb
      rcases List.mem_append.1 hb with h | h
      · exact h4 b h
      · exact g3 b h

theorem pad_loop_spec (fuel : Nat) (buffer : List Bool)
    (h : (8 - buffer.length % 8) % 8 ≤ fuel) :
    pad_loop fuel buffer =
      buffer ++ List.replicate ((8 - buffer.length % 8) % 8) false := by
  induction fuel generalizing buffer with
  | zero =>
    have : (8 - buffer.length % 8) % 8 = 0 := by omega
    simp [pad_loop, this]
  | succ fuel ih =>
    rw [pad_loop]
    by_cases h0 : buffer.length % 8 = 0
    · simp [h0]
    · rw [if_pos h0, ih]
      · have e : (8 - buffer.length % 8) % 8 = (8 - (buffer ++ [false]).length % 8) % 8 + 1 := by
          simp only [List.length_append, List.length_singleton]
          omega
        rw [e, List.replicate_succ, List.append_assoc]
        rfl
      · simp only [List.length_append, List.length_singleton]
        omega

theorem encode_spec (tree : HuffTree) (S : List Nat) (out : List Nat) :
    ∃ (bytes : List Nat) (p : Nat),
      encode tree S out = out ++ bytes ∧ p < 8 ∧
      bytes.flatMap byte_bits = S.flatMap tree.get_code_by_char ++ List.replicate p false ∧
      bytes.length = ((S.flatMap tree.get_code_by_char).length + 7) / 8 ∧
      ∀ b ∈ bytes, b < 256 := by
  obtain ⟨bytes1, h1, h2, h3⟩ := encode_loop_spec tree S [] out
  have hpad := pad_loop_spec 8 (encode_loop tree S ([], out)).1 (by omega)
  obtain ⟨bytes2, g1, g2, g3, g4⟩ :=
    extract_buffer_spec (pad_loop 8 (encode_loop tree S ([], out)).1)
      (encode_loop tree S ([], out)).2
  have hlen : (pad_loop 8 (encode_loop tree S ([], out)).1).length % 8 = 0 := by
    rw [hpad, List.length_append, List.length_replicate]
    omega
  have h8 : 8 * bytes2.length = (pad_loop 8 (encode_loop tree S ([], out)).1).length := by
    rw [g3]; omega
  rw [h8, List.take_length] at g2
  have hbits : (bytes1 ++ bytes2).flatMap byte_bits = S.flatMap tree.get_code_by_char ++
      List.replicate ((8 - (encode_loop tree S ([], out)).1.length % 8) % 8) false := by
    rw [List.flatMap_append, g2, hpad, ← List.append_assoc, h2, List.nil_append]
  refine ⟨bytes1 ++ bytes2, (8 - (encode_loop tree S ([], out)).1.length % 8) % 8, ?_, ?_,
    hbits, ?_, ?_⟩
  · show (extract_buffer (pad_loop 8 (encode_loop tree S ([], out)).1)
      (encode_loop tree S ([], out)).2).2 = _
    rw [g1, h1, List.append_assoc]
  · omega
  · have := congrArg List.length hbits
    simp only [flatMap_byte_bits_length, List.length_append, List.length_replicate] at this
    simp only [List.length_append]
    omega
  · intro b hb
    rcases List.mem_append.1 hb with h | h
    · exact h3 b h
    · exact g4 b h

theorem filterMap_ite_eq {α β : Type} (l : List α) (p : α → Prop) [DecidablePred p] (f : α → β) :
    (l.filterMap fun i => if p i then some (f i) else none) =
      (l.filter fun i => decide (p i)).map f := by
  induction l with
  | nil => rfl
  | cons x l ih =>
    by_cases h : p x
    · simp [List.filterMap_cons, h, ih]
    · simp [List.filterMap_cons, h, ih]

theorem count_lt_of_length_lt (S : List Nat) (hlen : S.length < 2 ^ 32) (b : Nat) :
    S.count b < 2 ^ 32 :=
  lt_of_le_of_lt (List.count_le_length _ _) hlen

theorem build_vocabulary_getD_eq (S : List Nat) (hS : ∀ b ∈ S, b < 256)
    (hlen : S.length < 2 ^ 32) (b : Nat) :
    (build_vocabulary (HuffmanArchiver.new S)).1.getD b 0 = S.count b := by
  rw [build_vocabulary_getD S hS b, Nat.mod_eq_of_lt (count_lt_of_length_lt S hlen b)]

theorem zip_records_eq (S : List Nat) (hS : ∀ b ∈ S, b < 256) (hlen : S.length < 2 ^ 32) :
    zip_records (build_vocabulary (HuffmanArchiver.new S)).1 =
      (present_symbols S).map fun b => (b, S.count b) := by
  unfold zip_records present_symbols
  have e : (fun i => if (build_vocabulary (HuffmanArchiver.new S)).1.getD i 0 ≠ 0
      then some (i, (build_vocabulary (HuffmanArchiver.new S)).1.getD i 0) else none)
      = fun i => if i ∈ S then some (i, S.count i) else none := by
    funext i
    rw [build_vocabulary_getD_eq S hS hlen i]
    by_cases h : i ∈ S
    · have : S.count i ≠ 0 := by
        have := List.count_pos_iff.2 h
        omega
      simp [h, this]
    · simp [h, List.count_eq_zero_of_not_mem h]
  rw [e, filterMap_ite_eq]

theorem present_symbols_mem (S : List Nat) (hS : ∀ b ∈ S, b < 256) (b : Nat) :
    b ∈ present_symbols S ↔ b ∈ S := by
  unfold present_symbols
  rw [List.mem_filter, List.mem_range]
  constructor
  · intro h
    simpa using h.2
  · intro h
    exact ⟨hS b h, by simpa using h⟩

theorem present_symbols_sorted (S : List Nat) : (present_symbols S).Pairwise (· < ·) :=
  List.Pairwise.filter _ (List.pairwise_lt_range 256)

theorem present_symbols_nodup (S : List Nat) : (present_symbols S).Nodup :=
  List.Nodup.filter _ (List.nodup_range 256)

theorem present_symbols_length (S : List Nat) (hS : ∀ b ∈ S, b < 256) :
    (present_symbols S).length = S.dedup.length := by
  apply List.Perm.length_eq
  rw [List.perm_ext_iff_of_nodup (present_symbols_nodup S) (List.nodup_dedup S)]
  intro b
  rw [present_symbols_mem S hS, List.mem_dedup]

theorem present_symbols_length_le (S : List Nat) : (present_symbols S).length ≤ 256 := by
  unfold present_symbols
  exact le_trans (List.length_filter_le _ _) (by simp)

theorem zip_out (be : Bool) (S : List Nat) (hS : ∀ b ∈ S, b < 256) (hlen : S.length < 2 ^ 32) :
    (zip be (HuffmanArchiver.new S)).out =
      encode (HuffTree.new (build_vocabulary (HuffmanArchiver.new S)).1) S
        (expected_header be S) := by
  have h1 : (build_vocabulary (HuffmanArchiver.new S)).2.in_pos % 2 ^ 32 = S.length := by
    simp only [build_vocabulary, HuffmanArchiver.new, Nat.zero_max]
    exact Nat.mod_eq_of_lt hlen
  have h2 : (zip_records (build_vocabulary (HuffmanArchiver.new S)).1).length % 2 ^ 32
      = (present_symbols S).length := by
    rw [zip_records_eq S hS hlen, List.length_map]
    have := present_symbols_length_le S
    omega
  have h3 : ((zip_records (build_vocabulary (HuffmanArchiver.new S)).1).flatMap
      fun record => record.1 :: u32_bytes be record.2) =
      (present_symbols S).flatMap fun b => b :: u32_bytes be (S.count b) := by
    rw [zip_records_eq S hS hlen, List.flatMap_map]
  unfold zip expected_header
  simp only [h1, h2, h3]
  rfl

theorem u32_bytes_length (be : Bool) (x : Nat) : (u32_bytes be x).length = 4 := by
  cases be <;> rfl

theorem u32_of_bytes_u32_bytes (be : Bool) (x : Nat) :
    u32_of_bytes be (u32_bytes be x) = x % 2 ^ 32 := by
  cases be <;> simp only [u32_bytes, u32_of_bytes] <;> simp <;> omega

theorem u32_bytes_lt (be : Bool) (x : Nat) : ∀ b ∈ u32_bytes be x, b < 256 := by
  intro b hb
  cases be <;> simp [u32_bytes] at hb <;> omega

theorem records_length (be : Bool) (l : List Nat) (f : Nat → Nat) :
    (l.flatMap fun b => b :: u32_bytes be (f b)).length = 5 * l.length := by
  induction l with
  | nil => rfl
  | cons x l ih =>
    rw [List.flatMap_cons, List.length_append, ih, List.length_cons, u32_bytes_length,
      List.length_cons]
    omega

theorem expected_header_length (be : Bool) (S : List Nat) :
    (expected_header be S).length = 8 + 5 * (present_symbols S).length := by
  unfold expected_header
  rw [List.length_append, List.length_append, u32_bytes_length, u32_bytes_length, records_length]

/-- C5: for an input `S` of fewer than `2 ^ 32` bytes with `k` distinct byte values, the
output of `zip` begins with the four bytes of `length S`, then the four bytes of `k`, then
one record (symbol, four bytes of its count) for each byte value that occurs in `S` and
for no other, in strictly ascending symbol order; these `8 + 5 * k` bytes are followed by
the payload. -/
theorem zip_header_layout (be : Bool) (S : List Nat) (hS : ∀ b ∈ S, b < 256)
    (hlen : S.length < 2 ^ 32) :
    (∃ payload : List Nat,
      (zip be (HuffmanArchiver.new S)).out =
        u32_bytes be S.length ++ u32_bytes be S.dedup.length ++
          ((present_symbols S).flatMap fun b => b :: u32_bytes be (S.count b)) ++ payload) ∧
    (u32_bytes be S.length ++ u32_bytes be S.dedup.length ++
      ((present_symbols S).flatMap fun b => b :: u32_bytes be (S.count b))).length
        = 8 + 5 * S.dedup.length ∧
    u32_of_bytes be (u32_bytes be S.length) = S.length ∧
    u32_of_bytes be (u32_bytes be S.dedup.length) = S.dedup.length ∧
    (∀ b ∈ present_symbols S, u32_of_bytes be (u32_bytes be (S.count b)) = S.count b) ∧
    (present_symbols S).length = S.dedup.length ∧
    (present_symbols S).Pairwise (· < ·) ∧
    ∀ b, b ∈ present_symbols S ↔ S.count b ≠ 0 := by
  have hk := present_symbols_length S hS
  have hk256 := present_symbols_length_le S
  refine ⟨?_, ?_, ?_, ?_, ?_, hk, present_symbols_sorted S, ?_⟩
  · obtain ⟨bytes, p, h, _⟩ :=
      encode_spec (HuffTree.new (build_vocabulary (HuffmanArchiver.new S)).1) S
        (expected_header be S)
    refine ⟨bytes, ?_⟩
    rw [zip_out be S hS hlen, h, expected_header, hk]
  · have := expected_header_length be S
    rw [expected_header, hk] at this
    exact this
  · rw [u32_of_bytes_u32_bytes, Nat.mod_eq_of_lt hlen]
  · rw [u32_of_bytes_u32_bytes]
    omega
  · intro b _
    rw [u32_of_bytes_u32_bytes, Nat.mod_eq_of_lt (count_lt_of_length_lt S hlen b)]
  · intro b
    rw [present_symbols_mem S hS b, ← List.count_pos_iff]
    omega

theorem zip_header_layout_witness :
    (∀ b ∈ [97, 98, 97], b < 256) ∧ [97, 98, 97].length < 2 ^ 32 ∧
    ((∃ payload : List Nat,
      (zip false (HuffmanArchiver.new [97, 98, 97])).out =
        u32_bytes false [97, 98, 97].length ++ u32_bytes false [97, 98, 97].dedup.length ++
          ((present_symbols [97, 98, 97]).flatMap fun b =>
            b :: u32_bytes false ([97, 98, 97].count b)) ++ payload) ∧
    (u32_bytes false [97, 98, 97].length ++ u32_bytes false [97, 98, 97].dedup.length ++
      ((present_symbols [97, 98, 97]).flatMap fun b =>
        b :: u32_bytes false ([97, 98, 97].count b))).length
        = 8 + 5 * [97, 98, 97].dedup.length ∧
    u32_of_bytes false (u32_bytes false [97, 98, 97].length) = [97, 98, 97].length ∧
    u32_of_bytes false (u32_bytes false [97, 98, 97].dedup.length)
      = [97, 98, 97].dedup.length ∧
    (∀ b ∈ present_symbols [97, 98, 97],
      u32_of_bytes false (u32_bytes false ([97, 98, 97].count b)) = [97, 98, 97].count b) ∧
    (present_symbols [97, 98, 97]).length = [97, 98, 97].dedup.length ∧
    (present_symbols [97, 98, 97]).Pairwise (· < ·) ∧
    ∀ b, b ∈ present_symbols [97, 98, 97] ↔ [97, 98, 97].count b ≠ 0) :=
  ⟨by decide, by decide, zip_header_layout false [97, 98, 97] (by decide) (by decide)⟩

/-- C6: for an input `S` of fewer than `2 ^ 32` bytes, the payload that `zip` writes after
the `8 + 5 * k` header bytes (the bytes written by `encode`), unpacked least significant
bit first, is the concatenation of the codes of the bytes of `S` in input order followed
by fewer than 8 bits that are all `false`; the payload has `ceil (T / 8)` bytes, `T` being
the total number of code bits. -/
theorem zip_payload_content (be : Bool) (S : List Nat) (hS : ∀ b ∈ S, b < 256)
    (hlen : S.length < 2 ^ 32) :
    ∃ p : Nat, p < 8 ∧
      ((zip be (HuffmanArchiver.new S)).out.drop (8 + 5 * S.dedup.length)).flatMap byte_bits =
        S.flatMap (HuffTree.new (build_vocabulary (HuffmanArchiver.new S)).1).get_code_by_char
          ++ List.replicate p false ∧
      ((zip be (HuffmanArchiver.new S)).out.drop (8 + 5 * S.dedup.length)).length =
        ((S.flatMap
          (HuffTree.new (build_vocabulary (HuffmanArchiver.new S)).1).get_code_by_char).length
          + 7) / 8 := by
  obtain ⟨bytes, p, h, hp, hbits, hl, _⟩ :=
    encode_spec (HuffTree.new (build_vocabulary (HuffmanArchiver.new S)).1) S
      (expected_header be S)
  have hd : (zip be (HuffmanArchiver.new S)).out.drop (8 + 5 * S.dedup.length) = bytes := by
    rw [zip_out be S hS hlen, h, ← present_symbols_length S hS, ← expected_header_length be S,
      List.drop_left]
  rw [hd]
  exact ⟨p, hp, hbits, hl⟩

theorem zip_payload_content_witness :
    (∀ b ∈ [97, 98, 97], b < 256) ∧ [97, 98, 97].length < 2 ^ 32 ∧
    ∃ p : Nat, p < 8 ∧
      ((zip true (HuffmanArchiver.new [97, 98, 97])).out.drop
          (8 + 5 * [97, 98, 97].dedup.length)).flatMap byte_bits =
        [97, 98, 97].flatMap
          (HuffTree.new (build_vocabulary (HuffmanArchiver.new [97, 98, 97])).1).get_code_by_char
          ++ List.replicate p false ∧
      ((zip true (HuffmanArchiver.new [97, 98, 97])).out.drop
          (8 + 5 * [97, 98, 97].dedup.length)).length =
        (([97, 98, 97].flatMap
          (HuffTree.new
            (build_vocabulary (HuffmanArchiver.new [97, 98, 97])).1).get_code_by_char).length
          + 7) / 8 :=
  ⟨by decide, by decide, zip_payload_content true [97, 98, 97] (by decide) (by decide)⟩

set_option maxRecDepth 100000 in
/-- C10: `zip` of the empty input writes exactly eight zero bytes (original size 0,
vocabulary count 0, no entries, no payload), and `unzip` of those eight bytes succeeds,
having written nothing to the sink. -/
theorem zip_unzip_empty (be : Bool) :
    (zip be (HuffmanArchiver.new [])).out = [0, 0, 0, 0, 0, 0, 0, 0] ∧
    unzip be (HuffmanArchiver.new [0, 0, 0, 0, 0, 0, 0, 0]) =
      some (.done { in_data := [0, 0, 0, 0, 0, 0, 0, 0], in_pos := 8, out := [],
                    in_file_size := 0, out_file_size := 0, extra_data_size := 8 }) := by
  cases be <;> decide

theorem find_min_loop_spec (nodes : List TreeNode) (rest : List TreeNode) (it min : Nat)
    (hdrop : nodes.drop it = rest) (hle : min ≤ it)
    (hlt : min < nodes.length ∨ nodes = [])
    (hmin : ∀ j < it, (nodes.getD min nullptr).get_frequency ≤
      (nodes.getD j nullptr).get_frequency)
    (hfirst : ∀ j < min, (nodes.getD min nullptr).get_frequency <
      (nodes.getD j nullptr).get_frequency) :
    (find_min_loop nodes rest it min < nodes.length ∨ nodes = []) ∧
    (∀ j < nodes.length,
      (nodes.getD (find_min_loop nodes rest it min) nullptr).get_frequency ≤
        (nodes.getD j nullptr).get_frequency) ∧
    (∀ j < find_min_loop nodes rest it min,
      (nodes.getD (find_min_loop nodes rest it min) nullptr).get_frequency <
        (nodes.getD j nullptr).get_frequency) := by
  induction rest generalizing it min with
  | nil =>
    have hit : nodes.length ≤ it := List.drop_eq_nil_iff.1 hdrop
    exact ⟨hlt, fun j hj => hmin j (by omega), hfirst⟩
  | cons x rest ih =>
    have hit : it < nodes.length := by
      by_contra h
      rw [List.drop_eq_nil_of_le (by omega)] at hdrop
      exact List.noConfusion hdrop
    have hx : nodes.getD it nullptr = x := by
      rw [List.getD_eq_getElem _ _ hit]
      have := List.drop_eq_getElem_cons hit
      rw [hdrop] at this
      exact (List.cons.inj this).1.symm
    have hdrop2 : nodes.drop (it + 1) = rest := by
      have := List.drop_eq_getElem_cons hit
      rw [hdrop] at this
      exact (List.cons.inj this).2.symm
    rw [find_min_loop]
    by_cases hc : x.get_frequency < (nodes.getD min nullptr).get_frequency
    · rw [if_pos hc]
      refine ih (it + 1) it hdrop2 (by omega) (Or.inl hit) ?_ ?_
      · intro j hj
        rw [hx]
        by_cases hji : j = it
        · rw [hji, hx]
        · exact le_of_lt (lt_of_lt_of_le hc (hmin j (by omega)))
      · intro j hj
        rw [hx]
        exact lt_of_lt_of_le hc (hmin j hj)
    · rw [if_neg hc]
      refine ih (it + 1) min hdrop2 (by omega) hlt ?_ hfirst
      intro j hj
      by_cases hji : j = it
      · rw [hji, hx]; omega
      · exact hmin j (by omega)

theorem find_min_spec (nodes : List TreeNode) :
    (find_min nodes < nodes.length ∨ nodes = []) ∧
    (∀ j < nodes.length, (nodes.getD (find_min nodes) nullptr).get_frequency ≤
        (nodes.getD j nullptr).get_frequency) ∧
    (∀ j < find_min nodes, (nodes.getD (find_min nodes) nullptr).get_frequency <
        (nodes.getD j nullptr).get_frequency) := by
  unfold find_min
  refine find_min_loop_spec nodes nodes 0 0 rfl (le_refl 0) ?_ ?_ ?_
  · cases nodes with
    | nil => exact Or.inr rfl
    | cons x l => exact Or.inl (by simp)
  · intro j hj; omega
  · intro j hj; omega

theorem find_min_lt (nodes : List TreeNode) (h : nodes ≠ []) : find_min nodes < nodes.length := by
  rcases (find_min_spec nodes).1 with h1 | h1
  · exact h1
  · exact (h h1).elim

theorem find_min_le_of_mem (nodes : List TreeNode) (x : TreeNode) (hx : x ∈ nodes) :
    (nodes.getD (find_min nodes) nullptr).get_frequency ≤ x.get_frequency := by
  obtain ⟨j, hj, rfl⟩ := List.getElem_of_mem hx
  have := (find_min_spec nodes).2.1 j hj
  rwa [List.getD_eq_getElem _ _ hj] at this

theorem perm_getD_eraseIdx (l : List TreeNode) (i : Nat) (h : i < l.length) :
    l.Perm (l.getD i nullptr :: l.eraseIdx i) := by
  induction l generalizing i with
  | nil => simp at h
  | cons x l ih =>
    cases i with
    | zero => simp
    | succ i =>
      have h2 : i < l.length := by simpa using h
      have := ih i h2
      simp only [List.getD_cons_succ, List.eraseIdx_cons_succ]
      exact (List.Perm.cons x this).trans (List.Perm.swap _ _ _)

theorem build_step_spec (nodes : List TreeNode) (h : 2 ≤ nodes.length) :
    ∃ (l r : TreeNode) (rest : List TreeNode),
      nodes.Perm (l :: r :: rest) ∧
      build_step nodes =
        rest ++ [mk ((l.get_frequency + r.get_frequency) % 2 ^ 32) false 0 l r] ∧
      (∀ x ∈ nodes, l.get_frequency ≤ x.get_frequency) ∧
      (∀ x ∈ r :: rest, r.get_frequency ≤ x.get_frequency) := by
  have hne : nodes ≠ [] := by intro h0; rw [h0] at h; simp at h
  have h1 := find_min_lt nodes hne
  have hlen1 : (nodes.eraseIdx (find_min nodes)).length = nodes.length - 1 := by
    rw [List.length_eraseIdx, if_pos h1]
  have hne1 : nodes.eraseIdx (find_min nodes) ≠ [] := by
    intro h0; rw [h0] at hlen1; simp at hlen1; omega
  have h2 := find_min_lt _ hne1
  have p1 := perm_getD_eraseIdx nodes _ h1
  have p2 := perm_getD_eraseIdx _ _ h2
  refine ⟨nodes.getD (find_min nodes) nullptr,
    (nodes.eraseIdx (find_min nodes)).getD (find_min (nodes.eraseIdx (find_min nodes))) nullptr,
    (nodes.eraseIdx (find_min nodes)).eraseIdx (find_min (nodes.eraseIdx (find_min nodes))),
    p1.trans (List.Perm.cons _ p2), rfl, fun x hx => find_min_le_of_mem nodes x hx, ?_⟩
  intro x hx
  exact find_min_le_of_mem _ x (p2.symm.subset hx)

theorem build_step_length (nodes : List TreeNode) (h : 2 ≤ nodes.length) :
    (build_step nodes).length + 1 = nodes.length := by
  obtain ⟨l, r, rest, hp, he, _⟩ := build_step_spec nodes h
  rw [he, hp.length_eq]
  simp

theorem build_loop_length_lt (fuel : Nat) (nodes : List TreeNode) (h : nodes.length ≤ fuel + 1) :
    (build_loop fuel nodes).length < 2 := by
  induction fuel generalizing nodes with
  | zero => simpa [build_loop] using Nat.lt_succ_of_le h
  | succ fuel ih =>
    rw [build_loop]
    by_cases h2 : 2 ≤ nodes.length
    · rw [if_pos h2]
      apply ih
      have := build_step_length nodes h2
      omega
    · rw [if_neg h2]; omega

theorem build_loop_induction (P : List TreeNode → Prop)
    (hstep : ∀ nodes, 2 ≤ nodes.length → P nodes → P (build_step nodes))
    (fuel : Nat) (nodes : List TreeNode) (h : P nodes) : P (build_loop fuel nodes) := by
  induction fuel generalizing nodes with
  | zero => exact h
  | succ fuel ih =>
    rw [build_loop]
    by_cases h2 : 2 ≤ nodes.length
    · rw [if_pos h2]; exact ih _ (hstep nodes h2 h)
    · rw [if_neg h2]; exact h

theorem init_nodes_eq (vocabulary : List Nat) :
    init_nodes vocabulary =
      (nonzero_symbols vocabulary).map fun i => mk (vocabulary.getD i 0) true i nullptr nullptr := by
  unfold init_nodes nonzero_symbols
  exact filterMap_ite_eq _ _ _

/-- The forest invariant behind the tree shape: the leaves of all trees number `k`, and the
internal nodes together with the number of trees number `k` as well. -/
theorem build_loop_counts (vocabulary : List Nat) (fuel : Nat) :
    ((build_loop fuel (init_nodes vocabulary)).map count_leaves).sum
        = (nonzero_symbols vocabulary).length ∧
    ((build_loop fuel (init_nodes vocabulary)).map count_internal).sum
        + (build_loop fuel (init_nodes vocabulary)).length
        = (nonzero_symbols vocabulary).length := by
  apply build_loop_induction
    (fun nodes => (nodes.map count_leaves).sum = (nonzero_symbols vocabulary).length ∧
      (nodes.map count_internal).sum + nodes.length = (nonzero_symbols vocabulary).length)
  · intro nodes h2 ⟨h3, h4⟩
    obtain ⟨l, r, rest, hp, he, _⟩ := build_step_spec nodes h2
    rw [he]
    have e1 := (hp.map count_leaves).sum_eq
    have e2 := (hp.map count_internal).sum_eq
    have e3 := hp.length_eq
    simp only [List.map_cons, List.sum_cons, List.length_cons] at e1 e2 e3
    simp only [List.map_append, List.sum_append, List.map_cons, List.map_nil, List.sum_cons,
      List.sum_nil, count_leaves, count_internal, List.length_append, List.length_singleton]
    constructor
    · simp; omega
    · simp; omega
  · rw [init_nodes_eq]
    have hinit : ∀ L : List Nat,
        ((L.map fun i => mk (vocabulary.getD i 0) true i nullptr nullptr).map count_leaves).sum
          = L.length ∧
        ((L.map fun i => mk (vocabulary.getD i 0) true i nullptr nullptr).map count_internal).sum
          = 0 := by
      intro L
      induction L with
      | nil => simp
      | cons x L ih =>
        simp only [List.map_cons, List.sum_cons, List.length_cons, count_leaves, count_internal,
          ih.1, ih.2]
        simp
        omega
    have := hinit (nonzero_symbols vocabulary)
    simp only [List.length_map]
    omega

/-- Leaf and internal-node counts of the tree `build_tree` returns, by the number of
symbols with a non-zero count. -/
theorem build_tree_counts (vocabulary : List Nat) :
    ((nonzero_symbols vocabulary).length = 0 → build_tree vocabulary = nullptr) ∧
    (1 ≤ (nonzero_symbols vocabulary).length →
      build_tree vocabulary ≠ nullptr ∧
      count_leaves (build_tree vocabulary) = (nonzero_symbols vocabulary).length ∧
      count_internal (build_tree vocabulary) = (nonzero_symbols vocabulary).length - 1) := by
  have hc := build_loop_counts vocabulary (init_nodes vocabulary).length
  have hl := build_loop_length_lt (init_nodes vocabulary).length (init_nodes vocabulary)
    (Nat.le_succ _)
  unfold build_tree
  simp only []
  generalize build_loop (init_nodes vocabulary).length (init_nodes vocabulary) = final at hc hl
  match final, hl with
  | [], _ =>
    simp only [List.map_nil, List.sum_nil, List.length_nil] at hc
    constructor
    · intro _; rfl
    · intro h; omega
  | [t], _ =>
    simp only [List.map_cons, List.map_nil, List.sum_cons, List.sum_nil, List.length_singleton,
      Nat.add_zero] at hc
    simp only [List.headD_cons]
    constructor
    · intro h; omega
    · intro h
      refine ⟨?_, hc.1, by omega⟩
      intro h0
      rw [h0] at hc
      simp [count_leaves] at hc
      omega
  | _ :: _ :: _, h => simp only [List.length_cons] at h; omega

/-- C9: for a frequency table with `k` symbols of non-zero count, `build_tree` returns
`nullptr` when `k = 0`, and when `k >= 1` it returns a tree (not `nullptr`) with exactly
`k` leaves and exactly `k - 1` internal nodes. -/
theorem build_tree_shape (vocabulary : List Nat) :
    ((nonzero_symbols vocabulary).length = 0 → build_tree vocabulary = nullptr) ∧
    (1 ≤ (nonzero_symbols vocabulary).length →
      build_tree vocabulary ≠ nullptr ∧
      count_leaves (build_tree vocabulary) = (nonzero_symbols vocabulary).length ∧
      count_internal (build_tree vocabulary) = (nonzero_symbols vocabulary).length - 1) :=
  build_tree_counts vocabulary

theorem foldl_set_length (code : List Bool) (L : List (List Bool × Nat)) (tbl : List (List Bool)) :
    (L.foldl (fun tb x => tb.set x.2 (code ++ x.1)) tbl).length = tbl.length := by
  induction L generalizing tbl with
  | nil => rfl
  | cons y L ih => rw [List.foldl_cons, ih, List.length_set]

theorem foldl_set_getD_of_not_mem (code : List Bool) (L : List (List Bool × Nat))
    (tbl : List (List Bool)) (v : Nat) (hv : v ∉ L.map Prod.snd) :
    (L.foldl (fun tb x => tb.set x.2 (code ++ x.1)) tbl).getD v [] = tbl.getD v [] := by
  induction L generalizing tbl with
  | nil => rfl
  | cons y L ih =>
    rw [List.map_cons, List.mem_cons, not_or] at hv
    rw [List.foldl_cons, ih _ hv.2, getD_set_eq]
    rw [if_neg]
    intro h
    exact hv.1 h.1.symm

theorem foldl_set_getD_of_mem (code : List Bool) (L : List (List Bool × Nat))
    (tbl : List (List Bool)) (hnd : (L.map Prod.snd).Nodup) (x : List Bool × Nat) (hx : x ∈ L)
    (hlt : x.2 < tbl.length) :
    (L.foldl (fun tb x => tb.set x.2 (code ++ x.1)) tbl).getD x.2 [] = code ++ x.1 := by
  induction L generalizing tbl with
  | nil => simp at hx
  | cons y L ih =>
    rw [List.map_cons, List.nodup_cons] at hnd
    rw [List.foldl_cons]
    rcases List.mem_cons.1 hx with h | h
    · subst h
      rw [foldl_set_getD_of_not_mem _ _ _ _ hnd.1, getD_set_eq, if_pos ⟨rfl, hlt⟩]
    · exact ih _ hnd.2 h (by rw [List.length_set]; exact hlt)

theorem get_next_code_spec (t : TreeNode) (tbl : List (List Bool)) (code : List Bool)
    (h : code ≠ [] ∨ t.is_leaf = false) :
    get_next_code t (tbl, code) =
      ((leaf_paths t).foldl (fun tb x => tb.set x.2 (code ++ x.1)) tbl, code) := by
  induction t generalizing tbl code with
  | nullptr => rfl
  | mk f leaf v l r ihl ihr =>
    cases leaf with
    | true =>
      have hc : code ≠ [] := by
        rcases h with h | h
        · exact h
        · simp [is_leaf] at h
      have he : code.isEmpty = false := by
        cases code with
        | nil => exact (hc rfl).elim
        | cons _ _ => rfl
      simp [get_next_code, leaf_paths, he]
    | false =>
      have h1 := ihl tbl (code ++ [true]) (Or.inl (by simp))
      simp only [get_next_code, Bool.and_false, Bool.false_eq_true, if_false, h1,
        List.dropLast_concat]
      have h2 := ihr ((leaf_paths l).foldl (fun tb x => tb.set x.2 ((code ++ [true]) ++ x.1)) tbl)
        (code ++ [false]) (Or.inl (by simp))
      rw [h2]
      simp only [List.dropLast_concat, leaf_paths, List.foldl_append, List.foldl_map,
        List.append_assoc, List.singleton_append]

theorem get_codes_of_not_leaf (root : TreeNode) (h : root.is_leaf = false) :
    get_codes root =
      (leaf_paths root).foldl (fun tb x => tb.set x.2 ([] ++ x.1)) (List.replicate 256 []) := by
  unfold get_codes
  rw [get_next_code_spec root _ [] (Or.inr h)]

theorem get_codes_of_leaf (f v : Nat) (l r : TreeNode) :
    get_codes (mk f true v l r) = (List.replicate 256 []).set v [true] := by
  unfold get_codes
  simp only [get_next_code, List.isEmpty_nil, Bool.and_self, if_true, List.nil_append]

theorem build_loop_leaves (vocabulary : List Nat) (fuel : Nat) :
    ((build_loop fuel (init_nodes vocabulary)).flatMap fun t =>
      (leaf_paths t).map Prod.snd).Perm (nonzero_symbols vocabulary) := by
  apply build_loop_induction
    (fun nodes => (nodes.flatMap fun t => (leaf_paths t).map Prod.snd).Perm
      (nonzero_symbols vocabulary))
  · intro nodes h2 h3
    obtain ⟨l, r, rest, hp, he, _⟩ := build_step_spec nodes h2
    rw [he]
    refine List.Perm.trans ?_ h3
    refine List.Perm.trans ?_ (List.Perm.flatMap_right _ hp).symm
    simp only [List.flatMap_append, List.flatMap_cons, List.flatMap_nil, List.append_nil,
      leaf_paths, List.map_append, List.map_map]
    have e1 : (List.map (Prod.snd ∘ fun x : List Bool × Nat => (true :: x.1, x.2)) (leaf_paths l))
        = List.map Prod.snd (leaf_paths l) := by
      apply List.map_congr_left; intro x _; rfl
    have e2 : (List.map (Prod.snd ∘ fun x : List Bool × Nat => (false :: x.1, x.2)) (leaf_paths r))
        = List.map Prod.snd (leaf_paths r) := by
      apply List.map_congr_left; intro x _; rfl
    rw [e1, e2, ← List.append_assoc (List.map Prod.snd (leaf_paths l))]
    exact List.perm_append_comm
  · rw [init_nodes_eq]
    generalize nonzero_symbols vocabulary = L
    induction L with
    | nil => exact List.Perm.refl _
    | cons x L ih =>
      simp only [List.map_cons, List.flatMap_cons, leaf_paths, List.map_nil, List.singleton_append]
      exact List.Perm.cons x ih

theorem build_tree_leaves (vocabulary : List Nat) :
    ((leaf_paths (build_tree vocabulary)).map Prod.snd).Perm (nonzero_symbols vocabulary) := by
  have hc := build_loop_leaves vocabulary (init_nodes vocabulary).length
  have hl := build_loop_length_lt (init_nodes vocabulary).length (init_nodes vocabulary)
    (Nat.le_succ _)
  unfold build_tree
  simp only []
  generalize build_loop (init_nodes vocabulary).length (init_nodes vocabulary) = final at hc hl
  match final, hl with
  | [], _ => simpa [leaf_paths] using hc
  | [t], _ => simpa using hc
  | _ :: _ :: _, h => simp only [List.length_cons] at h; omega

theorem nonzero_symbols_nodup (vocabulary : List Nat) : (nonzero_symbols vocabulary).Nodup :=
  List.Nodup.filter _ (List.nodup_range 256)

theorem mem_nonzero_symbols (vocabulary : List Nat) (a : Nat) :
    a ∈ nonzero_symbols vocabulary ↔ a < 256 ∧ vocabulary.getD a 0 ≠ 0 := by
  unfold nonzero_symbols
  rw [List.mem_filter, List.mem_range]
  simp

theorem build_tree_leaves_nodup (vocabulary : List Nat) :
    ((leaf_paths (build_tree vocabulary)).map Prod.snd).Nodup :=
  (build_tree_leaves vocabulary).nodup_iff.2 (nonzero_symbols_nodup vocabulary)

theorem exists_leaf_path (vocabulary : List Nat) (a : Nat) (ha : a < 256)
    (hnz : vocabulary.getD a 0 ≠ 0) :
    ∃ p, (p, a) ∈ leaf_paths (build_tree vocabulary) := by
  have h1 : a ∈ (leaf_paths (build_tree vocabulary)).map Prod.snd :=
    (build_tree_leaves vocabulary).symm.subset ((mem_nonzero_symbols vocabulary a).2 ⟨ha, hnz⟩)
  obtain ⟨x, hx, rfl⟩ := List.mem_map.1 h1
  exact ⟨x.1, hx⟩

theorem leaf_value_lt (vocabulary : List Nat) (x : List Bool × Nat)
    (hx : x ∈ leaf_paths (build_tree vocabulary)) : x.2 < 256 ∧ vocabulary.getD x.2 0 ≠ 0 :=
  (mem_nonzero_symbols vocabulary x.2).1
    ((build_tree_leaves vocabulary).subset (List.mem_map_of_mem _ hx))

theorem leaf_paths_length_of_leaf (t : TreeNode) (h : t.is_leaf = true) :
    (leaf_paths t).length = 1 := by
  cases t with
  | nullptr => simp [is_leaf] at h
  | mk f leaf v l r =>
    simp only [is_leaf] at h
    subst h
    rfl

theorem build_tree_not_leaf (vocabulary : List Nat) (h2 : 2 ≤ (nonzero_symbols vocabulary).length) :
    (build_tree vocabulary).is_leaf = false := by
  have h := (build_tree_leaves vocabulary).length_eq
  rw [List.length_map] at h
  cases hb : (build_tree vocabulary).is_leaf with
  | false => rfl
  | true =>
    have := leaf_paths_length_of_leaf _ hb
    omega

theorem build_tree_leaf_of_one (vocabulary : List Nat) (a : Nat)
    (h1 : nonzero_symbols vocabulary = [a]) :
    ∃ f l r, build_tree vocabulary = mk f true a l r := by
  have hk : (nonzero_symbols vocabulary).length = 1 := by rw [h1]; rfl
  obtain ⟨hne, _, hi⟩ := (build_tree_counts vocabulary).2 (by omega)
  have hp := build_tree_leaves vocabulary
  rw [h1] at hp
  cases hb : build_tree vocabulary with
  | nullptr => exact (hne hb).elim
  | mk f leaf v l r =>
    rw [hb] at hi hp
    cases leaf with
    | false => simp [count_internal, hk] at hi
    | true =>
      simp only [leaf_paths, List.map_cons, List.map_nil] at hp
      have := List.perm_singleton.1 hp
      simp only [List.cons.injEq, and_true] at this
      exact ⟨f, l, r, by rw [this]⟩

theorem code_of_leaf_path (vocabulary : List Nat) (h2 : 2 ≤ (nonzero_symbols vocabulary).length)
    (x : List Bool × Nat) (hx : x ∈ leaf_paths (build_tree vocabulary)) :
    (HuffTree.new vocabulary).get_code_by_char x.2 = x.1 := by
  unfold HuffTree.new HuffTree.get_code_by_char
  simp only []
  rw [get_codes_of_not_leaf _ (build_tree_not_leaf vocabulary h2),
    foldl_set_getD_of_mem [] _ _ (build_tree_leaves_nodup vocabulary) x hx]
  · rfl
  · rw [List.length_replicate]
    exact (leaf_value_lt vocabulary x hx).1

theorem code_mem_leaf_paths (vocabulary : List Nat) (h2 : 2 ≤ (nonzero_symbols vocabulary).length)
    (a : Nat) (ha : a < 256) (hnz : vocabulary.getD a 0 ≠ 0) :
    ((HuffTree.new vocabulary).get_code_by_char a, a) ∈ leaf_paths (build_tree vocabulary) := by
  obtain ⟨p, hp⟩ := exists_leaf_path vocabulary a ha hnz
  rw [code_of_leaf_path vocabulary h2 (p, a) hp]
  exact hp

theorem leaf_paths_no_extension (t : TreeNode) (p x : List Bool) (a b : Nat)
    (h1 : (p, a) ∈ leaf_paths t) (h2 : (p ++ x, b) ∈ leaf_paths t) : x = [] ∧ a = b := by
  induction t generalizing p with
  | nullptr => simp [leaf_paths] at h1
  | mk f leaf v l r ihl ihr =>
    cases leaf with
    | true =>
      simp only [leaf_paths, List.mem_singleton, Prod.mk.injEq] at h1 h2
      obtain ⟨rfl, rfl⟩ := h1
      simp only [List.nil_append] at h2
      exact ⟨h2.1, h2.2.symm⟩
    | false =>
      simp only [leaf_paths, List.mem_append, List.mem_map, Prod.mk.injEq, Prod.exists] at h1 h2
      rcases h1 with ⟨q, a', hq, rfl, rfl⟩ | ⟨q, a', hq, rfl, rfl⟩
      · rcases h2 with ⟨q2, b', hq2, e, rfl⟩ | ⟨q2, b', hq2, e, rfl⟩
        · simp only [List.cons_append, List.cons.injEq, true_and] at e
          subst e
          exact ihl q hq hq2
        · simp at e
      · rcases h2 with ⟨q2, b', hq2, e, rfl⟩ | ⟨q2, b', hq2, e, rfl⟩
        · simp at e
        · simp only [List.cons_append, List.cons.injEq, true_and] at e
          subst e
          exact ihr q hq hq2

/-- C2: for a frequency table with at least two symbols of non-zero count, and two distinct
symbols `a` and `b` of non-zero count, the code that `HuffTree` assigns to `a` is not a
prefix of the code it assigns to `b`. -/
theorem codebook_prefix_free (vocabulary : List Nat)
    (h2 : 2 ≤ (nonzero_symbols vocabulary).length) (a b : Nat)
    (ha : a < 256) (hb : b < 256) (hab : a ≠ b)
    (hna : vocabulary.getD a 0 ≠ 0) (hnb : vocabulary.getD b 0 ≠ 0) :
    ¬ ((HuffTree.new vocabulary).get_code_by_char a <+:
        (HuffTree.new vocabulary).get_code_by_char b) := by
  intro hpre
  obtain ⟨x, hx⟩ := hpre
  have h1 := code_mem_leaf_paths vocabulary h2 a ha hna
  have h3 := code_mem_leaf_paths vocabulary h2 b hb hnb
  rw [← hx] at h3
  exact hab (leaf_paths_no_extension _ _ _ _ _ h1 h3).2

set_option maxRecDepth 100000 in
theorem codebook_prefix_free_witness :
    2 ≤ (nonzero_symbols (List.replicate 97 0 ++ [100, 200, 300] ++ List.replicate 156 0)).length
    ∧ 97 < 256 ∧ 99 < 256 ∧ 97 ≠ 99
    ∧ (List.replicate 97 0 ++ [100, 200, 300] ++ List.replicate 156 0).getD 97 0 ≠ 0
    ∧ (List.replicate 97 0 ++ [100, 200, 300] ++ List.replicate 156 0).getD 99 0 ≠ 0
    ∧ ¬ ((HuffTree.new (List.replicate 97 0 ++ [100, 200, 300] ++
          List.replicate 156 0)).get_code_by_char 97 <+:
        (HuffTree.new (List.replicate 97 0 ++ [100, 200, 300] ++
          List.replicate 156 0)).get_code_by_char 99) :=
  ⟨by decide, by decide, by decide, by decide, by decide, by decide,
    codebook_prefix_free _ (by decide) 97 99 (by decide) (by decide) (by decide) (by decide)
      (by decide)⟩

theorem walk_nil (cur : TreeNode) : walk cur [] = (cur, []) := by
  cases cur <;> rfl

theorem not_leaf_of_path_ne_nil (t : TreeNode) (q : List Bool) (v : Nat)
    (h : (q, v) ∈ leaf_paths t) (hq : q ≠ []) : t.is_leaf = false ∧ t ≠ nullptr := by
  cases t with
  | nullptr => simp [leaf_paths] at h
  | mk f leaf w l r =>
    cases leaf with
    | true =>
      simp only [leaf_paths, List.mem_singleton, Prod.mk.injEq] at h
      exact (hq h.1).elim
    | false => exact ⟨rfl, by simp⟩

theorem walk_leaf_path (t : TreeNode) (q : List Bool) (v : Nat) (h : (q, v) ∈ leaf_paths t)
    (rest : List Bool) :
    (walk t (q ++ rest)).2 = rest ∧ (walk t (q ++ rest)).1.is_leaf = true ∧
      (walk t (q ++ rest)).1.get_value = v ∧ (walk t (q ++ rest)).1 ≠ nullptr := by
  induction t generalizing q with
  | nullptr => simp [leaf_paths] at h
  | mk f leaf w l r ihl ihr =>
    cases leaf with
    | true =>
      simp only [leaf_paths, List.mem_singleton, Prod.mk.injEq] at h
      obtain ⟨rfl, rfl⟩ := h
      cases rest with
      | nil => simp [walk, is_leaf, get_value]
      | cons b rest => simp [walk, is_leaf, get_value]
    | false =>
      simp only [leaf_paths, List.mem_append, List.mem_map, Prod.mk.injEq, Prod.exists] at h
      rcases h with ⟨q', v', hq, rfl, rfl⟩ | ⟨q', v', hq, rfl, rfl⟩
      · simpa [walk] using ihl q' hq
      · simpa [walk] using ihr q' hq

theorem walk_partial (t : TreeNode) (B q' : List Bool) (v : Nat)
    (h : (B ++ q', v) ∈ leaf_paths t) :
    (walk t B).2 = [] ∧ (q', v) ∈ leaf_paths (walk t B).1 := by
  induction t generalizing B with
  | nullptr => simp [leaf_paths] at h
  | mk f leaf w l r ihl ihr =>
    cases B with
    | nil => simpa [walk] using h
    | cons b B =>
      cases leaf with
      | true =>
        simp [leaf_paths] at h
      | false =>
        simp only [leaf_paths, List.mem_append, List.mem_map, Prod.mk.injEq, Prod.exists,
          List.cons_append, List.cons.injEq] at h
        rcases h with ⟨p, v', hp, ⟨rfl, rfl⟩, rfl⟩ | ⟨p, v', hp, ⟨rfl, rfl⟩, rfl⟩
        · simpa [walk] using ihl B hp
        · simpa [walk] using ihr B hp

/-- One call of `try_extract_code` when the queue holds all the bits still needed for the
current symbol: the symbol is produced, exactly those bits are consumed and the cursor is
back at the root. -/
theorem try_extract_code_emit (tree : HuffTree) (q B' : List Bool) (sym chr : Nat)
    (hc : CodeAt tree.root tree.cur_node q sym) :
    try_extract_code tree (q ++ B') chr =
      { ret := some true, tree := { tree with cur_node := tree.root }, buffer := B',
        chr := sym } := by
  rcases hc with ⟨hq, hmem⟩ | ⟨hroot, ⟨f, l, r, hleaf⟩, hlen⟩
  · have hnl := not_leaf_of_path_ne_nil _ _ _ hmem hq
    obtain ⟨w1, w2, w3, w4⟩ := walk_leaf_path _ _ _ hmem B'
    unfold try_extract_code
    rw [if_neg (by simp [hnl.1])]
    simp only [w4, if_false, w2, if_true, w1, w3]
  · match q, hlen with
    | [b], _ =>
      unfold try_extract_code
      rw [if_pos]
      · cases tree with
        | mk root codes cur =>
          simp only at hroot hleaf ⊢
          subst hroot
          simp [hleaf, get_value]
      · refine ⟨?_, hroot, ?_, by simp⟩
        · rw [hleaf]; simp
        · rw [hleaf]; rfl

/-- One call of `try_extract_code` when the queue holds only a proper, non-empty part of
the bits still needed: it returns `false`, the queue is emptied, and the cursor has moved
down the tree by the bits consumed. -/
theorem try_extract_code_partial (tree : HuffTree) (B q' : List Bool) (sym chr : Nat)
    (hB : B ≠ []) (hq : q' ≠ []) (hc : CodeAt tree.root tree.cur_node (B ++ q') sym) :
    ∃ cur', try_extract_code tree B chr =
      { ret := some false, tree := { tree with cur_node := cur' }, buffer := [], chr := chr } ∧
      CodeAt tree.root cur' q' sym := by
  rcases hc with ⟨_, hmem⟩ | ⟨_, _, hlen⟩
  · have hnl := not_leaf_of_path_ne_nil _ _ _ hmem (by simp [hB])
    obtain ⟨w1, w2⟩ := walk_partial _ _ _ _ hmem
    have hnl2 := not_leaf_of_path_ne_nil _ _ _ w2 hq
    refine ⟨(walk tree.cur_node B).1, ?_, Or.inl ⟨hq, w2⟩⟩
    unfold try_extract_code
    rw [if_neg (by simp [hnl.1])]
    simp only [hnl2.2, if_false, hnl2.1, Bool.false_eq_true, w1]
  · exfalso
    cases B with
    | nil => exact hB rfl
    | cons b B =>
      cases q' with
      | nil => exact hq rfl
      | cons c q' => simp at hlen

theorem CodeAt_ne_nil (root cur : TreeNode) (q : List Bool) (sym : Nat)
    (h : CodeAt root cur q sym) : q ≠ [] := by
  rcases h with ⟨h, _⟩ | ⟨_, _, h⟩
  · exact h
  · intro h0; rw [h0] at h; simp at h

theorem decode_loop_done (data : List Nat) (n fuel : Nat) (s : DecodeState) (h : ¬ s.i < n) :
    decode_loop data n fuel s = some (.done s) := by
  cases fuel <;> simp [decode_loop, h]

theorem decode_loop_fail (data : List Nat) (n fuel : Nat) (s : DecodeState) (hi : s.i < n)
    (hfill : (if s.buffer = [] then fill_buffer data s.in_pos s.buffer
      else some (s.in_pos, s.buffer)) = none) :
    decode_loop data n (fuel + 1) s = some (.thrown .ios_failure s.out) := by
  rw [decode_loop, if_pos hi, hfill]

theorem decode_loop_succ (data : List Nat) (n fuel : Nat) (s : DecodeState) (hi : s.i < n)
    (pos1 : Nat) (buffer1 : List Bool)
    (hfill : (if s.buffer = [] then fill_buffer data s.in_pos s.buffer
      else some (s.in_pos, s.buffer)) = some (pos1, buffer1)) :
    decode_loop data n (fuel + 1) s =
      match (try_extract_code s.tree buffer1 s.chr).ret with
      | none => some (.thrown .logic_error s.out)
      | some true =>
        decode_loop data n fuel
          { tree := (try_extract_code s.tree buffer1 s.chr).tree,
            buffer := (try_extract_code s.tree buffer1 s.chr).buffer,
            chr := (try_extract_code s.tree buffer1 s.chr).chr, i := s.i + 1, in_pos := pos1,
            out := s.out ++ [(try_extract_code s.tree buffer1 s.chr).chr] }
      | some false =>
        decode_loop data n fuel
          { tree := (try_extract_code s.tree buffer1 s.chr).tree,
            buffer := (try_extract_code s.tree buffer1 s.chr).buffer,
            chr := (try_extract_code s.tree buffer1 s.chr).chr, i := s.i, in_pos := pos1,
            out := s.out } := by
  rw [decode_loop, if_pos hi, hfill]

theorem fill_buffer_cons (data : List Nat) (pos : Nat) (buffer : List Bool) (c : Nat)
    (rd : List Nat) (h : data.drop pos = c :: rd) :
    fill_buffer data pos buffer = some (pos + 1, buffer ++ byte_bits c) ∧
      data.drop (pos + 1) = rd ∧ pos + 1 ≤ data.length := by
  have hlt : pos < data.length := by
    by_contra h0
    rw [List.drop_eq_nil_of_le (by omega)] at h
    exact List.noConfusion h
  have h2 := List.drop_eq_getElem_cons hlt
  rw [h] at h2
  obtain ⟨h3, h4⟩ := List.cons.inj h2
  refine ⟨?_, h4.symm, hlt⟩
  unfold fill_buffer
  rw [List.get?_eq_getElem?, List.getElem?_eq_getElem hlt, ← h3]

theorem fill_buffer_nil (data : List Nat) (pos : Nat) (buffer : List Bool)
    (h : data.drop pos = []) : fill_buffer data pos buffer = none := by
  unfold fill_buffer
  rw [List.get?_eq_getElem?, List.getElem?_eq_none (List.drop_eq_nil_iff.1 h)]

/-- The decode loop on a bit stream that carries the codes of `sym :: rest` (the first one
from position `q` on): if the stream holds them all (`Y = []`) the loop ends having written
exactly these symbols; if the stream stops short of them (`Y ≠ []`) the loop throws on the
read past the end of the source. -/
theorem decode_loop_spec (root : TreeNode) (code : Nat → List Bool) (data : List Nat) (n : Nat)
    (Y tail : List Bool) (hY : Y = [] ∨ tail = []) (fuel : Nat) :
    ∀ (s : DecodeState) (sym : Nat) (rest : List Nat) (q : List Bool),
      s.tree.root = root →
      (∀ x ∈ rest, CodeAt root root (code x) x) →
      CodeAt root s.tree.cur_node q sym →
      s.buffer ++ (data.drop s.in_pos).flatMap byte_bits ++ Y = q ++ rest.flatMap code ++ tail →
      s.i + (rest.length + 1) = n →
      s.in_pos ≤ data.length →
      (n - s.i) + (data.length - s.in_pos) + (if s.buffer = [] then 0 else 1) ≤ fuel →
      (Y = [] → ∃ s', decode_loop data n fuel s = some (.done s') ∧
          s'.out = s.out ++ sym :: rest ∧
          s'.buffer ++ (data.drop s'.in_pos).flatMap byte_bits = tail ∧
          s'.in_pos ≤ data.length ∧ s'.i = n) ∧
      (Y ≠ [] → ∃ out, decode_loop data n fuel s = some (.thrown .ios_failure out)) := by
  induction fuel with
  | zero =>
    intro s sym rest q _ _ _ _ hi _ hm
    omega
  | succ fuel ih =>
    intro s sym rest q hroot hrest hcode hstream hi hpos hm
    have hlt : s.i < n := by omega
    have hq := CodeAt_ne_nil _ _ _ _ hcode
    -- what happens once the queue is known to be non-empty
    have key : ∀ (pos1 : Nat) (buffer1 : List Bool),
        (if s.buffer = [] then fill_buffer data s.in_pos s.buffer
          else some (s.in_pos, s.buffer)) = some (pos1, buffer1) →
        buffer1 ≠ [] →
        buffer1 ++ (data.drop pos1).flatMap byte_bits ++ Y = q ++ rest.flatMap code ++ tail →
        pos1 ≤ data.length →
        (n - s.i) + (data.length - pos1) ≤ fuel →
        (Y = [] → ∃ s', decode_loop data n (fuel + 1) s = some (.done s') ∧
            s'.out = s.out ++ sym :: rest ∧
            s'.buffer ++ (data.drop s'.in_pos).flatMap byte_bits = tail ∧
            s'.in_pos ≤ data.length ∧ s'.i = n) ∧
        (Y ≠ [] → ∃ out, decode_loop data n (fuel + 1) s = some (.thrown .ios_failure out)) := by
      intro pos1 buffer1 hfill hb1 hs1 hp1 hm1
      rw [decode_loop_succ data n fuel s hlt pos1 buffer1 hfill]
      -- emitting a symbol with `B'` left in the queue
      have emit : ∀ B' : List Bool, buffer1 = q ++ B' →
          B' ++ (data.drop pos1).flatMap byte_bits ++ Y = rest.flatMap code ++ tail →
          (Y = [] → ∃ s', (match (try_extract_code s.tree buffer1 s.chr).ret with
              | none => some (Outcome.thrown Exn.logic_error s.out)
              | some true =>
                decode_loop data n fuel
                  { tree := (try_extract_code s.tree buffer1 s.chr).tree,
                    buffer := (try_extract_code s.tree buffer1 s.chr).buffer,
                    chr := (try_extract_code s.tree buffer1 s.chr).chr, i := s.i + 1,
                    in_pos := pos1,
                    out := s.out ++ [(try_extract_code s.tree buffer1 s.chr).chr] }
              | some false =>
                decode_loop data n fuel
                  { tree := (try_extract_code s.tree buffer1 s.chr).tree,
                    buffer := (try_extract_code s.tree buffer1 s.chr).buffer,
                    chr := (try_extract_code s.tree buffer1 s.chr).chr, i := s.i,
                    in_pos := pos1, out := s.out }) = some (.done s') ∧
              s'.out = s.out ++ sym :: rest ∧
              s'.buffer ++ (data.drop s'.in_pos).flatMap byte_bits = tail ∧
              s'.in_pos ≤ data.length ∧ s'.i = n) ∧
          (Y ≠ [] → ∃ out, (match (try_extract_code s.tree buffer1 s.chr).ret with
              | none => some (Outcome.thrown Exn.logic_error s.out)
              | some true =>
                decode_loop data n fuel
                  { tree := (try_extract_code s.tree buffer1 s.chr).tree,
                    buffer := (try_extract_code s.tree buffer1 s.chr).buffer,
                    chr := (try_extract_code s.tree buffer1 s.chr).chr, i := s.i + 1,
                    in_pos := pos1,
                    out := s.out ++ [(try_extract_code s.tree buffer1 s.chr).chr] }
              | some false =>
                decode_loop data n fuel
                  { tree := (try_extract_code s.tree buffer1 s.chr).tree,
                    buffer := (try_extract_code s.tree buffer1 s.chr).buffer,
                    chr := (try_extract_code s.tree buffer1 s.chr).chr, i := s.i,
                    in_pos := pos1, out := s.out }) = some (.thrown .ios_failure out)) := by
        intro B' hB hs2
        have he := try_extract_code_emit s.tree q B' sym s.chr (by rw [hroot]; exact hcode)
        rw [hB, he]
        simp only []
        cases rest with
        | nil =>
          have hdone := decode_loop_done data n fuel
            { tree := { s.tree with cur_node := s.tree.root }, buffer := B', chr := sym,
              i := s.i + 1, in_pos := pos1, out := s.out ++ [sym] }
            (by simp only [List.length_nil] at hi; simp only []; omega)
          rw [hdone]
          simp only [List.flatMap_nil, List.nil_append] at hs2
          constructor
          · intro hY0
            refine ⟨_, rfl, rfl, ?_, hp1, ?_⟩
            · simp only []
              rw [← hs2, hY0, List.append_nil]
            · simp only [List.length_nil] at hi
              simp only []
              omega
          · intro hY1
            exfalso
            rcases hY with h | h
            · exact hY1 h
            · rw [h] at hs2
              exact hY1 (List.append_eq_nil.1 hs2).2
        | cons sym' rest' =>
          have hih := ih
            { tree := { s.tree with cur_node := s.tree.root }, buffer := B', chr := sym,
              i := s.i + 1, in_pos := pos1, out := s.out ++ [sym] } sym' rest' (code sym')
            hroot (fun x hx => hrest x (List.mem_cons_of_mem _ hx))
            (by simp only []; rw [hroot]; exact hrest sym' (List.mem_cons_self _ _))
            (by simp only []; rw [hs2, List.flatMap_cons])
            (by simp only [List.length_cons] at hi ⊢; omega)
            hp1
            (by simp only []; split <;> omega)
          simp only [List.append_assoc, List.singleton_append] at hih
          exact hih
      rcases List.append_eq_append_iff.1
          (show buffer1 ++ ((data.drop pos1).flatMap byte_bits ++ Y) =
            q ++ (rest.flatMap code ++ tail) by
            rw [← List.append_assoc, ← List.append_assoc]; exact hs1) with
        ⟨a', ha1, ha2⟩ | ⟨c', hc1, hc2⟩
      · by_cases ha : a' = []
        · subst ha
          refine emit [] (by rw [List.append_nil] at ha1 ⊢; exact ha1.symm) ?_
          rw [List.nil_append] at ha2 ⊢
          exact ha2
        · -- only part of the code is in the queue
          obtain ⟨cur', he, hc'⟩ := try_extract_code_partial s.tree buffer1 a' sym s.chr hb1 ha
            (by rw [hroot, ← ha1]; exact hcode)
          rw [he]
          simp only []
          have hih := ih
            { tree := { s.tree with cur_node := cur' }, buffer := [], chr := s.chr, i := s.i,
              in_pos := pos1, out := s.out } sym rest a'
            hroot hrest (by simp only []; rw [← hroot]; exact hc')
            (by simp only [List.nil_append]; rw [ha2, List.append_assoc])
            hi hp1 (by simp only [if_true]; omega)
          exact hih
      · refine emit c' hc1 ?_
        rw [List.append_assoc, ← hc2]
    by_cases hb : s.buffer = []
    · cases hd : data.drop s.in_pos with
      | nil =>
        have hfill : (if s.buffer = [] then fill_buffer data s.in_pos s.buffer
            else some (s.in_pos, s.buffer)) = none := by
          rw [if_pos hb]; exact fill_buffer_nil data s.in_pos s.buffer hd
        rw [decode_loop_fail data n fuel s hlt hfill]
        constructor
        · intro hY0
          exfalso
          rw [hb, hd, hY0] at hstream
          simp only [List.flatMap_nil, List.nil_append, List.append_nil] at hstream
          have := (List.append_eq_nil.1 hstream.symm).1
          exact hq (List.append_eq_nil.1 this).1
        · intro _
          exact ⟨s.out, rfl⟩
      | cons c rd =>
        obtain ⟨f1, f2, f3⟩ := fill_buffer_cons data s.in_pos s.buffer c rd hd
        refine key (s.in_pos + 1) (s.buffer ++ byte_bits c) (by rw [if_pos hb]; exact f1) ?_ ?_ f3
          ?_
        · intro h0
          have := congrArg List.length h0
          simp [byte_bits_length] at this
        · rw [f2, ← hstream, hd, List.flatMap_cons]
          simp only [List.append_assoc]
        · rw [if_pos hb] at hm
          omega
    · refine key s.in_pos s.buffer (by rw [if_neg hb]) hb hstream hpos ?_
      rw [if_neg hb] at hm
      omega

theorem path_ne_nil_of_not_leaf (t : TreeNode) (q : List Bool) (v : Nat)
    (ht : t.is_leaf = false) (h : (q, v) ∈ leaf_paths t) : q ≠ [] := by
  cases t with
  | nullptr => simp [leaf_paths] at h
  | mk f leaf w l r =>
    simp only [is_leaf] at ht
    subst ht
    simp only [leaf_paths, List.mem_append, List.mem_map, Prod.mk.injEq, Prod.exists] at h
    rcases h with ⟨_, _, _, rfl, _⟩ | ⟨_, _, _, rfl, _⟩ <;> simp

theorem getD_replicate_nil (n b : Nat) :
    (List.replicate n ([] : List Bool)).getD b [] = [] := by
  simp only [List.getD_eq_getElem?_getD, List.getElem?_replicate]
  split <;> rfl

/-- Every symbol with a non-zero count has, in the tree built from the table, the code the
decoder expects with its cursor at the root. -/
theorem code_at_root (vocabulary : List Nat) (a : Nat) (ha : a < 256)
    (hnz : vocabulary.getD a 0 ≠ 0) :
    CodeAt (build_tree vocabulary) (build_tree vocabulary)
      ((HuffTree.new vocabulary).get_code_by_char a) a := by
  have hmem := (mem_nonzero_symbols vocabulary a).2 ⟨ha, hnz⟩
  by_cases h2 : 2 ≤ (nonzero_symbols vocabulary).length
  · have h := code_mem_leaf_paths vocabulary h2 a ha hnz
    exact Or.inl ⟨path_ne_nil_of_not_leaf _ _ _ (build_tree_not_leaf vocabulary h2) h, h⟩
  · have h1 : nonzero_symbols vocabulary = [a] := by
      match hL : nonzero_symbols vocabulary with
      | [] => rw [hL] at hmem; simp at hmem
      | [x] => rw [hL] at hmem; simp at hmem; rw [hmem]
      | _ :: _ :: _ => rw [hL] at h2; simp at h2
    obtain ⟨f, l, r, hr⟩ := build_tree_leaf_of_one vocabulary a h1
    refine Or.inr ⟨rfl, ⟨f, l, r, hr⟩, ?_⟩
    unfold HuffTree.new HuffTree.get_code_by_char
    simp only []
    rw [hr, get_codes_of_leaf, getD_set_eq, if_pos ⟨rfl, by rw [List.length_replicate]; exact ha⟩]
    rfl

theorem read_exact_append (pre mid post : List Nat) :
    read_exact (pre ++ mid ++ post) pre.length mid.length = some mid := by
  unfold read_exact
  rw [if_pos (by simp only [List.length_append]; omega), List.append_assoc, List.drop_left,
    List.take_left]

theorem read_exact_initial (P A : List Nat) (pos n : Nat) (hP : P <+: A)
    (h : pos + n ≤ P.length) : read_exact P pos n = read_exact A pos n := by
  obtain ⟨t, rfl⟩ := hP
  unfold read_exact
  rw [if_pos h, if_pos (by simp only [List.length_append]; omega),
    List.drop_append_of_le_length (by omega),
    List.take_append_of_le_length (by rw [List.length_drop]; omega)]

theorem read_exact_none (P : List Nat) (pos n : Nat) (h : P.length < pos + n) :
    read_exact P pos n = none := by
  unfold read_exact
  rw [if_neg (by omega)]

theorem extract_vocabulary_loop_spec (be : Bool) (L : List (Nat × Nat)) (pre post v : List Nat)
    (hL : ∀ r ∈ L, r.2 < 2 ^ 32) :
    extract_vocabulary_loop be (pre ++ (L.flatMap fun r => r.1 :: u32_bytes be r.2) ++ post)
      L.length pre.length v =
        some (L.foldl (fun v r => v.set r.1 r.2) v, pre.length + 5 * L.length) := by
  induction L generalizing pre v with
  | nil => simp [extract_vocabulary_loop]
  | cons r L ih =>
    have e : pre ++ ((r :: L).flatMap fun r => r.1 :: u32_bytes be r.2) ++ post =
        (pre ++ (r.1 :: u32_bytes be r.2)) ++ (L.flatMap fun r => r.1 :: u32_bytes be r.2)
          ++ post := by
      simp only [List.flatMap_cons, List.append_assoc, List.cons_append]
    have r1 : read_exact (pre ++ ((r :: L).flatMap fun r => r.1 :: u32_bytes be r.2) ++ post)
        pre.length 1 = some [r.1] := by
      have := read_exact_append pre [r.1]
        (u32_bytes be r.2 ++ (L.flatMap fun r => r.1 :: u32_bytes be r.2) ++ post)
      simp only [List.flatMap_cons, List.append_assoc, List.cons_append, List.length_singleton,
        List.singleton_append, List.nil_append] at this ⊢
      exact this
    have r2 : read_exact (pre ++ ((r :: L).flatMap fun r => r.1 :: u32_bytes be r.2) ++ post)
        (pre.length + 1) 4 = some (u32_bytes be r.2) := by
      have := read_exact_append (pre ++ [r.1]) (u32_bytes be r.2)
        ((L.flatMap fun r => r.1 :: u32_bytes be r.2) ++ post)
      simp only [List.flatMap_cons, List.append_assoc, List.cons_append, List.length_append,
        List.length_singleton, List.singleton_append, List.nil_append, u32_bytes_length]
        at this ⊢
      exact this
    rw [List.length_cons, extract_vocabulary_loop, r1, r2]
    simp only [List.headD_cons]
    rw [e]
    have := ih (pre ++ (r.1 :: u32_bytes be r.2))
      (v.set r.1 (u32_of_bytes be (u32_bytes be r.2)))
      (fun x hx => hL x (List.mem_cons_of_mem _ hx))
    simp only [List.length_append, List.length_cons, u32_bytes_length] at this
    rw [this, u32_of_bytes_u32_bytes, Nat.mod_eq_of_lt (hL r (List.mem_cons_self _ _)),
      List.foldl_cons]
    congr 2
    omega

theorem extract_vocabulary_loop_initial (be : Bool) (P A : List Nat) (hP : P <+: A) (n pos : Nat)
    (v : List Nat) (h : pos + 5 * n ≤ P.length) :
    extract_vocabulary_loop be P n pos v = extract_vocabulary_loop be A n pos v := by
  induction n generalizing pos v with
  | zero => rfl
  | succ n ih =>
    rw [extract_vocabulary_loop, extract_vocabulary_loop,
      read_exact_initial P A pos 1 hP (by omega), read_exact_initial P A (pos + 1) 4 hP (by omega)]
    cases read_exact A pos 1 with
    | none => rfl
    | some chr =>
      cases read_exact A (pos + 1) 4 with
      | none => rfl
      | some fr =>
        simp only []
        exact ih (pos + 5) _ (by omega)

theorem extract_vocabulary_loop_short (be : Bool) (P : List Nat) (n pos : Nat) (v : List Nat)
    (h1 : pos ≤ P.length) (h2 : P.length < pos + 5 * n) :
    extract_vocabulary_loop be P n pos v = none := by
  induction n generalizing pos v with
  | zero => omega
  | succ n ih =>
    rw [extract_vocabulary_loop]
    by_cases hr : pos + 5 ≤ P.length
    · have e1 : read_exact P pos 1 = some ((P.drop pos).take 1) := by
        unfold read_exact; rw [if_pos (by omega)]
      have e2 : read_exact P (pos + 1) 4 = some ((P.drop (pos + 1)).take 4) := by
        unfold read_exact; rw [if_pos (by omega)]
      rw [e1, e2]
      simp only []
      exact ih (pos + 5) _ hr (by omega)
    · by_cases hr1 : pos + 1 ≤ P.length
      · have e1 : read_exact P pos 1 = some ((P.drop pos).take 1) := by
          unfold read_exact; rw [if_pos (by omega)]
        rw [e1, read_exact_none P (pos + 1) 4 (by omega)]
      · rw [read_exact_none P pos 1 (by omega)]

theorem foldl_set_pairs_length (L : List (Nat × Nat)) (v : List Nat) :
    (L.foldl (fun v r => v.set r.1 r.2) v).length = v.length := by
  induction L generalizing v with
  | nil => rfl
  | cons r L ih => rw [List.foldl_cons, ih, List.length_set]

theorem foldl_set_pairs_of_not_mem (L : List (Nat × Nat)) (v : List Nat) (j : Nat)
    (hj : j ∉ L.map Prod.fst) :
    (L.foldl (fun v r => v.set r.1 r.2) v).getD j 0 = v.getD j 0 := by
  induction L generalizing v with
  | nil => rfl
  | cons r L ih =>
    rw [List.map_cons, List.mem_cons, not_or] at hj
    rw [List.foldl_cons, ih _ hj.2, getD_set_eq, if_neg]
    intro h
    exact hj.1 h.1.symm

theorem foldl_set_pairs_of_mem (L : List (Nat × Nat)) (v : List Nat)
    (hnd : (L.map Prod.fst).Nodup) (r : Nat × Nat) (hr : r ∈ L) (hlt : r.1 < v.length) :
    (L.foldl (fun v r => v.set r.1 r.2) v).getD r.1 0 = r.2 := by
  induction L generalizing v with
  | nil => simp at hr
  | cons y L ih =>
    rw [List.map_cons, List.nodup_cons] at hnd
    rw [List.foldl_cons]
    rcases List.mem_cons.1 hr with h | h
    · subst h
      rw [foldl_set_pairs_of_not_mem _ _ _ hnd.1, getD_set_eq, if_pos ⟨rfl, hlt⟩]
    · exact ih _ hnd.2 h (by rw [List.length_set]; exact hlt)

theorem list_eq_of_getD (v w : List Nat) (hl : v.length = w.length)
    (h : ∀ j, j < v.length → v.getD j 0 = w.getD j 0) : v = w := by
  apply List.ext_getElem hl
  intro j h1 h2
  have := h j h1
  rwa [List.getD_eq_getElem _ _ h1, List.getD_eq_getElem _ _ h2] at this

theorem records_rebuild_vocabulary (S : List Nat) (hS : ∀ b ∈ S, b < 256)
    (hlen : S.length < 2 ^ 32) :
    ((present_symbols S).map fun b => (b, S.count b)).foldl (fun v r => v.set r.1 r.2)
      (List.replicate 256 0) = (build_vocabulary (HuffmanArchiver.new S)).1 := by
  apply list_eq_of_getD
  · rw [foldl_set_pairs_length, List.length_replicate, build_vocabulary_length]
  · intro j hj
    rw [foldl_set_pairs_length, List.length_replicate] at hj
    rw [build_vocabulary_getD_eq S hS hlen j]
    have hkeys : (((present_symbols S).map fun b => (b, S.count b)).map Prod.fst)
        = present_symbols S := by
      rw [List.map_map]
      exact List.map_id _
    by_cases hm : j ∈ S
    · have hr : (j, S.count j) ∈ (present_symbols S).map fun b => (b, S.count b) :=
        List.mem_map.2 ⟨j, (present_symbols_mem S hS j).2 hm, rfl⟩
      exact foldl_set_pairs_of_mem _ _ (by rw [hkeys]; exact present_symbols_nodup S) _ hr
        (by rw [List.length_replicate]; exact hj)
    · rw [foldl_set_pairs_of_not_mem _ _ _
        (by rw [hkeys, present_symbols_mem S hS j]; exact hm),
        getD_replicate_zero, List.count_eq_zero_of_not_mem hm]

/-- Reading back the header that `zip` writes: the original size, then the frequency
table of the input, with the get position left right after the last record. -/
theorem parse_expected_header (be : Bool) (S : List Nat) (hS : ∀ b ∈ S, b < 256)
    (hlen : S.length < 2 ^ 32) (payload : List Nat) :
    read_exact (expected_header be S ++ payload) 0 4 = some (u32_bytes be S.length) ∧
    extract_vocabulary be (expected_header be S ++ payload) 4 =
      some ((build_vocabulary (HuffmanArchiver.new S)).1,
        8 + 5 * (present_symbols S).length) := by
  have hk := present_symbols_length_le S
  constructor
  · have := read_exact_append [] (u32_bytes be S.length)
      (u32_bytes be (present_symbols S).length ++
        ((present_symbols S).flatMap fun b => b :: u32_bytes be (S.count b)) ++ payload)
    simp only [List.nil_append, List.length_nil, u32_bytes_length] at this
    unfold expected_header
    simp only [List.append_assoc] at this ⊢
    exact this
  · unfold extract_vocabulary
    have r : read_exact (expected_header be S ++ payload) 4 4 =
        some (u32_bytes be (present_symbols S).length) := by
      have := read_exact_append (u32_bytes be S.length) (u32_bytes be (present_symbols S).length)
        (((present_symbols S).flatMap fun b => b :: u32_bytes be (S.count b)) ++ payload)
      simp only [u32_bytes_length] at this
      unfold expected_header
      simp only [List.append_assoc] at this ⊢
      exact this
    rw [r]
    simp only []
    rw [u32_of_bytes_u32_bytes, Nat.mod_eq_of_lt (by omega)]
    have := extract_vocabulary_loop_spec be ((present_symbols S).map fun b => (b, S.count b))
      (u32_bytes be S.length ++ u32_bytes be (present_symbols S).length) payload
      (List.replicate 256 0)
      (by
        intro r hr
        obtain ⟨b, _, rfl⟩ := List.mem_map.1 hr
        exact count_lt_of_length_lt S hlen b)
    rw [List.flatMap_map, List.length_map, List.length_append, u32_bytes_length,
      u32_bytes_length, records_rebuild_vocabulary S hS hlen] at this
    unfold expected_header
    exact this

theorem code_at_root_of_mem (S : List Nat) (hS : ∀ b ∈ S, b < 256) (hlen : S.length < 2 ^ 32)
    (x : Nat) (hx : x ∈ S) :
    CodeAt (build_tree (build_vocabulary (HuffmanArchiver.new S)).1)
      (build_tree (build_vocabulary (HuffmanArchiver.new S)).1)
      ((HuffTree.new (build_vocabulary (HuffmanArchiver.new S)).1).get_code_by_char x) x := by
  apply code_at_root _ x (hS x hx)
  rw [build_vocabulary_getD_eq S hS hlen x]
  have := List.count_pos_iff.2 hx
  omega

/-- `unzip` on a source made of the header `zip` writes for `S` followed by payload bytes
whose bits, completed by `Y`, are the codes of `S` followed by `tail`: when nothing is
missing (`Y = []`) it succeeds and writes `S`; when the payload stops short of the codes
(`Y ≠ []`) it throws on a read past the end. -/
theorem unzip_expected_header (be : Bool) (S : List Nat) (hS : ∀ b ∈ S, b < 256)
    (hlen : S.length < 2 ^ 32) (payload : List Nat) (Y tail : List Bool)
    (hY : Y = [] ∨ tail = [])
    (hbits : payload.flatMap byte_bits ++ Y =
      S.flatMap (HuffTree.new (build_vocabulary (HuffmanArchiver.new S)).1).get_code_by_char
        ++ tail) :
    (Y = [] → ∃ a', unzip be (HuffmanArchiver.new (expected_header be S ++ payload))
          = some (.done a') ∧
        a'.out = S ∧ a'.out_file_size = S.length ∧
        a'.extra_data_size = 8 + 5 * (present_symbols S).length ∧
        a'.in_file_size = (a'.in_pos % 2 ^ 32 + 2 ^ 32 - a'.extra_data_size) % 2 ^ 32 ∧
        (tail.length < 8 → a'.in_pos = (expected_header be S ++ payload).length)) ∧
    (Y ≠ [] → ∃ out, unzip be (HuffmanArchiver.new (expected_header be S ++ payload))
          = some (.thrown .ios_failure out)) := by
  obtain ⟨hr1, hr2⟩ := parse_expected_header be S hS hlen payload
  have hk := present_symbols_length_le S
  have hhl := expected_header_length be S
  have hdrop : (expected_header be S ++ payload).drop (8 + 5 * (present_symbols S).length)
      = payload := by
    rw [← hhl, List.drop_left]
  unfold unzip
  simp only [HuffmanArchiver.new, Nat.zero_add]
  rw [hr1]
  simp only []
  rw [hr2]
  simp only []
  rw [u32_of_bytes_u32_bytes, Nat.mod_eq_of_lt hlen, Nat.mod_eq_of_lt (by omega : 8 + 5 * (present_symbols S).length < 2 ^ 32)]
  unfold decode
  cases S with
  | nil =>
    rw [decode_loop_done _ _ _ _ (by simp)]
    simp only [List.flatMap_nil, List.nil_append] at hbits
    constructor
    · intro hY0
      refine ⟨_, rfl, rfl, rfl, rfl, rfl, ?_⟩
      intro ht
      simp only []
      rw [hY0, List.append_nil] at hbits
      have := congrArg List.length hbits
      rw [flatMap_byte_bits_length] at this
      rw [List.length_append, hhl]
      omega
    · intro hY1
      exfalso
      rcases hY with h | h
      · exact hY1 h
      · rw [h] at hbits
        exact hY1 (List.append_eq_nil.1 hbits).2
  | cons sym rest =>
    have hspec := decode_loop_spec
      (build_tree (build_vocabulary (HuffmanArchiver.new (sym :: rest))).1)
      (HuffTree.new (build_vocabulary (HuffmanArchiver.new (sym :: rest))).1).get_code_by_char
      (expected_header be (sym :: rest) ++ payload) (sym :: rest).length Y tail hY
      ((sym :: rest).length + ((expected_header be (sym :: rest) ++ payload).length -
        (8 + 5 * (present_symbols (sym :: rest)).length)))
      { tree := HuffTree.new (build_vocabulary (HuffmanArchiver.new (sym :: rest))).1,
        buffer := [], chr := 0, i := 0,
        in_pos := 8 + 5 * (present_symbols (sym :: rest)).length, out := [] }
      sym rest
      ((HuffTree.new (build_vocabulary (HuffmanArchiver.new (sym :: rest))).1).get_code_by_char
        sym)
      rfl
      (fun x hx => code_at_root_of_mem _ hS hlen x (List.mem_cons_of_mem _ hx))
      (code_at_root_of_mem _ hS hlen sym (List.mem_cons_self _ _))
      (by
        simp only [List.nil_append]
        rw [hdrop, hbits, List.flatMap_cons])
      (by dsimp only; simp only [List.length_cons]; omega)
      (by dsimp only; rw [List.length_append, hhl]; omega)
      (by dsimp only; rw [if_pos rfl]; omega)
    constructor
    · intro hY0
      obtain ⟨s', h1, h2, h3, h4, _⟩ := hspec.1 hY0
      rw [h1]
      refine ⟨_, rfl, ?_, rfl, rfl, rfl, ?_⟩
      · simp only []
        rw [h2, List.nil_append]
      · intro ht
        simp only []
        have := congrArg List.length h3
        rw [List.length_append, flatMap_byte_bits_length, List.length_drop] at this
        omega
    · intro hY1
      obtain ⟨out, h1⟩ := hspec.2 hY1
      rw [h1]
      exact ⟨out, rfl⟩

/-- The archive `zip` produces is the expected header followed by the payload of `encode`,
whose bits are the codes of the input followed by fewer than eight `false` bits. -/
theorem zip_out_eq (be : Bool) (S : List Nat) (hS : ∀ b ∈ S, b < 256)
    (hlen : S.length < 2 ^ 32) :
    ∃ (bytes : List Nat) (p : Nat),
      (zip be (HuffmanArchiver.new S)).out = expected_header be S ++ bytes ∧ p < 8 ∧
      bytes.flatMap byte_bits =
        S.flatMap (HuffTree.new (build_vocabulary (HuffmanArchiver.new S)).1).get_code_by_char
          ++ List.replicate p false ∧
      bytes.length =
        ((S.flatMap
          (HuffTree.new (build_vocabulary (HuffmanArchiver.new S)).1).get_code_by_char).length
            + 7) / 8 := by
  obtain ⟨bytes, p, h, hp, hbits, hl, _⟩ :=
    encode_spec (HuffTree.new (build_vocabulary (HuffmanArchiver.new S)).1) S
      (expected_header be S)
  exact ⟨bytes, p, by rw [zip_out be S hS hlen, h], hp, hbits, hl⟩

/-- The state `unzip` ends in on an archive produced by `zip`. -/
theorem unzip_zip_state (be : Bool) (S : List Nat) (hS : ∀ b ∈ S, b < 256)
    (hlen : S.length < 2 ^ 32) :
    ∃ a', unzip be (HuffmanArchiver.new (zip be (HuffmanArchiver.new S)).out) = some (.done a') ∧
      a'.out = S ∧ a'.out_file_size = S.length ∧
      a'.extra_data_size = 8 + 5 * (present_symbols S).length ∧
      a'.in_file_size = (a'.in_pos % 2 ^ 32 + 2 ^ 32 - a'.extra_data_size) % 2 ^ 32 ∧
      a'.in_pos = (zip be (HuffmanArchiver.new S)).out.length := by
  obtain ⟨bytes, p, hA, hp, hbits, _⟩ := zip_out_eq be S hS hlen
  rw [hA]
  obtain ⟨a', h1, h2, h3, h4, h5, h6⟩ :=
    (unzip_expected_header be S hS hlen bytes [] (List.replicate p false) (Or.inl rfl)
      (by rw [List.append_nil]; exact hbits)).1 rfl
  exact ⟨a', h1, h2, h3, h4, h5, h6 (by rw [List.length_replicate]; exact hp)⟩

/-- C1: for every byte sequence `S` of length below `2 ^ 32` (the empty one included),
`unzip` run on the archive that `zip` produces from `S` completes without an exception and
the sink then holds exactly `S`. -/
theorem unzip_zip_roundtrip (be : Bool) (S : List Nat) (hS : ∀ b ∈ S, b < 256)
    (hlen : S.length < 2 ^ 32) :
    ∃ a', unzip be (HuffmanArchiver.new (zip be (HuffmanArchiver.new S)).out) = some (.done a') ∧
      a'.out = S := by
  obtain ⟨a', h1, h2, _⟩ := unzip_zip_state be S hS hlen
  exact ⟨a', h1, h2⟩

theorem unzip_zip_roundtrip_witness :
    (∀ b ∈ [97, 98, 97, 0, 255], b < 256) ∧ [97, 98, 97, 0, 255].length < 2 ^ 32 ∧
      ∃ a', unzip true (HuffmanArchiver.new (zip true (HuffmanArchiver.new
          [97, 98, 97, 0, 255])).out) = some (.done a') ∧ a'.out = [97, 98, 97, 0, 255] :=
  ⟨by decide, by decide, unzip_zip_roundtrip true [97, 98, 97, 0, 255] (by decide) (by decide)⟩

theorem read_vocabulary_size (be : Bool) (S : List Nat) (payload : List Nat) :
    read_exact (expected_header be S ++ payload) 4 4 =
      some (u32_bytes be (present_symbols S).length) := by
  have := read_exact_append (u32_bytes be S.length) (u32_bytes be (present_symbols S).length)
    (((present_symbols S).flatMap fun b => b :: u32_bytes be (S.count b)) ++ payload)
  simp only [u32_bytes_length] at this
  unfold expected_header
  simp only [List.append_assoc] at this ⊢
  exact this

/-- `unzip` on a source that ends inside the header `zip` writes for `S`. -/
theorem unzip_truncated_header (be : Bool) (S : List Nat) (payload P : List Nat)
    (hP : P <+: expected_header be S ++ payload)
    (hshort : P.length < 8 + 5 * (present_symbols S).length) :
    unzip be (HuffmanArchiver.new P) = some (.thrown .ios_failure []) := by
  have hk := present_symbols_length_le S
  unfold unzip
  simp only [HuffmanArchiver.new, Nat.zero_add]
  by_cases h4 : P.length < 4
  · rw [read_exact_none P 0 4 (by omega)]
  · have e1 : read_exact P 0 4 = some ((P.drop 0).take 4) := by
      unfold read_exact; rw [if_pos (by omega)]
    rw [e1]
    simp only []
    have e2 : extract_vocabulary be P 4 = none := by
      unfold extract_vocabulary
      by_cases h8 : P.length < 8
      · rw [read_exact_none P 4 4 (by omega)]
      · rw [read_exact_initial P _ 4 4 hP (by omega), read_vocabulary_size]
        simp only []
        rw [u32_of_bytes_u32_bytes, Nat.mod_eq_of_lt (by omega)]
        exact extract_vocabulary_loop_short be P _ 8 _ (by omega) (by omega)
    rw [e2]

/-- C3: for every byte sequence `S` of length below `2 ^ 32` and every proper prefix `P` of
the archive `zip` produces from `S`, `unzip` on `P` ends with an exception (the failure of
a read past the end of the source); it does not complete. -/
theorem unzip_truncated_fails (be : Bool) (S : List Nat) (hS : ∀ b ∈ S, b < 256)
    (hlen : S.length < 2 ^ 32) (P : List Nat)
    (hP : P <+: (zip be (HuffmanArchiver.new S)).out)
    (hne : P ≠ (zip be (HuffmanArchiver.new S)).out) :
    ∃ out, unzip be (HuffmanArchiver.new P) = some (.thrown .ios_failure out) := by
  obtain ⟨bytes, p, hA, hp, hbits, _⟩ := zip_out_eq be S hS hlen
  rw [hA] at hP hne
  have hhl := expected_header_length be S
  by_cases hcase : P.length < 8 + 5 * (present_symbols S).length
  · exact ⟨[], unzip_truncated_header be S bytes P hP hcase⟩
  · have hpre : expected_header be S <+: P :=
      List.prefix_of_prefix_length_le (List.prefix_append _ _) hP (by omega)
    obtain ⟨payload, rfl⟩ := hpre
    have hpay : payload <+: bytes := (List.prefix_append_right_inj _).1 hP
    obtain ⟨more, rfl⟩ := hpay
    have hmore : more ≠ [] := by
      intro h0
      apply hne
      rw [h0, List.append_nil]
    have hmlen : 1 ≤ more.length := by
      cases more with
      | nil => exact (hmore rfl).elim
      | cons _ _ => simp
    rw [List.flatMap_append] at hbits
    have hlen2 := congrArg List.length hbits
    simp only [List.length_append, flatMap_byte_bits_length, List.length_replicate] at hlen2
    have hX : payload.flatMap byte_bits <+:
        S.flatMap (HuffTree.new (build_vocabulary (HuffmanArchiver.new S)).1).get_code_by_char :=
      have g1 : payload.flatMap byte_bits <+:
          payload.flatMap byte_bits ++ more.flatMap byte_bits := List.prefix_append _ _
      have g2 : S.flatMap
          (HuffTree.new (build_vocabulary (HuffmanArchiver.new S)).1).get_code_by_char <+:
          payload.flatMap byte_bits ++ more.flatMap byte_bits := by
        rw [hbits]; exact List.prefix_append _ _
      List.prefix_of_prefix_length_le g1 g2 (by rw [flatMap_byte_bits_length]; omega)
    obtain ⟨Y, hYeq⟩ := hX
    have hYne : Y ≠ [] := by
      intro h0
      rw [h0, List.append_nil] at hYeq
      have := congrArg List.length hYeq
      rw [flatMap_byte_bits_length] at this
      omega
    exact (unzip_expected_header be S hS hlen payload Y [] (Or.inr rfl)
      (by rw [List.append_nil]; exact hYeq)).2 hYne

set_option maxRecDepth 100000 in
theorem unzip_truncated_fails_witness :
    (∀ b ∈ [97, 98, 97], b < 256) ∧ [97, 98, 97].length < 2 ^ 32 ∧
      ([3, 0, 0, 0, 2, 0, 0, 0, 97, 2, 0, 0, 0, 98, 1, 0, 0, 0] : List Nat) <+:
        (zip false (HuffmanArchiver.new [97, 98, 97])).out ∧
      ([3, 0, 0, 0, 2, 0, 0, 0, 97, 2, 0, 0, 0, 98, 1, 0, 0, 0] : List Nat) ≠
        (zip false (HuffmanArchiver.new [97, 98, 97])).out ∧
      ∃ out, unzip false (HuffmanArchiver.new
        [3, 0, 0, 0, 2, 0, 0, 0, 97, 2, 0, 0, 0, 98, 1, 0, 0, 0]) =
          some (.thrown .ios_failure out) :=
  ⟨by decide, by decide, by decide, by decide,
    unzip_truncated_fails false [97, 98, 97] (by decide) (by decide)
      [3, 0, 0, 0, 2, 0, 0, 0, 97, 2, 0, 0, 0, 98, 1, 0, 0, 0] (by decide) (by decide)⟩

theorem pairs_cost_cons (p : Nat × Nat) (ps : List (Nat × Nat)) :
    pairs_cost (p :: ps) = p.1 * p.2 + pairs_cost ps := by
  simp [pairs_cost]

theorem pairs_cost_perm (ps qs : List (Nat × Nat)) (h : ps.Perm qs) :
    pairs_cost ps = pairs_cost qs :=
  (h.map _).sum_eq

theorem exists_max_snd (ps : List (Nat × Nat)) (h : ps ≠ []) :
    ∃ x ∈ ps, ∀ y ∈ ps, y.2 ≤ x.2 := by
  induction ps with
  | nil => exact (h rfl).elim
  | cons p ps ih =>
    by_cases hps : ps = []
    · subst hps
      exact ⟨p, List.mem_cons_self _ _, fun y hy => by
        rw [List.mem_singleton] at hy; rw [hy]⟩
    · obtain ⟨x, hx, hmax⟩ := ih hps
      by_cases hc : x.2 ≤ p.2
      · refine ⟨p, List.mem_cons_self _ _, fun y hy => ?_⟩
        rcases List.mem_cons.1 hy with h1 | h1
        · rw [h1]
        · exact le_trans (hmax y h1) hc
      · refine ⟨x, List.mem_cons_of_mem _ hx, fun y hy => ?_⟩
        rcases List.mem_cons.1 hy with h1 | h1
        · rw [h1]; omega
        · exact hmax y h1

theorem exists_perm_cons {α : Type} (a : α) (l : List α) (h : a ∈ l) :
    ∃ l', l.Perm (a :: l') := by
  obtain ⟨s, t, rfl⟩ := List.append_of_mem h
  exact ⟨s ++ t, List.perm_middle⟩

/-- Exchange step: the smallest weight can be given the greatest length without increasing
the cost. -/
theorem assign_max_length (ps : List (Nat × Nat)) (a : Nat) (W : List Nat)
    (hperm : (ps.map Prod.fst).Perm (a :: W)) (hmin : ∀ w ∈ W, a ≤ w) :
    ∃ (L : Nat) (qs : List (Nat × Nat)),
      (qs.map Prod.fst).Perm W ∧ (L :: qs.map Prod.snd).Perm (ps.map Prod.snd) ∧
      pairs_cost ((a, L) :: qs) ≤ pairs_cost ps ∧ ∀ q ∈ qs, q.2 ≤ L := by
  have hmem : a ∈ ps.map Prod.fst := hperm.symm.subset (List.mem_cons_self _ _)
  obtain ⟨⟨a', la⟩, hin, ha'⟩ := List.mem_map.1 hmem
  simp only at ha'
  subst ha'
  obtain ⟨ps1, p1⟩ := exists_perm_cons (a', la) ps hin
  have hW : (ps1.map Prod.fst).Perm W := by
    have := (p1.map Prod.fst).symm.trans hperm
    exact List.Perm.cons_inv this
  have hne : ps ≠ [] := by intro h0; rw [h0] at hin; simp at hin
  obtain ⟨x, hx, hmax⟩ := exists_max_snd ps hne
  by_cases hla : x.2 ≤ la
  · refine ⟨la, ps1, hW, (p1.map Prod.snd).symm, ?_, ?_⟩
    · rw [pairs_cost_perm _ _ p1]
    · intro q hq
      exact le_trans (hmax q (p1.symm.subset (List.mem_cons_of_mem _ hq))) hla
  · have hxne : x ≠ (a', la) := by
      intro h0; rw [h0] at hla; exact hla (le_refl _)
    have hx1 : x ∈ ps1 := by
      rcases List.mem_cons.1 (p1.subset hx) with h | h
      · exact (hxne h).elim
      · exact h
    obtain ⟨ps2, p2⟩ := exists_perm_cons x ps1 hx1
    have hxw : a' ≤ x.1 := hmin x.1 (hW.subset (List.mem_map_of_mem _ hx1))
    refine ⟨x.2, (x.1, la) :: ps2, ?_, ?_, ?_, ?_⟩
    · exact (p2.map Prod.fst).symm.trans hW
    · have e1 : (ps.map Prod.snd).Perm (la :: x.2 :: ps2.map Prod.snd) :=
        (p1.map Prod.snd).trans (List.Perm.cons _ (p2.map Prod.snd))
      exact (List.Perm.swap _ _ _).trans e1.symm
    · rw [pairs_cost_perm _ _ p1, pairs_cost_cons, pairs_cost_cons, pairs_cost_cons,
        pairs_cost_perm _ _ p2, pairs_cost_cons]
      simp only
      have hl : la ≤ x.2 := by omega
      obtain ⟨d, hd⟩ := Nat.exists_eq_add_of_le hxw
      obtain ⟨e, he⟩ := Nat.exists_eq_add_of_le hl
      rw [hd, he]
      nlinarith [Nat.zero_le (d * e)]
    · intro q hq
      rcases List.mem_cons.1 hq with h1 | h1
      · rw [h1]; simp only; omega
      · exact hmax q (p1.symm.subset (List.mem_cons_of_mem _
          (p2.symm.subset (List.mem_cons_of_mem _ h1))))

theorem kraft_sum_cons (N l : Nat) (ls : List Nat) :
    kraft_sum N (l :: ls) = 2 ^ (N - l) + kraft_sum N ls := by
  simp [kraft_sum]

theorem kraft_sum_perm (N : Nat) (ls ms : List Nat) (h : ls.Perm ms) :
    kraft_sum N ls = kraft_sum N ms :=
  (h.map _).sum_eq

theorem Kraft_perm (N : Nat) (ls ms : List Nat) (h : ls.Perm ms) (hk : Kraft N ls) :
    Kraft N ms :=
  ⟨fun l hl => hk.1 l (h.symm.subset hl), by rw [← kraft_sum_perm N ls ms h]; exact hk.2⟩

theorem dvd_kraft_sum (N L : Nat) (ls : List Nat) (hL : L ≤ N) (hls : ∀ l ∈ ls, l ≤ L) :
    2 ^ (N - L) ∣ kraft_sum N ls := by
  induction ls with
  | nil => simp [kraft_sum]
  | cons l ls ih =>
    rw [kraft_sum_cons]
    have hl := hls l (List.mem_cons_self _ _)
    exact Nat.dvd_add (pow_dvd_pow 2 (by omega)) (ih (fun x hx => hls x (List.mem_cons_of_mem _ hx)))

/-- Merging the two greatest lengths of a Kraft family into one length shorter by one keeps
Kraft's inequality. -/
theorem kraft_merge (N L1 L2 : Nat) (ls : List Nat) (h12 : L2 ≤ L1) (hls : ∀ l ∈ ls, l ≤ L2)
    (hk : Kraft N (L1 :: L2 :: ls)) : 1 ≤ L2 ∧ Kraft N ((L2 - 1) :: ls) := by
  obtain ⟨hb, hs⟩ := hk
  have hL1 : L1 ≤ N := hb L1 (List.mem_cons_self _ _)
  have hL2 : L2 ≤ N := by omega
  rw [kraft_sum_cons, kraft_sum_cons] at hs
  obtain ⟨m, hm⟩ := dvd_kraft_sum N L2 ls hL2 hls
  have hu : 0 < 2 ^ (N - L2) := Nat.two_pow_pos _
  have h1 : 0 < 2 ^ (N - L1) := Nat.two_pow_pos _
  have hN : 2 ^ N = 2 ^ (N - L2) * 2 ^ L2 := by
    rw [← pow_add]; congr 1; omega
  rw [hm, hN] at hs
  have hlt : 2 ^ (N - L2) * (1 + m) < 2 ^ (N - L2) * 2 ^ L2 := by
    rw [Nat.mul_add, Nat.mul_one]; omega
  have hlt2 : 1 + m < 2 ^ L2 := Nat.lt_of_mul_lt_mul_left hlt
  have hpos : 1 ≤ L2 := by
    by_contra h0
    have : L2 = 0 := by omega
    rw [this] at hlt2
    simp at hlt2
  refine ⟨hpos, ?_, ?_⟩
  · intro l hl
    rcases List.mem_cons.1 hl with h | h
    · omega
    · exact le_trans (hls l h) hL2
  · rw [kraft_sum_cons, hm, hN]
    have e : 2 ^ (N - (L2 - 1)) = 2 ^ (N - L2) * 2 := by
      rw [← pow_succ]; congr 1; omega
    rw [e, ← Nat.mul_add]
    exact Nat.mul_le_mul_left _ (by omega)

/-- The numeric core of Huffman's theorem: from a Kraft-admissible assignment of lengths to
weights one gets an admissible assignment for the weights with the two smallest merged,
cheaper by at least their sum. -/
theorem merge_two_smallest (N : Nat) (ps : List (Nat × Nat)) (a b : Nat) (W : List Nat)
    (hperm : (ps.map Prod.fst).Perm (a :: b :: W))
    (ha : ∀ w ∈ b :: W, a ≤ w) (hb : ∀ w ∈ W, b ≤ w) (hk : Kraft N (ps.map Prod.snd)) :
    ∃ ps' : List (Nat × Nat), (ps'.map Prod.fst).Perm ((a + b) :: W) ∧
      Kraft N (ps'.map Prod.snd) ∧ pairs_cost ps' + a + b ≤ pairs_cost ps := by
  obtain ⟨L1, qs, q1, q2, q3, q4⟩ := assign_max_length ps a (b :: W) hperm ha
  obtain ⟨L2, rs, r1, r2, r3, r4⟩ := assign_max_length qs b W q1 hb
  have h12 : L2 ≤ L1 := by
    have : L2 ∈ qs.map Prod.snd := r2.subset (List.mem_cons_self _ _)
    obtain ⟨q, hq, rfl⟩ := List.mem_map.1 this
    exact q4 q hq
  have hk2 : Kraft N (L1 :: L2 :: rs.map Prod.snd) :=
    Kraft_perm N _ _ ((List.Perm.cons L1 r2).trans q2).symm hk
  have hrs : ∀ l ∈ rs.map Prod.snd, l ≤ L2 := by
    intro l hl
    obtain ⟨q, hq, rfl⟩ := List.mem_map.1 hl
    exact r4 q hq
  obtain ⟨hpos, hk3⟩ := kraft_merge N L1 L2 _ h12 hrs hk2
  refine ⟨(a + b, L2 - 1) :: rs, List.Perm.cons _ r1, hk3, ?_⟩
  rw [pairs_cost_cons] at q3 r3 ⊢
  simp only at q3 r3 ⊢
  obtain ⟨e, he⟩ := Nat.exists_eq_add_of_le hpos
  obtain ⟨d, hd⟩ := Nat.exists_eq_add_of_le h12
  have e1 : L2 - 1 = e := by omega
  rw [e1]
  rw [he] at r3 hd
  rw [hd] at q3
  nlinarith [Nat.zero_le (a * d)]

theorem kraft_sum_split (N : Nat) (cs : List (List Bool)) (hne : [] ∉ cs) :
    kraft_sum (N + 1) (cs.map List.length) =
      kraft_sum N ((tails_after true cs).map List.length) +
        kraft_sum N ((tails_after false cs).map List.length) := by
  induction cs with
  | nil => simp [kraft_sum, tails_after]
  | cons x cs ih =>
    rw [List.mem_cons, not_or] at hne
    have ih' := ih hne.2
    cases x with
    | nil => exact (hne.1 rfl).elim
    | cons b t =>
      rw [List.map_cons, kraft_sum_cons, ih']
      have e : N + 1 - (b :: t).length = N - t.length := by
        simp only [List.length_cons]; omega
      rw [e]
      cases b with
      | true =>
        have e1 : tails_after true ((true :: t) :: cs) = t :: tails_after true cs := by
          simp [tails_after, List.filterMap_cons]
        have e2 : tails_after false ((true :: t) :: cs) = tails_after false cs := by
          simp [tails_after, List.filterMap_cons]
        rw [e1, e2, List.map_cons, kraft_sum_cons]
        omega
      | false =>
        have e1 : tails_after true ((false :: t) :: cs) = tails_after true cs := by
          simp [tails_after, List.filterMap_cons]
        have e2 : tails_after false ((false :: t) :: cs) = t :: tails_after false cs := by
          simp [tails_after, List.filterMap_cons]
        rw [e1, e2, List.map_cons, kraft_sum_cons]
        omega

theorem mem_tails_after (b : Bool) (cs : List (List Bool)) (t : List Bool) :
    t ∈ tails_after b cs ↔ (b :: t) ∈ cs := by
  unfold tails_after
  rw [List.mem_filterMap]
  constructor
  · rintro ⟨x, hx, h⟩
    cases x with
    | nil => simp at h
    | cons b' t' =>
      simp only at h
      by_cases hb : b' = b
      · rw [if_pos hb] at h
        rw [← hb, ← Option.some.inj h]
        exact hx
      · rw [if_neg hb] at h
        exact Option.noConfusion h
  · intro h
    exact ⟨b :: t, h, by simp⟩

theorem tails_after_pairwise (b : Bool) (cs : List (List Bool))
    (h : cs.Pairwise Incomparable) : (tails_after b cs).Pairwise Incomparable := by
  unfold tails_after
  apply List.Pairwise.filterMap _ _ h
  intro x y hxy t ht t' ht'
  cases x with
  | nil => simp at ht
  | cons bx tx =>
    cases y with
    | nil => simp at ht'
    | cons b2 ty =>
      simp only [Option.mem_def] at ht ht'
      by_cases h1 : bx = b
      · by_cases h2 : b2 = b
        · rw [if_pos h1] at ht
          rw [if_pos h2] at ht'
          have e1 := Option.some.inj ht
          have e2 := Option.some.inj ht'
          subst e1 e2 h1 h2
          unfold Incomparable at hxy ⊢
          rw [List.cons_prefix_cons, List.cons_prefix_cons] at hxy
          exact ⟨fun h0 => hxy.1 ⟨rfl, h0⟩, fun h0 => hxy.2 ⟨rfl, h0⟩⟩
        · rw [if_neg h2] at ht'
          exact Option.noConfusion ht'
      · rw [if_neg h1] at ht
        exact Option.noConfusion ht

/-- Kraft's inequality for a family of pairwise prefix-incomparable bit sequences. -/
theorem kraft_of_incomparable (N : Nat) (cs : List (List Bool))
    (hlen : ∀ x ∈ cs, x.length ≤ N) (hpf : cs.Pairwise Incomparable) :
    kraft_sum N (cs.map List.length) ≤ 2 ^ N := by
  induction N generalizing cs with
  | zero =>
    match cs, hlen, hpf with
    | [], _, _ => simp [kraft_sum]
    | [x], _, _ => simp [kraft_sum]
    | x :: y :: rest, hlen, hpf =>
      exfalso
      have hx : x = [] := List.length_eq_zero.1
        (Nat.le_zero.1 (hlen x (List.mem_cons_self _ _)))
      have := (List.pairwise_cons.1 hpf).1 y (List.mem_cons_self _ _)
      rw [hx] at this
      exact this.1 (List.nil_prefix)
  | succ N ih =>
    by_cases hnil : [] ∈ cs
    · match cs, hnil, hpf with
      | [x], hnil, _ =>
        rw [List.mem_singleton] at hnil
        rw [← hnil]
        simp [kraft_sum]
      | x :: y :: rest, hnil, hpf =>
        exfalso
        have h1 := (List.pairwise_cons.1 hpf).1
        by_cases hx : x = []
        · have := h1 y (List.mem_cons_self _ _)
          rw [hx] at this
          exact this.1 List.nil_prefix
        · have hm : [] ∈ y :: rest := by
            rcases List.mem_cons.1 hnil with h | h
            · exact (hx h.symm).elim
            · exact h
          exact (h1 [] hm).2 List.nil_prefix
    · rw [kraft_sum_split N cs hnil]
      have ht := ih (tails_after true cs)
        (fun t ht => by
          have := hlen _ ((mem_tails_after true cs t).1 ht)
          simp only [List.length_cons] at this
          omega)
        (tails_after_pairwise true cs hpf)
      have hf := ih (tails_after false cs)
        (fun t ht => by
          have := hlen _ ((mem_tails_after false cs t).1 ht)
          simp only [List.length_cons] at this
          omega)
        (tails_after_pairwise false cs hpf)
      rw [pow_succ]
      omega

theorem get_frequency_mk (f : Nat) (leaf : Bool) (v : Nat) (l r : TreeNode) :
    (mk f leaf v l r).get_frequency = f := rfl

theorem leaf_weight_node (vocabulary : List Nat) (f w : Nat) (l r : TreeNode) :
    leaf_weight vocabulary (mk f false w l r) =
      leaf_weight vocabulary l + leaf_weight vocabulary r := by
  simp only [leaf_weight, leaf_paths, List.map_append, List.map_map, List.sum_append]
  rfl

theorem sum_map_mul_succ (vocabulary : List Nat) (L : List (List Bool × Nat)) (b : Bool) :
    ((L.map fun x => (b :: x.1, x.2)).map fun x => vocabulary.getD x.2 0 * x.1.length).sum =
      (L.map fun x => vocabulary.getD x.2 0 * x.1.length).sum +
        (L.map fun x => vocabulary.getD x.2 0).sum := by
  induction L with
  | nil => rfl
  | cons x L ih =>
    simp only [List.map_cons, List.sum_cons, List.length_cons] at ih ⊢
    rw [ih, Nat.mul_succ]
    omega

theorem leaf_cost_node (vocabulary : List Nat) (f w : Nat) (l r : TreeNode) :
    leaf_cost vocabulary (mk f false w l r) =
      leaf_cost vocabulary l + leaf_cost vocabulary r +
        (leaf_weight vocabulary l + leaf_weight vocabulary r) := by
  simp only [leaf_cost, leaf_weight, leaf_paths, List.map_append, List.sum_append,
    sum_map_mul_succ]
  omega

theorem le_sum_of_mem_nat (ls : List Nat) (l : Nat) (h : l ∈ ls) : l ≤ ls.sum := by
  induction ls with
  | nil => simp at h
  | cons x ls ih =>
    rw [List.sum_cons]
    rcases List.mem_cons.1 h with h1 | h1
    · omega
    · have := ih h1; omega

/-- One iteration of the build loop on a forest whose root frequencies are the exact leaf
weights: the invariant is kept, and the total cost grows by the two merged frequencies. -/
theorem build_step_cost (vocabulary : List Nat) (nodes : List TreeNode) (h2 : 2 ≤ nodes.length)
    (hfreq : ∀ t ∈ nodes, t.get_frequency = leaf_weight vocabulary t)
    (htotal : (nodes.map (leaf_weight vocabulary)).sum < 2 ^ 32) :
    ∃ (a b : Nat) (W : List Nat),
      (nodes.map get_frequency).Perm (a :: b :: W) ∧
      ((build_step nodes).map get_frequency).Perm ((a + b) :: W) ∧
      (∀ w ∈ b :: W, a ≤ w) ∧ (∀ w ∈ W, b ≤ w) ∧
      (∀ t ∈ build_step nodes, t.get_frequency = leaf_weight vocabulary t) ∧
      ((build_step nodes).map (leaf_weight vocabulary)).sum =
        (nodes.map (leaf_weight vocabulary)).sum ∧
      ((build_step nodes).map (leaf_cost vocabulary)).sum =
        (nodes.map (leaf_cost vocabulary)).sum + a + b := by
  obtain ⟨l, r, rest, hp, he, hl, hr⟩ := build_step_spec nodes h2
  have hlm : l ∈ nodes := hp.symm.subset (List.mem_cons_self _ _)
  have hrm : r ∈ nodes := hp.symm.subset (List.mem_cons_of_mem _ (List.mem_cons_self _ _))
  have hrest : ∀ t ∈ rest, t ∈ nodes := fun t ht =>
    hp.symm.subset (List.mem_cons_of_mem _ (List.mem_cons_of_mem _ ht))
  have hw := (hp.map (leaf_weight vocabulary)).sum_eq
  have hc := (hp.map (leaf_cost vocabulary)).sum_eq
  simp only [List.map_cons, List.sum_cons] at hw hc
  have hfl := hfreq l hlm
  have hfr := hfreq r hrm
  have hmod : (l.get_frequency + r.get_frequency) % 2 ^ 32 =
      l.get_frequency + r.get_frequency := by
    apply Nat.mod_eq_of_lt
    omega
  refine ⟨l.get_frequency, r.get_frequency, rest.map get_frequency, hp.map get_frequency, ?_,
    ?_, ?_, ?_, ?_, ?_⟩
  · rw [he, List.map_append, List.map_cons, List.map_nil, get_frequency_mk, hmod]
    exact List.perm_append_comm
  · intro w hw'
    rcases List.mem_cons.1 hw' with h | h
    · rw [h]; exact hl r hrm
    · obtain ⟨t, ht, rfl⟩ := List.mem_map.1 h
      exact hl t (hrest t ht)
  · intro w hw'
    obtain ⟨t, ht, rfl⟩ := List.mem_map.1 hw'
    exact hr t (List.mem_cons_of_mem _ ht)
  · intro t ht
    rw [he] at ht
    rcases List.mem_append.1 ht with h | h
    · exact hfreq t (hrest t h)
    · rw [List.mem_singleton] at h
      rw [h, leaf_weight_node, get_frequency_mk, hmod]
      omega
  · rw [he, List.map_append, List.sum_append, List.map_cons, List.map_nil, List.sum_cons,
      List.sum_nil, leaf_weight_node, hw]
    omega
  · rw [he, List.map_append, List.sum_append, List.map_cons, List.map_nil, List.sum_cons,
      List.sum_nil, leaf_cost_node, hc]
    omega

/-- Huffman's theorem for the build loop: whatever lengths a Kraft-admissible assignment
gives to the root frequencies of the forest, the loop adds no more cost than that
assignment has. -/
theorem build_loop_cost_le (vocabulary : List Nat) (N fuel : Nat) :
    ∀ (nodes : List TreeNode) (ps : List (Nat × Nat)),
      (∀ t ∈ nodes, t.get_frequency = leaf_weight vocabulary t) →
      (nodes.map (leaf_weight vocabulary)).sum < 2 ^ 32 →
      (ps.map Prod.fst).Perm (nodes.map get_frequency) →
      Kraft N (ps.map Prod.snd) →
      ((build_loop fuel nodes).map (leaf_cost vocabulary)).sum ≤
        (nodes.map (leaf_cost vocabulary)).sum + pairs_cost ps := by
  induction fuel with
  | zero =>
    intro nodes ps _ _ _ _
    exact Nat.le_add_right _ _
  | succ fuel ih =>
    intro nodes ps hfreq htotal hperm hk
    rw [build_loop]
    by_cases h2 : 2 ≤ nodes.length
    · rw [if_pos h2]
      obtain ⟨a, b, W, p1, p2, ha, hb, hf', ht', hc'⟩ :=
        build_step_cost vocabulary nodes h2 hfreq htotal
      obtain ⟨ps', q1, q2, q3⟩ := merge_two_smallest N ps a b W (hperm.trans p1) ha hb hk
      have := ih (build_step nodes) ps' hf' (by rw [ht']; exact htotal) (q1.trans p2.symm) q2
      rw [hc'] at this
      omega
    · rw [if_neg h2]
      exact Nat.le_add_right _ _

theorem build_tree_cost (vocabulary : List Nat) :
    ((build_loop (init_nodes vocabulary).length (init_nodes vocabulary)).map
      (leaf_cost vocabulary)).sum = leaf_cost vocabulary (build_tree vocabulary) := by
  have hl := build_loop_length_lt (init_nodes vocabulary).length (init_nodes vocabulary)
    (Nat.le_succ _)
  unfold build_tree
  simp only []
  generalize build_loop (init_nodes vocabulary).length (init_nodes vocabulary) = final at hl
  match final, hl with
  | [], _ => simp [leaf_cost, leaf_paths]
  | [t], _ => simp
  | _ :: _ :: _, h => simp only [List.length_cons] at h; omega

theorem init_nodes_facts (vocabulary : List Nat) :
    (∀ t ∈ init_nodes vocabulary, t.get_frequency = leaf_weight vocabulary t) ∧
    ((init_nodes vocabulary).map (leaf_weight vocabulary)).sum =
      ((nonzero_symbols vocabulary).map fun s => vocabulary.getD s 0).sum ∧
    ((init_nodes vocabulary).map (leaf_cost vocabulary)).sum = 0 ∧
    (init_nodes vocabulary).map get_frequency =
      (nonzero_symbols vocabulary).map fun s => vocabulary.getD s 0 := by
  rw [init_nodes_eq]
  refine ⟨?_, ?_, ?_, ?_⟩
  · intro t ht
    obtain ⟨i, _, rfl⟩ := List.mem_map.1 ht
    simp [get_frequency, leaf_weight, leaf_paths]
  · rw [List.map_map]
    congr 1
  · rw [List.map_map]
    apply List.sum_eq_zero
    intro x hx
    obtain ⟨i, _, rfl⟩ := List.mem_map.1 hx
    simp [leaf_cost, leaf_paths]
  · rw [List.map_map]
    rfl

theorem codebook_cost_eq (vocabulary : List Nat)
    (h2 : 2 ≤ (nonzero_symbols vocabulary).length) :
    ((nonzero_symbols vocabulary).map fun s =>
      vocabulary.getD s 0 * ((HuffTree.new vocabulary).get_code_by_char s).length).sum =
      leaf_cost vocabulary (build_tree vocabulary) := by
  have hp := build_tree_leaves vocabulary
  have := (hp.map fun s =>
    vocabulary.getD s 0 * ((HuffTree.new vocabulary).get_code_by_char s).length).sum_eq
  rw [← this, List.map_map]
  unfold leaf_cost
  congr 1
  apply List.map_congr_left
  intro x hx
  simp only [Function.comp]
  rw [code_of_leaf_path vocabulary h2 x hx]

/-- The weighted length of the codebook is at most that of any prefix-free assignment of
bit sequences to the symbols of non-zero count (counts adding up to less than `2 ^ 32`). -/
theorem codebook_cost_le (vocabulary : List Nat)
    (h2 : 2 ≤ (nonzero_symbols vocabulary).length)
    (htotal : ((nonzero_symbols vocabulary).map fun s => vocabulary.getD s 0).sum < 2 ^ 32)
    (c : Nat → List Bool)
    (hc : ∀ a ∈ nonzero_symbols vocabulary, ∀ b ∈ nonzero_symbols vocabulary,
      a ≠ b → ¬ (c a <+: c b)) :
    ((nonzero_symbols vocabulary).map fun s =>
      vocabulary.getD s 0 * ((HuffTree.new vocabulary).get_code_by_char s).length).sum ≤
    ((nonzero_symbols vocabulary).map fun s => vocabulary.getD s 0 * (c s).length).sum := by
  rw [codebook_cost_eq vocabulary h2, ← build_tree_cost]
  obtain ⟨hfreq, hw, hcost, hfr⟩ := init_nodes_facts vocabulary
  have hpw : ((nonzero_symbols vocabulary).map c).Pairwise Incomparable := by
    rw [List.pairwise_map]
    exact List.Pairwise.imp_of_mem
      (fun {a b} ha hb hab => ⟨hc a ha b hb hab, hc b hb a ha (Ne.symm hab)⟩)
      (nonzero_symbols_nodup vocabulary)
  have hk : Kraft (((nonzero_symbols vocabulary).map c).map List.length).sum
      (((nonzero_symbols vocabulary).map fun s => (vocabulary.getD s 0, (c s).length)).map
        Prod.snd) := by
    have e : ((nonzero_symbols vocabulary).map fun s =>
        (vocabulary.getD s 0, (c s).length)).map Prod.snd =
        ((nonzero_symbols vocabulary).map c).map List.length := by
      rw [List.map_map, List.map_map]
      rfl
    rw [e]
    refine ⟨fun l hl => le_sum_of_mem_nat _ l hl, kraft_of_incomparable _ _ ?_ hpw⟩
    intro x hx
    exact le_sum_of_mem_nat _ _ (List.mem_map_of_mem _ hx)
  have hperm : (((nonzero_symbols vocabulary).map fun s =>
      (vocabulary.getD s 0, (c s).length)).map Prod.fst).Perm
      ((init_nodes vocabulary).map get_frequency) := by
    rw [hfr, List.map_map]
    exact List.Perm.refl _
  have := build_loop_cost_le vocabulary _ (init_nodes vocabulary).length (init_nodes vocabulary)
    _ hfreq (by rw [hw]; exact htotal) hperm hk
  rw [hcost, Nat.zero_add] at this
  have e2 : pairs_cost ((nonzero_symbols vocabulary).map fun s =>
      (vocabulary.getD s 0, (c s).length)) =
      ((nonzero_symbols vocabulary).map fun s => vocabulary.getD s 0 * (c s).length).sum := by
    unfold pairs_cost
    rw [List.map_map]
    rfl
  rw [e2] at this
  exact this

/-- C4: for a frequency table with at least two non-zero counts whose total is below
`2 ^ 32`, the codebook built by `HuffTree` minimises the weighted length sum: whatever
prefix-free assignment `c` of bit sequences to the symbols of non-zero count is taken, the
sum of `count s * length (code s)` is at most the sum of `count s * length (c s)`. -/
theorem huffman_optimal (vocabulary : List Nat)
    (h2 : 2 ≤ (nonzero_symbols vocabulary).length)
    (htotal : ((nonzero_symbols vocabulary).map fun s => vocabulary.getD s 0).sum < 2 ^ 32)
    (c : Nat → List Bool)
    (hc : ∀ a ∈ nonzero_symbols vocabulary, ∀ b ∈ nonzero_symbols vocabulary,
      a ≠ b → ¬ (c a <+: c b)) :
    ((nonzero_symbols vocabulary).map fun s =>
      vocabulary.getD s 0 * ((HuffTree.new vocabulary).get_code_by_char s).length).sum ≤
    ((nonzero_symbols vocabulary).map fun s => vocabulary.getD s 0 * (c s).length).sum :=
  codebook_cost_le vocabulary h2 htotal c hc

set_option maxRecDepth 100000 in
theorem huffman_optimal_witness :
    2 ≤ (nonzero_symbols
      (List.replicate 97 0 ++ [100, 200, 300] ++ List.replicate 156 0)).length ∧
    ((nonzero_symbols (List.replicate 97 0 ++ [100, 200, 300] ++ List.replicate 156 0)).map
      fun s => (List.replicate 97 0 ++ [100, 200, 300] ++ List.replicate 156 0).getD s 0).sum
        < 2 ^ 32 ∧
    (∀ a ∈ nonzero_symbols (List.replicate 97 0 ++ [100, 200, 300] ++ List.replicate 156 0),
      ∀ b ∈ nonzero_symbols (List.replicate 97 0 ++ [100, 200, 300] ++ List.replicate 156 0),
      a ≠ b → ¬ ((fun s => List.replicate (s - 96) true ++ [false]) a <+:
        (fun s => List.replicate (s - 96) true ++ [false]) b)) ∧
    ((nonzero_symbols (List.replicate 97 0 ++ [100, 200, 300] ++ List.replicate 156 0)).map
      fun s => (List.replicate 97 0 ++ [100, 200, 300] ++ List.replicate 156 0).getD s 0 *
        ((HuffTree.new (List.replicate 97 0 ++ [100, 200, 300] ++
          List.replicate 156 0)).get_code_by_char s).length).sum ≤
    ((nonzero_symbols (List.replicate 97 0 ++ [100, 200, 300] ++ List.replicate 156 0)).map
      fun s => (List.replicate 97 0 ++ [100, 200, 300] ++ List.replicate 156 0).getD s 0 *
        ((fun s => List.replicate (s - 96) true ++ [false]) s).length).sum :=
  ⟨by decide, by decide, by decide,
    huffman_optimal (List.replicate 97 0 ++ [100, 200, 300] ++ List.replicate 156 0)
      (by decide) (by decide) (fun s => List.replicate (s - 96) true ++ [false]) (by decide)⟩

theorem walk_stops (cur : TreeNode) (buffer : List Bool) :
    (walk cur buffer).2 = [] ∨ (walk cur buffer).1 = nullptr ∨
      (walk cur buffer).1.is_leaf = true := by
  induction buffer generalizing cur with
  | nil => rw [walk_nil]; exact Or.inl rfl
  | cons bit rest ih =>
    cases cur with
    | nullptr => exact Or.inr (Or.inl rfl)
    | mk f leaf v l r =>
      cases leaf with
      | true => exact Or.inr (Or.inr rfl)
      | false =>
        simp only [walk, Bool.false_eq_true, if_false]
        exact ih _

/-- A call of `try_extract_code` that returns `false` has emptied the queue. -/
theorem try_extract_code_false (tree : HuffTree) (buffer : List Bool) (chr : Nat)
    (h : (try_extract_code tree buffer chr).ret = some false) :
    (try_extract_code tree buffer chr).buffer = [] := by
  unfold try_extract_code at h ⊢
  split at h
  · simp at h
  · rename_i hcond
    rw [if_neg hcond]
    simp only [] at h ⊢
    split at h
    · simp at h
    · rename_i hnull
      rw [if_neg hnull]
      split at h
      · simp at h
      · rename_i hleaf
        rw [if_neg hleaf]
        rcases walk_stops tree.cur_node buffer with h1 | h1 | h1
        · exact h1
        · exact (hnull h1).elim
        · exact (hleaf h1).elim

/-- The iteration budget of `decode` is enough: with a budget of at least the number of
symbols still to emit plus the number of unread source bytes (plus one when the queue is
not empty), the loop ends by itself, with its result or an exception. -/
theorem decode_loop_fuel (data : List Nat) (n fuel : Nat) (s : DecodeState)
    (h : (n - s.i) + (data.length - s.in_pos) + (if s.buffer = [] then 0 else 1) ≤ fuel) :
    decode_loop data n fuel s ≠ none := by
  induction fuel generalizing s with
  | zero =>
    rw [decode_loop_done data n 0 s (by omega)]
    simp
  | succ fuel ih =>
    by_cases hi : s.i < n
    · cases hfill : (if s.buffer = [] then fill_buffer data s.in_pos s.buffer
          else some (s.in_pos, s.buffer)) with
      | none =>
        rw [decode_loop_fail data n fuel s hi hfill]
        simp
      | some pb =>
        obtain ⟨pos1, buffer1⟩ := pb
        have hm : (n - s.i) + (data.length - pos1) ≤ fuel := by
          by_cases hb : s.buffer = []
          · rw [if_pos hb] at hfill h
            unfold fill_buffer at hfill
            cases hg : data.get? s.in_pos with
            | none => rw [hg] at hfill; exact Option.noConfusion hfill
            | some c =>
              rw [hg] at hfill
              have hlt : s.in_pos < data.length := by
                rw [List.get?_eq_getElem?] at hg
                exact (List.getElem?_eq_some_iff.1 hg).1
              have := (Prod.mk.inj (Option.some.inj hfill)).1
              omega
          · rw [if_neg hb] at hfill h
            have := (Prod.mk.inj (Option.some.inj hfill)).1
            omega
        rw [decode_loop_succ data n fuel s hi pos1 buffer1 hfill]
        cases hret : (try_extract_code s.tree buffer1 s.chr).ret with
        | none => simp
        | some b =>
          cases b with
          | true =>
            simp only []
            apply ih
            dsimp only
            split <;> omega
          | false =>
            simp only []
            apply ih
            dsimp only
            rw [try_extract_code_false _ _ _ hret, if_pos rfl]
            omega
    · rw [decode_loop_done data n _ s hi]
      simp

/-- `unzip` always ends: it returns a result or throws, whatever the source holds. -/
theorem unzip_terminates (be : Bool) (a : HuffmanArchiver) : unzip be a ≠ none := by
  unfold unzip
  cases read_exact a.in_data a.in_pos 4 with
  | none => simp
  | some b =>
    simp only []
    cases extract_vocabulary be a.in_data (a.in_pos + 4) with
    | none => simp
    | some vp =>
      obtain ⟨vocabulary, pos⟩ := vp
      simp only []
      have := decode_loop_fuel a.in_data (u32_of_bytes be b)
        (u32_of_bytes be b + (a.in_data.length - pos))
        { tree := HuffTree.new vocabulary, buffer := [], chr := 0, i := 0, in_pos := pos,
          out := a.out }
        (by dsimp only; rw [if_pos rfl]; omega)
      unfold decode
      cases hd : decode_loop a.in_data (u32_of_bytes be b)
          (u32_of_bytes be b + (a.in_data.length - pos))
          { tree := HuffTree.new vocabulary, buffer := [], chr := 0, i := 0, in_pos := pos,
            out := a.out } with
      | none => exact (this hd).elim
      | some o =>
        cases o <;> simp

set_option maxRecDepth 100000 in
theorem build_tree_shape_witness :
    ((nonzero_symbols (List.replicate 256 0)).length = 0 ∧
      build_tree (List.replicate 256 0) = nullptr) ∧
    (1 ≤ (nonzero_symbols
        (List.replicate 97 0 ++ [100, 200, 300] ++ List.replicate 156 0)).length ∧
      build_tree (List.replicate 97 0 ++ [100, 200, 300] ++ List.replicate 156 0) ≠ nullptr ∧
      count_leaves (build_tree (List.replicate 97 0 ++ [100, 200, 300] ++ List.replicate 156 0))
        = (nonzero_symbols
            (List.replicate 97 0 ++ [100, 200, 300] ++ List.replicate 156 0)).length ∧
      count_internal
          (build_tree (List.replicate 97 0 ++ [100, 200, 300] ++ List.replicate 156 0))
        = (nonzero_symbols
            (List.replicate 97 0 ++ [100, 200, 300] ++ List.replicate 156 0)).length - 1) :=
  ⟨⟨by decide, (build_tree_shape (List.replicate 256 0)).1 (by decide)⟩,
    by decide,
    (build_tree_shape (List.replicate 97 0 ++ [100, 200, 300] ++ List.replicate 156 0)).2
      (by decide)⟩

/-- With exactly one symbol of non-zero count the loop of `build_tree` does not run and the
tree is the leaf made for that symbol. -/
theorem build_tree_single (vocabulary : List Nat) (a : Nat)
    (h1 : nonzero_symbols vocabulary = [a]) :
    build_tree vocabulary = mk (vocabulary.getD a 0) true a nullptr nullptr := by
  unfold build_tree
  simp only []
  rw [init_nodes_eq, h1]
  rfl

theorem get_code_single (vocabulary : List Nat) (a : Nat)
    (h1 : nonzero_symbols vocabulary = [a]) (b : Nat) :
    (HuffTree.new vocabulary).get_code_by_char b = if b = a then [true] else [] := by
  have ha : a < 256 :=
    ((mem_nonzero_symbols vocabulary a).1 (by rw [h1]; exact List.mem_singleton.2 rfl)).1
  unfold HuffTree.new HuffTree.get_code_by_char
  simp only []
  rw [build_tree_single vocabulary a h1, get_codes_of_leaf, getD_set_eq]
  by_cases hb : b = a
  · subst hb
    rw [if_pos ⟨rfl, by rw [List.length_replicate]; exact ha⟩, if_pos rfl]
  · rw [if_neg (fun h => hb h.1.symm), if_neg hb, getD_replicate_nil]

/-- C11: for a frequency table with exactly one symbol `a` of non-zero count, the built
tree is a single leaf carrying `a` (with its count, and without children), and the
codebook gives `a` the one-bit code `[true]` and every other symbol the empty code. -/
theorem single_symbol_codebook (vocabulary : List Nat) (a : Nat)
    (h1 : nonzero_symbols vocabulary = [a]) :
    build_tree vocabulary = mk (vocabulary.getD a 0) true a nullptr nullptr ∧
    (HuffTree.new vocabulary).root = mk (vocabulary.getD a 0) true a nullptr nullptr ∧
    (HuffTree.new vocabulary).get_code_by_char a = [true] ∧
    ∀ b, b ≠ a → (HuffTree.new vocabulary).get_code_by_char b = [] := by
  refine ⟨build_tree_single vocabulary a h1, build_tree_single vocabulary a h1, ?_, ?_⟩
  · rw [get_code_single vocabulary a h1 a, if_pos rfl]
  · intro b hb
    rw [get_code_single vocabulary a h1 b, if_neg hb]

set_option maxRecDepth 100000 in
theorem single_symbol_codebook_witness :
    nonzero_symbols (List.replicate 97 0 ++ [100] ++ List.replicate 158 0) = [97] ∧
    (build_tree (List.replicate 97 0 ++ [100] ++ List.replicate 158 0) =
      mk ((List.replicate 97 0 ++ [100] ++ List.replicate 158 0).getD 97 0) true 97
        nullptr nullptr ∧
    (HuffTree.new (List.replicate 97 0 ++ [100] ++ List.replicate 158 0)).root =
      mk ((List.replicate 97 0 ++ [100] ++ List.replicate 158 0).getD 97 0) true 97
        nullptr nullptr ∧
    (HuffTree.new (List.replicate 97 0 ++ [100] ++
      List.replicate 158 0)).get_code_by_char 97 = [true] ∧
    ∀ b, b ≠ 97 → (HuffTree.new (List.replicate 97 0 ++ [100] ++
      List.replicate 158 0)).get_code_by_char b = []) :=
  ⟨by decide, single_symbol_codebook _ 97 (by decide)⟩

/-- C20: on the tree built from a table with exactly one symbol `a` of non-zero count, and
a non-empty bit queue, `try_extract_code` returns `true` with the symbol `a`, removes
exactly the front bit of the queue whatever its value, and leaves the tree, cursor
included (it stays at the root), as it was. -/
theorem try_extract_code_single (vocabulary : List Nat) (a : Nat)
    (h1 : nonzero_symbols vocabulary = [a]) (bit : Bool) (rest : List Bool) (chr : Nat) :
    try_extract_code (HuffTree.new vocabulary) (bit :: rest) chr =
      { ret := some true, tree := HuffTree.new vocabulary, buffer := rest, chr := a } ∧
    (HuffTree.new vocabulary).cur_node = (HuffTree.new vocabulary).root := by
  refine ⟨?_, rfl⟩
  unfold try_extract_code
  have hr : (HuffTree.new vocabulary).cur_node =
      mk (vocabulary.getD a 0) true a nullptr nullptr := build_tree_single vocabulary a h1
  rw [if_pos]
  · rw [hr]
    rfl
  · refine ⟨?_, rfl, ?_, by simp⟩
    · rw [hr]; simp
    · rw [hr]; rfl

set_option maxRecDepth 100000 in
theorem try_extract_code_single_witness :
    nonzero_symbols (List.replicate 97 0 ++ [100] ++ List.replicate 158 0) = [97] ∧
    (try_extract_code (HuffTree.new (List.replicate 97 0 ++ [100] ++ List.replicate 158 0))
        (false :: [true, false]) 0 =
      { ret := some true,
        tree := HuffTree.new (List.replicate 97 0 ++ [100] ++ List.replicate 158 0),
        buffer := [true, false], chr := 97 } ∧
    (HuffTree.new (List.replicate 97 0 ++ [100] ++ List.replicate 158 0)).cur_node =
      (HuffTree.new (List.replicate 97 0 ++ [100] ++ List.replicate 158 0)).root) :=
  ⟨by decide, try_extract_code_single _ 97 (by decide) false [true, false] 0⟩

theorem byte_bits_eq (chr : Nat) :
    byte_bits chr =
      [(chr &&& (1 <<< 0)) != 0, (chr &&& (1 <<< 1)) != 0, (chr &&& (1 <<< 2)) != 0,
        (chr &&& (1 <<< 3)) != 0, (chr &&& (1 <<< 4)) != 0, (chr &&& (1 <<< 5)) != 0,
        (chr &&& (1 <<< 6)) != 0, (chr &&& (1 <<< 7)) != 0] := rfl

set_option maxRecDepth 100000 in
theorem pack_loop_byte_bits : ∀ b, b < 256 → pack_loop (byte_bits b) 0 0 = b := by
  decide

set_option maxRecDepth 100000 in
theorem byte_bits_testBit :
    ∀ b, b < 256 → ∀ i, i < 8 → (byte_bits b).getD i false = b.testBit i := by
  decide

theorem extract_buffer_byte_bits (b : Nat) (hb : b < 256) (out : List Nat) :
    extract_buffer (byte_bits b) out = ([], out ++ [b]) := by
  have h := pack_loop_byte_bits b hb
  rw [byte_bits_eq] at h ⊢
  rw [extract_buffer_cons8, h, extract_buffer_short [] _ (by simp)]

theorem fill_buffer_get (data : List Nat) (pos : Nat) (buffer : List Bool) (b : Nat)
    (h : data.get? pos = some b) :
    fill_buffer data pos buffer = some (pos + 1, buffer ++ byte_bits b) := by
  unfold fill_buffer
  rw [h]

/-- C17: pack and unpack are mirror images.  For every byte `b`, unpacking `b` into an empty
queue with `fill_buffer` and then packing with `extract_buffer` emits exactly `b` and
leaves the queue empty; and for every sequence of 8 bits, packing it with
`extract_buffer` emits one byte and empties the queue, and unpacking that byte with
`fill_buffer` gives the same 8 bits in the same order. -/
theorem pack_unpack_mirror :
    (∀ (b : Nat), b < 256 → ∀ (data : List Nat) (pos : Nat) (out : List Nat),
      data.get? pos = some b →
      ∃ queue, fill_buffer data pos [] = some (pos + 1, queue) ∧
        extract_buffer queue out = ([], out ++ [b])) ∧
    (∀ (bits : List Bool), bits.length = 8 → ∀ (out : List Nat),
      ∃ byte, extract_buffer bits out = ([], out ++ [byte]) ∧
        ∀ (data : List Nat) (pos : Nat), data.get? pos = some byte →
          fill_buffer data pos [] = some (pos + 1, bits)) := by
  constructor
  · intro b hb data pos out hget
    exact ⟨byte_bits b, by rw [fill_buffer_get data pos [] b hget, List.nil_append],
      extract_buffer_byte_bits b hb out⟩
  · intro bits hlen out
    match bits, hlen with
    | [b0, b1, b2, b3, b4, b5, b6, b7], _ =>
      refine ⟨pack_loop [b0, b1, b2, b3, b4, b5, b6, b7] 0 0, ?_, ?_⟩
      · rw [extract_buffer_cons8, extract_buffer_short [] _ (by simp)]
      · intro data pos hget
        rw [fill_buffer_get data pos [] _ hget, List.nil_append,
          (pack_loop_bits b0 b1 b2 b3 b4 b5 b6 b7).1]

/-- C18: for a byte `b` read from the source, `fill_buffer` advances the get position by one
and appends exactly 8 bits to the back of the queue, the `i`-th of them (`i = 0..7`) being
bit `i` of `b` (least significant = position 0); the bits already queued stay in front,
unchanged. -/
theorem fill_buffer_bit_order (data : List Nat) (pos : Nat) (buffer : List Bool) (b : Nat)
    (hb : b < 256) (hget : data.get? pos = some b) :
    ∃ bits : List Bool, fill_buffer data pos buffer = some (pos + 1, buffer ++ bits) ∧
      bits.length = 8 ∧ ∀ i, i < 8 → bits.getD i false = b.testBit i :=
  ⟨byte_bits b, fill_buffer_get data pos buffer b hget, byte_bits_length b,
    byte_bits_testBit b hb⟩

theorem fill_buffer_bit_order_witness :
    97 < 256 ∧ ([1, 97, 3] : List Nat).get? 1 = some 97 ∧
    ∃ bits : List Bool,
      fill_buffer [1, 97, 3] 1 [true, false] = some (1 + 1, [true, false] ++ bits) ∧
      bits.length = 8 ∧ ∀ i, i < 8 → bits.getD i false = (97 : Nat).testBit i :=
  ⟨by decide, by decide, fill_buffer_bit_order [1, 97, 3] 1 [true, false] 97 (by decide)
    (by decide)⟩

theorem pack_unpack_mirror_witness :
    (97 < 256 ∧ ([97] : List Nat).get? 0 = some 97 ∧
      ∃ queue, fill_buffer [97] 0 [] = some (0 + 1, queue) ∧
        extract_buffer queue [5] = ([], [5] ++ [97])) ∧
    ([true, false, false, false, false, true, true, false].length = 8 ∧
      ∃ byte, extract_buffer [true, false, false, false, false, true, true, false] [5] =
          ([], [5] ++ [byte]) ∧
        ∀ (data : List Nat) (pos : Nat), data.get? pos = some byte →
          fill_buffer data pos [] =
            some (pos + 1, [true, false, false, false, false, true, true, false])) :=
  ⟨⟨by decide, by decide, pack_unpack_mirror.1 97 (by decide) [97] 0 [5] (by decide)⟩,
    by decide,
    pack_unpack_mirror.2 [true, false, false, false, false, true, true, false] (by decide) [5]⟩

theorem flatMap_byte_bits_getD (bytes : List Nat) (j i : Nat) (hj : j < bytes.length)
    (hi : i < 8) :
    (bytes.flatMap byte_bits).getD (8 * j + i) false =
      (byte_bits (bytes.getD j 0)).getD i false := by
  induction bytes generalizing j with
  | nil => simp at hj
  | cons b bs ih =>
    rw [List.flatMap_cons]
    cases j with
    | zero =>
      rw [List.getD_append _ _ _ _ (by rw [byte_bits_length]; omega)]
      simp
    | succ j =>
      rw [List.getD_append_right _ _ _ _ (by rw [byte_bits_length]; omega), byte_bits_length,
        List.getD_cons_succ]
      have e : 8 * (j + 1) + i - 8 = 8 * j + i := by omega
      rw [e]
      exact ih j (by simpa using hj)

/-- C19: for a queue holding `n` bits, `extract_buffer` emits exactly `n / 8` bytes, bit
position `i` of the `j`-th emitted byte being the queued bit number `8 * j + i`, and
leaves in the queue exactly the last `n % 8` bits in their order; a queue of fewer than 8
bits is left untouched and nothing is emitted. -/
theorem extract_buffer_pack (buffer : List Bool) (out : List Nat) :
    ∃ bytes : List Nat,
      extract_buffer buffer out = (buffer.drop (8 * (buffer.length / 8)), out ++ bytes) ∧
      bytes.length = buffer.length / 8 ∧
      (∀ j i, j < buffer.length / 8 → i < 8 →
        (bytes.getD j 0).testBit i = buffer.getD (8 * j + i) false) ∧
      (buffer.drop (8 * (buffer.length / 8))).length = buffer.length % 8 ∧
      (buffer.length < 8 → extract_buffer buffer out = (buffer, out)) := by
  obtain ⟨bytes, h1, h2, h3, h4⟩ := extract_buffer_spec buffer out
  refine ⟨bytes, by rw [h1, h3], h3, ?_, ?_, fun h => extract_buffer_short buffer out h⟩
  · intro j i hj hi
    have hjb : j < bytes.length := by omega
    have hb : bytes.getD j 0 < 256 := by
      rw [List.getD_eq_getElem _ _ hjb]
      exact h4 _ (List.getElem_mem _)
    rw [← byte_bits_testBit _ hb i hi, ← flatMap_byte_bits_getD bytes j i hjb hi, h2]
    simp only [List.getD_eq_getElem?_getD]
    rw [List.getElem?_take_of_lt (by omega)]
  · rw [List.length_drop]
    omega

/-- C16: for an input `S` of fewer than `2 ^ 32` bytes with `k` distinct byte values,
`extract_vocabulary` run on the output of `zip` from right after the 4-byte original size
rebuilds the table `build_vocabulary` made from `S`, entry for entry, and stops `4 + 5 * k`
bytes further on. -/
theorem zip_vocabulary_roundtrip (be : Bool) (S : List Nat) (hS : ∀ b ∈ S, b < 256)
    (hlen : S.length < 2 ^ 32) :
    extract_vocabulary be (zip be (HuffmanArchiver.new S)).out 4 =
      some ((build_vocabulary (HuffmanArchiver.new S)).1, 4 + (4 + 5 * S.dedup.length)) := by
  obtain ⟨bytes, p, hA, _⟩ := zip_out_eq be S hS hlen
  rw [hA, (parse_expected_header be S hS hlen bytes).2, present_symbols_length S hS]
  congr 2
  omega

theorem zip_vocabulary_roundtrip_witness :
    (∀ b ∈ [97, 98, 97], b < 256) ∧ [97, 98, 97].length < 2 ^ 32 ∧
    extract_vocabulary false (zip false (HuffmanArchiver.new [97, 98, 97])).out 4 =
      some ((build_vocabulary (HuffmanArchiver.new [97, 98, 97])).1,
        4 + (4 + 5 * [97, 98, 97].dedup.length)) :=
  ⟨by decide, by decide, zip_vocabulary_roundtrip false [97, 98, 97] (by decide) (by decide)⟩

theorem nonzero_symbols_build_vocabulary (S : List Nat) (hS : ∀ b ∈ S, b < 256)
    (hlen : S.length < 2 ^ 32) :
    nonzero_symbols (build_vocabulary (HuffmanArchiver.new S)).1 = present_symbols S := by
  unfold nonzero_symbols present_symbols
  apply List.filter_congr
  intro i _
  rw [build_vocabulary_getD_eq S hS hlen i]
  by_cases h : i ∈ S
  · have := List.count_pos_iff.2 h
    simp [h]
    omega
  · simp [h, List.count_eq_zero_of_not_mem h]

theorem present_symbols_replicate (a n : Nat) (ha : a < 256) (hn : 1 ≤ n) :
    present_symbols (List.replicate n a) = [a] := by
  have hS : ∀ b ∈ List.replicate n a, b < 256 := by
    intro b hb
    rw [(List.mem_replicate.1 hb).2]
    exact ha
  have hp : (present_symbols (List.replicate n a)).Perm [a] := by
    rw [List.perm_ext_iff_of_nodup (present_symbols_nodup _) (List.nodup_singleton a)]
    intro b
    rw [present_symbols_mem _ hS, List.mem_replicate, List.mem_singleton]
    constructor
    · exact fun h => h.2
    · exact fun h => ⟨by omega, h⟩
  exact List.perm_singleton.1 hp

theorem flatMap_byte_bits_inj (xs ys : List Nat) (hx : ∀ b ∈ xs, b < 256)
    (hy : ∀ b ∈ ys, b < 256) (h : xs.flatMap byte_bits = ys.flatMap byte_bits) : xs = ys := by
  induction xs generalizing ys with
  | nil =>
    cases ys with
    | nil => rfl
    | cons y ys =>
      have := congrArg List.length h
      rw [flatMap_byte_bits_length, flatMap_byte_bits_length] at this
      simp only [List.length_nil, List.length_cons] at this
      omega
  | cons x xs ih =>
    cases ys with
    | nil =>
      have := congrArg List.length h
      rw [flatMap_byte_bits_length, flatMap_byte_bits_length] at this
      simp only [List.length_nil, List.length_cons] at this
      omega
    | cons y ys =>
      rw [List.flatMap_cons, List.flatMap_cons] at h
      obtain ⟨h1, h2⟩ := List.append_inj h (by rw [byte_bits_length, byte_bits_length])
      have e : x = y := by
        rw [← pack_loop_byte_bits x (hx x (List.mem_cons_self _ _)),
          ← pack_loop_byte_bits y (hy y (List.mem_cons_self _ _)), h1]
      rw [e, ih ys (fun b hb => hx b (List.mem_cons_of_mem _ hb))
        (fun b hb => hy b (List.mem_cons_of_mem _ hb)) h2]

theorem byte_bits_low_ones :
    ∀ r, r < 9 → byte_bits (2 ^ r - 1) = List.replicate r true ++ List.replicate (8 - r) false := by
  decide

theorem flatMap_byte_bits_replicate (m : Nat) :
    (List.replicate m 255).flatMap byte_bits = List.replicate (8 * m) true := by
  induction m with
  | zero => rfl
  | succ m ih =>
    rw [List.replicate_succ, List.flatMap_cons, ih, Nat.mul_succ, Nat.add_comm (8 * m) 8,
      List.replicate_add]
    rfl

theorem flatMap_replicate_const (n a : Nat) (f : Nat → List Bool) (h : f a = [true]) :
    (List.replicate n a).flatMap f = List.replicate n true := by
  induction n with
  | zero => rfl
  | succ n ih => rw [List.replicate_succ, List.flatMap_cons, ih, h]; rfl

/-- The bytes `encode` writes for `n` copies of one symbol whose code is the single bit
`true`. -/
theorem ones_payload (n p : Nat) (bytes : List Nat) (hb : ∀ b ∈ bytes, b < 256) (hp : p < 8)
    (hbits : bytes.flatMap byte_bits = List.replicate n true ++ List.replicate p false) :
    bytes = List.replicate (n / 8) 255 ++ (if n % 8 = 0 then [] else [2 ^ (n % 8) - 1]) := by
  have hl := congrArg List.length hbits
  simp only [flatMap_byte_bits_length, List.length_append, List.length_replicate] at hl
  apply flatMap_byte_bits_inj _ _ hb
  · intro b hb'
    rcases List.mem_append.1 hb' with h | h
    · rw [(List.mem_replicate.1 h).2]; omega
    · by_cases h0 : n % 8 = 0
      · rw [if_pos h0] at h; simp at h
      · rw [if_neg h0, List.mem_singleton] at h
        rw [h]
        have : 2 ^ (n % 8) ≤ 2 ^ 8 := Nat.pow_le_pow_right (by omega) (by omega)
        have : 0 < 2 ^ (n % 8) := Nat.two_pow_pos _
        omega
  · rw [hbits, List.flatMap_append, flatMap_byte_bits_replicate]
    have hn : n = 8 * (n / 8) + n % 8 := (Nat.div_add_mod n 8).symm
    by_cases h0 : n % 8 = 0
    · rw [if_pos h0]
      have hp0 : p = 0 := by omega
      have hn' : 8 * (n / 8) = n := by omega
      rw [hp0, hn']
      rfl
    · rw [if_neg h0, List.flatMap_cons, List.flatMap_nil, List.append_nil,
        byte_bits_low_ones (n % 8) (by omega)]
      have hp8 : p = 8 - n % 8 := by omega
      rw [hp8, ← List.append_assoc, ← List.replicate_add, ← hn]

/-- C12: for a byte value `a` and `1 ≤ n < 2 ^ 32`, `zip` of `n` repetitions of `a` writes
the original size `n`, the vocabulary count 1, the single entry `(a, n)`, and a payload of
`ceil (n / 8)` bytes: `n / 8` bytes `0xFF`, followed when `n % 8 ≠ 0` by one byte with
exactly its low `n % 8` bits set; for `n = 6` the payload is the single byte `0x3F`. -/
theorem zip_single_symbol (be : Bool) (a n : Nat) (ha : a < 256) (hn1 : 1 ≤ n)
    (hn : n < 2 ^ 32) :
    (zip be (HuffmanArchiver.new (List.replicate n a))).out =
      u32_bytes be n ++ u32_bytes be 1 ++ (a :: u32_bytes be n) ++
        (List.replicate (n / 8) 255 ++ (if n % 8 = 0 then [] else [2 ^ (n % 8) - 1])) ∧
    (List.replicate (n / 8) 255 ++ (if n % 8 = 0 then [] else [2 ^ (n % 8) - 1])).length
      = (n + 7) / 8 ∧
    (n = 6 → (zip be (HuffmanArchiver.new (List.replicate n a))).out.drop 13 = [63]) := by
  have hS : ∀ b ∈ List.replicate n a, b < 256 := by
    intro b hb
    rw [(List.mem_replicate.1 hb).2]
    exact ha
  have hlen : (List.replicate n a).length < 2 ^ 32 := by
    rw [List.length_replicate]; exact hn
  have hps := present_symbols_replicate a n ha hn1
  have hnz : nonzero_symbols (build_vocabulary (HuffmanArchiver.new (List.replicate n a))).1
      = [a] := by
    rw [nonzero_symbols_build_vocabulary _ hS hlen, hps]
  have hcode : (HuffTree.new (build_vocabulary
      (HuffmanArchiver.new (List.replicate n a))).1).get_code_by_char a = [true] := by
    rw [get_code_single _ a hnz a, if_pos rfl]
  obtain ⟨bytes, p, h, hp, hbits, _, hb⟩ :=
    encode_spec (HuffTree.new (build_vocabulary (HuffmanArchiver.new (List.replicate n a))).1)
      (List.replicate n a) (expected_header be (List.replicate n a))
  rw [flatMap_replicate_const n a _ hcode] at hbits
  have hbytes := ones_payload n p bytes hb hp hbits
  have hhead : expected_header be (List.replicate n a) =
      u32_bytes be n ++ u32_bytes be 1 ++ (a :: u32_bytes be n) := by
    unfold expected_header
    rw [hps, List.length_replicate, List.flatMap_cons, List.flatMap_nil, List.append_nil,
      List.count_replicate_self]
    rfl
  have hout : (zip be (HuffmanArchiver.new (List.replicate n a))).out =
      u32_bytes be n ++ u32_bytes be 1 ++ (a :: u32_bytes be n) ++
        (List.replicate (n / 8) 255 ++ (if n % 8 = 0 then [] else [2 ^ (n % 8) - 1])) := by
    rw [zip_out be _ hS hlen, h, hhead, hbytes]
  refine ⟨hout, ?_, ?_⟩
  · by_cases h0 : n % 8 = 0
    · rw [if_pos h0, List.append_nil, List.length_replicate]; omega
    · rw [if_neg h0, List.length_append, List.length_replicate, List.length_singleton]; omega
  · intro h6
    rw [hout, h6]
    have e : (u32_bytes be 6 ++ u32_bytes be 1 ++ (a :: u32_bytes be 6)).length = 13 := by
      simp [u32_bytes_length]
    rw [← e, List.drop_left]
    rfl

theorem zip_single_symbol_witness :
    97 < 256 ∧ 1 ≤ 6 ∧ 6 < 2 ^ 32 ∧
    ((zip false (HuffmanArchiver.new (List.replicate 6 97))).out =
      u32_bytes false 6 ++ u32_bytes false 1 ++ (97 :: u32_bytes false 6) ++
        (List.replicate (6 / 8) 255 ++ (if 6 % 8 = 0 then [] else [2 ^ (6 % 8) - 1])) ∧
    (List.replicate (6 / 8) 255 ++ (if 6 % 8 = 0 then [] else [2 ^ (6 % 8) - 1])).length
      = (6 + 7) / 8 ∧
    (6 = 6 → (zip false (HuffmanArchiver.new (List.replicate 6 97))).out.drop 13 = [63])) :=
  ⟨by decide, by decide, by decide, zip_single_symbol false 97 6 (by decide) (by decide)
    (by decide)⟩

theorem leaf_values_walk (cur : TreeNode) (buffer : List Bool) :
    ∀ x ∈ leaf_values (walk cur buffer).1, x ∈ leaf_values cur := by
  induction buffer generalizing cur with
  | nil => rw [walk_nil]; exact fun x hx => hx
  | cons bit rest ih =>
    cases cur with
    | nullptr => exact fun x hx => hx
    | mk f leaf v l r =>
      cases leaf with
      | true => exact fun x hx => hx
      | false =>
        intro x hx
        simp only [walk, Bool.false_eq_true, if_false] at hx
        have hx2 := ih _ x hx
        simp only [leaf_values, leaf_paths, List.map_append, List.map_map, List.mem_append]
        cases bit with
        | true =>
          left
          simpa [leaf_values, Function.comp] using hx2
        | false =>
          right
          simpa [leaf_values, Function.comp] using hx2

theorem get_value_mem_leaf_values (t : TreeNode) (h1 : t ≠ nullptr) (h2 : t.is_leaf = true) :
    t.get_value ∈ leaf_values t := by
  cases t with
  | nullptr => exact (h1 rfl).elim
  | mk f leaf v l r =>
    simp only [is_leaf] at h2
    subst h2
    simp [leaf_values, leaf_paths, get_value]

/-- What every call of `try_extract_code` keeps: the root, and the fact that the cursor
only reaches leaves of the tree; a produced symbol is carried by a leaf of the tree. -/
theorem try_extract_code_sound (tree : HuffTree) (buffer : List Bool) (chr : Nat)
    (hinv : ∀ x ∈ leaf_values tree.cur_node, x ∈ leaf_values tree.root) :
    (try_extract_code tree buffer chr).tree.root = tree.root ∧
    (∀ x ∈ leaf_values (try_extract_code tree buffer chr).tree.cur_node,
      x ∈ leaf_values tree.root) ∧
    ((try_extract_code tree buffer chr).ret = some true →
      (try_extract_code tree buffer chr).chr ∈ leaf_values tree.root) := by
  unfold try_extract_code
  split
  · rename_i hc
    refine ⟨rfl, hinv, fun _ => ?_⟩
    exact hinv _ (get_value_mem_leaf_values _ hc.1 hc.2.2.1)
  · simp only []
    split
    · rename_i hnull
      refine ⟨rfl, ?_, fun h => by simp at h⟩
      simp only []
      rw [hnull]
      intro x hx
      simp [leaf_values, leaf_paths] at hx
    · rename_i hnull
      split
      · rename_i hleaf
        refine ⟨rfl, fun x hx => hx, fun _ => ?_⟩
        exact hinv _ (leaf_values_walk _ _ _ (get_value_mem_leaf_values _ hnull hleaf))
      · refine ⟨rfl, fun x hx => hinv _ (leaf_values_walk _ _ x hx), fun h => by simp at h⟩

theorem fill_buffer_pos (data : List Nat) (pos : Nat) (buffer : List Bool) (pos1 : Nat)
    (buffer1 : List Bool) (h : fill_buffer data pos buffer = some (pos1, buffer1)) :
    pos1 = pos + 1 ∧ pos1 ≤ data.length := by
  unfold fill_buffer at h
  cases hg : data.get? pos with
  | none => rw [hg] at h; exact Option.noConfusion h
  | some c =>
    rw [hg] at h
    have hlt : pos < data.length := by
      rw [List.get?_eq_getElem?] at hg
      exact (List.getElem?_eq_some_iff.1 hg).1
    have := (Prod.mk.inj (Option.some.inj h)).1
    omega

/-- The decode loop on any source and any tree: when it ends without an exception it has
written exactly the symbols still missing, each carried by a leaf of the tree, and the get
position has only moved forward inside the source. -/
theorem decode_loop_sound (data : List Nat) (n fuel : Nat) :
    ∀ (s s' : DecodeState), decode_loop data n fuel s = some (.done s') →
      (∀ x ∈ leaf_values s.tree.cur_node, x ∈ leaf_values s.tree.root) →
      ∃ emitted : List Nat, s'.out = s.out ++ emitted ∧ emitted.length = n - s.i ∧
        (∀ x ∈ emitted, x ∈ leaf_values s.tree.root) ∧
        s.in_pos ≤ s'.in_pos ∧ (s.in_pos ≤ data.length → s'.in_pos ≤ data.length) := by
  induction fuel with
  | zero =>
    intro s s' h _
    by_cases hi : s.i < n
    · simp [decode_loop, hi] at h
    · rw [decode_loop_done data n 0 s hi] at h
      have e : s = s' := by
        have := Option.some.inj h
        exact Outcome.done.inj this
      subst e
      exact ⟨[], by simp, by simp; omega, by simp, le_refl _, fun h => h⟩
  | succ fuel ih =>
    intro s s' h hinv
    by_cases hi : s.i < n
    · cases hfill : (if s.buffer = [] then fill_buffer data s.in_pos s.buffer
          else some (s.in_pos, s.buffer)) with
      | none =>
        rw [decode_loop_fail data n fuel s hi hfill] at h
        simp at h
      | some pb =>
        obtain ⟨pos1, buffer1⟩ := pb
        have hpos : s.in_pos ≤ pos1 ∧ (s.in_pos ≤ data.length → pos1 ≤ data.length) := by
          by_cases hb : s.buffer = []
          · rw [if_pos hb] at hfill
            have := fill_buffer_pos _ _ _ _ _ hfill
            exact ⟨by omega, fun _ => this.2⟩
          · rw [if_neg hb] at hfill
            have := (Prod.mk.inj (Option.some.inj hfill)).1
            exact ⟨by omega, fun h => by omega⟩
        rw [decode_loop_succ data n fuel s hi pos1 buffer1 hfill] at h
        obtain ⟨t1, t2, t3⟩ := try_extract_code_sound s.tree buffer1 s.chr hinv
        cases hret : (try_extract_code s.tree buffer1 s.chr).ret with
        | none => rw [hret] at h; simp at h
        | some b =>
          rw [hret] at h
          cases b with
          | true =>
            simp only [] at h
            obtain ⟨em, e1, e2, e3, e4, e5⟩ := ih _ s' h (by
              dsimp only
              rw [t1]
              exact t2)
            dsimp only at e1 e2 e3 e4 e5
            refine ⟨(try_extract_code s.tree buffer1 s.chr).chr :: em, ?_, ?_, ?_, ?_, ?_⟩
            · rw [e1, List.append_assoc]; rfl
            · rw [List.length_cons, e2]; omega
            · intro x hx
              rcases List.mem_cons.1 hx with hx1 | hx1
              · rw [hx1]; exact t3 hret
              · rw [← t1]; exact e3 x hx1
            · omega
            · exact fun h0 => e5 (hpos.2 h0)
          | false =>
            simp only [] at h
            obtain ⟨em, e1, e2, e3, e4, e5⟩ := ih _ s' h (by
              dsimp only
              rw [t1]
              exact t2)
            dsimp only at e1 e2 e3 e4 e5
            refine ⟨em, e1, e2, ?_, by omega, fun h0 => e5 (hpos.2 h0)⟩
            intro x hx
            rw [← t1]; exact e3 x hx
    · rw [decode_loop_done data n _ s hi] at h
      have e : s = s' := Outcome.done.inj (Option.some.inj h)
      subst e
      exact ⟨[], by simp, by simp; omega, by simp, le_refl _, fun h => h⟩

/-- The steps a completed `unzip` has gone through. -/
theorem unzip_done_inv (be : Bool) (data : List Nat) (a' : HuffmanArchiver)
    (h : unzip be (HuffmanArchiver.new data) = some (.done a')) :
    ∃ (b vocabulary : List Nat) (pos : Nat) (s' : DecodeState),
      read_exact data 0 4 = some b ∧
      extract_vocabulary be data 4 = some (vocabulary, pos) ∧
      decode (HuffTree.new vocabulary) data (u32_of_bytes be b) pos [] = some (.done s') ∧
      a' = { in_data := data, in_pos := s'.in_pos, out := s'.out,
             in_file_size := (s'.in_pos % 2 ^ 32 + 2 ^ 32 - pos % 2 ^ 32) % 2 ^ 32,
             out_file_size := u32_of_bytes be b, extra_data_size := pos % 2 ^ 32 } := by
  unfold unzip at h
  simp only [HuffmanArchiver.new, Nat.zero_add] at h
  cases hr : read_exact data 0 4 with
  | none => rw [hr] at h; simp at h
  | some b =>
    rw [hr] at h
    simp only [] at h
    cases hv : extract_vocabulary be data 4 with
    | none => rw [hv] at h; simp at h
    | some vp =>
      obtain ⟨vocabulary, pos⟩ := vp
      rw [hv] at h
      simp only [] at h
      cases hd : decode (HuffTree.new vocabulary) data (u32_of_bytes be b) pos [] with
      | none => rw [hd] at h; simp at h
      | some o =>
        rw [hd] at h
        cases o with
        | thrown e out => simp at h
        | done s' =>
          simp only [] at h
          exact ⟨b, vocabulary, pos, s', rfl, rfl, hd,
            (Outcome.done.inj (Option.some.inj h)).symm⟩

theorem read_exact_some (data : List Nat) (pos n : Nat) (b : List Nat)
    (h : read_exact data pos n = some b) :
    b = (data.drop pos).take n ∧ pos + n ≤ data.length := by
  unfold read_exact at h
  by_cases hc : pos + n ≤ data.length
  · rw [if_pos hc] at h
    exact ⟨(Option.some.inj h).symm, hc⟩
  · rw [if_neg hc] at h
    exact Option.noConfusion h

/-- C15: for every source (a valid archive or not) on which `unzip` completes without an
exception, the number of bytes written to the sink is exactly the original size stored in
the first four bytes, and every written byte is a symbol whose frequency in the table read
from the header is non-zero. -/
theorem unzip_bounded_output (be : Bool) (data : List Nat) (a' : HuffmanArchiver)
    (h : unzip be (HuffmanArchiver.new data) = some (.done a')) :
    a'.out.length = u32_of_bytes be (data.take 4) ∧
    ∃ (vocabulary : List Nat) (pos : Nat),
      extract_vocabulary be data 4 = some (vocabulary, pos) ∧
      ∀ x ∈ a'.out, x < 256 ∧ vocabulary.getD x 0 ≠ 0 := by
  obtain ⟨b, vocabulary, pos, s', h1, h2, h3, h4⟩ := unzip_done_inv be data a' h
  have hb := (read_exact_some data 0 4 b h1).1
  rw [List.drop_zero] at hb
  unfold decode at h3
  obtain ⟨em, e1, e2, e3, _, _⟩ := decode_loop_sound data _ _ _ s' h3 (fun x hx => hx)
  dsimp only at e1 e2 e3
  rw [List.nil_append] at e1
  rw [h4]
  dsimp only
  rw [e1]
  refine ⟨by rw [e2, hb]; rfl, vocabulary, pos, h2, ?_⟩
  intro x hx
  have hx2 := e3 x hx
  exact (mem_nonzero_symbols vocabulary x).1 ((build_tree_leaves vocabulary).subset hx2)

set_option maxRecDepth 100000 in
theorem unzip_bounded_output_witness :
    unzip false (HuffmanArchiver.new
        [3, 0, 0, 0, 2, 0, 0, 0, 97, 2, 0, 0, 0, 98, 1, 0, 0, 0, 2]) =
      some (.done
        { in_data := [3, 0, 0, 0, 2, 0, 0, 0, 97, 2, 0, 0, 0, 98, 1, 0, 0, 0, 2],
          in_pos := 19, out := [97, 98, 97], in_file_size := 1, out_file_size := 3,
          extra_data_size := 18 }) ∧
    ([97, 98, 97] : List Nat).length = u32_of_bytes false
      (([3, 0, 0, 0, 2, 0, 0, 0, 97, 2, 0, 0, 0, 98, 1, 0, 0, 0, 2] : List Nat).take 4) ∧
    ∃ (vocabulary : List Nat) (pos : Nat),
      extract_vocabulary false [3, 0, 0, 0, 2, 0, 0, 0, 97, 2, 0, 0, 0, 98, 1, 0, 0, 0, 2] 4 =
        some (vocabulary, pos) ∧
      ∀ x ∈ ([97, 98, 97] : List Nat), x < 256 ∧ vocabulary.getD x 0 ≠ 0 :=
  ⟨by decide,
    unzip_bounded_output false [3, 0, 0, 0, 2, 0, 0, 0, 97, 2, 0, 0, 0, 98, 1, 0, 0, 0, 2]
      { in_data := [3, 0, 0, 0, 2, 0, 0, 0, 97, 2, 0, 0, 0, 98, 1, 0, 0, 0, 2],
        in_pos := 19, out := [97, 98, 97], in_file_size := 1, out_file_size := 3,
        extra_data_size := 18 } (by decide)⟩

theorem sum_indicator_mul_range (c n : Nat) (f : Nat → Nat) :
    ((List.range n).map (fun b => if c = b then f b else 0)).sum = if c < n then f c else 0 := by
  induction n with
  | zero => simp
  | succ n ih =>
    rw [List.range_succ, List.map_append, List.sum_append, ih]
    by_cases h1 : c < n
    · have h3 : c ≠ n := by omega
      have h4 : c < n + 1 := by omega
      simp [h1, h3, h4]
    · by_cases h2 : c = n
      · simp [h2]
      · have : ¬ c < n + 1 := by omega
        simp [h1, h2, this]

theorem sum_map_eq_sum_count (S : List Nat) (n : Nat) (f : Nat → Nat) (hS : ∀ b ∈ S, b < n) :
    (S.map f).sum = ((List.range n).map fun b => S.count b * f b).sum := by
  induction S with
  | nil => simp
  | cons c S ih =>
    have hc : c < n := hS c (List.mem_cons_self _ _)
    have e : (fun b => (c :: S).count b * f b) =
        fun b => S.count b * f b + (if c = b then f b else 0) := by
      funext b
      rw [List.count_cons]
      by_cases h : c = b
      · simp [h, Nat.add_mul]
      · simp [h]
    rw [e, List.sum_map_add, ← ih (fun b hb => hS b (List.mem_cons_of_mem _ hb)),
      sum_indicator_mul_range, if_pos hc, List.map_cons, List.sum_cons]
    omega

theorem sum_map_filter_of_zero (l : List Nat) (p : Nat → Bool) (g : Nat → Nat)
    (h : ∀ b ∈ l, p b = false → g b = 0) :
    ((l.filter p).map g).sum = (l.map g).sum := by
  induction l with
  | nil => rfl
  | cons x l ih =>
    have ih' := ih (fun b hb => h b (List.mem_cons_of_mem _ hb))
    rw [List.filter_cons]
    cases hp : p x with
    | true => simp only [if_true, List.map_cons, List.sum_cons, ih']
    | false =>
      simp only [Bool.false_eq_true, if_false, List.map_cons, List.sum_cons, ih',
        h x (List.mem_cons_self _ _) hp, Nat.zero_add]

/-- A sum over the bytes of `S` is the sum over the distinct values of `S`, weighted by
their counts. -/
theorem sum_map_eq_sum_present (S : List Nat) (f : Nat → Nat) (hS : ∀ b ∈ S, b < 256) :
    (S.map f).sum = ((present_symbols S).map fun b => S.count b * f b).sum := by
  rw [sum_map_eq_sum_count S 256 f hS]
  unfold present_symbols
  rw [sum_map_filter_of_zero]
  intro b _ hb
  have : b ∉ S := by simpa using hb
  rw [List.count_eq_zero_of_not_mem this, Nat.zero_mul]

theorem byte_bits_not_isPrefix (a b : Nat) (ha : a < 256) (hb : b < 256) (hab : a ≠ b) :
    ¬ (byte_bits a <+: byte_bits b) := by
  intro h
  have e := h.eq_of_length (by rw [byte_bits_length, byte_bits_length])
  apply hab
  rw [← pack_loop_byte_bits a ha, ← pack_loop_byte_bits b hb, e]

/-- The codes of the bytes of `S` take at most 8 bits per byte in total. -/
theorem code_bits_le (S : List Nat) (hS : ∀ b ∈ S, b < 256) (hlen : S.length < 2 ^ 32) :
    (S.flatMap
      (HuffTree.new (build_vocabulary (HuffmanArchiver.new S)).1).get_code_by_char).length
      ≤ 8 * S.length := by
  have hnz := nonzero_symbols_build_vocabulary S hS hlen
  have hT := sum_map_eq_sum_present S
    (fun s => ((HuffTree.new (build_vocabulary (HuffmanArchiver.new S)).1).get_code_by_char
      s).length) hS
  have hN := sum_map_eq_sum_present S (fun _ => 1) hS
  beta_reduce at hT hN
  have hN' : ((present_symbols S).map fun b => S.count b).sum = S.length := by
    have : (S.map fun _ => 1).sum = S.length := by
      rw [List.map_const', List.sum_replicate]
      simp
    rw [← this, hN]
    simp
  rw [List.length_flatMap]
  change (S.map fun s => ((HuffTree.new
    (build_vocabulary (HuffmanArchiver.new S)).1).get_code_by_char s).length).sum ≤ _
  rw [hT]
  by_cases h2 : 2 ≤ (present_symbols S).length
  · have hopt := codebook_cost_le (build_vocabulary (HuffmanArchiver.new S)).1
      (by rw [hnz]; exact h2)
      (by
        rw [hnz]
        have e : ((present_symbols S).map fun s =>
            (build_vocabulary (HuffmanArchiver.new S)).1.getD s 0) =
            (present_symbols S).map fun b => S.count b := by
          apply List.map_congr_left
          intro s _
          exact build_vocabulary_getD_eq S hS hlen s
        rw [e, hN']
        exact hlen)
      byte_bits
      (by
        intro a ha b hb hab
        rw [hnz, present_symbols_mem S hS] at ha hb
        exact byte_bits_not_isPrefix a b (hS a ha) (hS b hb) hab)
    rw [hnz] at hopt
    have e1 : ((present_symbols S).map fun s =>
        (build_vocabulary (HuffmanArchiver.new S)).1.getD s 0 *
          ((HuffTree.new (build_vocabulary (HuffmanArchiver.new S)).1).get_code_by_char
            s).length) =
        (present_symbols S).map fun b => S.count b *
          ((HuffTree.new (build_vocabulary (HuffmanArchiver.new S)).1).get_code_by_char
            b).length := by
      apply List.map_congr_left
      intro s _
      rw [build_vocabulary_getD_eq S hS hlen s]
    have e2 : ((present_symbols S).map fun s =>
        (build_vocabulary (HuffmanArchiver.new S)).1.getD s 0 * (byte_bits s).length) =
        (present_symbols S).map fun b => S.count b * 8 := by
      apply List.map_congr_left
      intro s _
      rw [build_vocabulary_getD_eq S hS hlen s, byte_bits_length]
    rw [e1, e2, List.sum_map_mul_right, hN'] at hopt
    omega
  · match hps : present_symbols S with
    | [] => simp
    | [a] =>
      have hcode : (HuffTree.new (build_vocabulary (HuffmanArchiver.new S)).1).get_code_by_char
          a = [true] := by
        rw [get_code_single _ a (by rw [hnz, hps]) a, if_pos rfl]
      rw [hps] at hN'
      simp only [List.map_cons, List.map_nil, List.sum_cons, List.sum_nil, hcode,
        List.length_singleton] at hN' ⊢
      omega
    | _ :: _ :: _ => rw [hps] at h2; simp at h2

theorem zip_fields (be : Bool) (S : List Nat) (hS : ∀ b ∈ S, b < 256)
    (hlen : S.length < 2 ^ 32) :
    (zip be (HuffmanArchiver.new S)).in_file_size = S.length ∧
    (zip be (HuffmanArchiver.new S)).extra_data_size = (expected_header be S).length % 2 ^ 32 ∧
    (zip be (HuffmanArchiver.new S)).out_file_size =
      ((zip be (HuffmanArchiver.new S)).out.length % 2 ^ 32 + 2 ^ 32 -
        (expected_header be S).length % 2 ^ 32) % 2 ^ 32 := by
  have h1 : (build_vocabulary (HuffmanArchiver.new S)).2.in_pos % 2 ^ 32 = S.length := by
    simp only [build_vocabulary, HuffmanArchiver.new, Nat.zero_max]
    exact Nat.mod_eq_of_lt hlen
  have h2 : (zip_records (build_vocabulary (HuffmanArchiver.new S)).1).length % 2 ^ 32
      = (present_symbols S).length := by
    rw [zip_records_eq S hS hlen, List.length_map]
    have := present_symbols_length_le S
    omega
  have h3 : ((zip_records (build_vocabulary (HuffmanArchiver.new S)).1).flatMap
      fun record => record.1 :: u32_bytes be record.2) =
      (present_symbols S).flatMap fun b => b :: u32_bytes be (S.count b) := by
    rw [zip_records_eq S hS hlen, List.flatMap_map]
  unfold zip expected_header
  simp only [h1, h2, h3]
  exact ⟨trivial, rfl, rfl⟩

/-- The payload `zip` writes is no longer than the input, and the archive is the header
followed by it. -/
theorem zip_payload_le (be : Bool) (S : List Nat) (hS : ∀ b ∈ S, b < 256)
    (hlen : S.length < 2 ^ 32) :
    ∃ bytes : List Nat, (zip be (HuffmanArchiver.new S)).out = expected_header be S ++ bytes ∧
      bytes.length ≤ S.length := by
  obtain ⟨bytes, p, hA, _, _, hl⟩ := zip_out_eq be S hS hlen
  refine ⟨bytes, hA, ?_⟩
  have := code_bits_le S hS hlen
  omega

/-- C13: after `zip` of an input `S` of fewer than `2 ^ 32` bytes with `k` distinct byte
values, `get_in_file_size` is the length of `S`, `get_extra_data_size` is the header length
`8 + 5 * k`, `get_out_file_size` is the number of payload bytes written after the header,
and `get_extra_data_size + get_out_file_size` is the total length of the archive. -/
theorem zip_size_counters (be : Bool) (S : List Nat) (hS : ∀ b ∈ S, b < 256)
    (hlen : S.length < 2 ^ 32) :
    (zip be (HuffmanArchiver.new S)).get_in_file_size = S.length ∧
    (zip be (HuffmanArchiver.new S)).get_extra_data_size = 8 + 5 * S.dedup.length ∧
    (zip be (HuffmanArchiver.new S)).get_out_file_size =
      ((zip be (HuffmanArchiver.new S)).out.drop (8 + 5 * S.dedup.length)).length ∧
    (zip be (HuffmanArchiver.new S)).get_extra_data_size +
      (zip be (HuffmanArchiver.new S)).get_out_file_size =
        (zip be (HuffmanArchiver.new S)).out.length := by
  obtain ⟨f1, f2, f3⟩ := zip_fields be S hS hlen
  obtain ⟨bytes, hA, hb⟩ := zip_payload_le be S hS hlen
  have hhl := expected_header_length be S
  have hk := present_symbols_length S hS
  have hk256 := present_symbols_length_le S
  unfold HuffmanArchiver.get_in_file_size HuffmanArchiver.get_extra_data_size
    HuffmanArchiver.get_out_file_size
  rw [f1, f2, f3, hA, List.length_append, hhl, hk, List.length_drop, List.length_append, hhl, hk]
  rw [hk] at hk256
  refine ⟨rfl, ?_, ?_, ?_⟩ <;> omega

theorem zip_size_counters_witness :
    (∀ b ∈ [97, 98, 97], b < 256) ∧ [97, 98, 97].length < 2 ^ 32 ∧
    ((zip false (HuffmanArchiver.new [97, 98, 97])).get_in_file_size = [97, 98, 97].length ∧
    (zip false (HuffmanArchiver.new [97, 98, 97])).get_extra_data_size =
      8 + 5 * [97, 98, 97].dedup.length ∧
    (zip false (HuffmanArchiver.new [97, 98, 97])).get_out_file_size =
      ((zip false (HuffmanArchiver.new [97, 98, 97])).out.drop
        (8 + 5 * [97, 98, 97].dedup.length)).length ∧
    (zip false (HuffmanArchiver.new [97, 98, 97])).get_extra_data_size +
      (zip false (HuffmanArchiver.new [97, 98, 97])).get_out_file_size =
        (zip false (HuffmanArchiver.new [97, 98, 97])).out.length) :=
  ⟨by decide, by decide, zip_size_counters false [97, 98, 97] (by decide) (by decide)⟩

theorem extract_vocabulary_loop_pos (be : Bool) (data : List Nat) (n pos : Nat)
    (v : List Nat) (r : List Nat × Nat)
    (h : extract_vocabulary_loop be data n pos v = some r) :
    r.2 = pos + 5 * n ∧ (pos ≤ data.length → r.2 ≤ data.length) := by
  induction n generalizing pos v with
  | zero =>
    rw [extract_vocabulary_loop] at h
    rw [← Option.some.inj h]
    exact ⟨rfl, fun h => h⟩
  | succ n ih =>
    rw [extract_vocabulary_loop] at h
    cases h1 : read_exact data pos 1 with
    | none => rw [h1] at h; exact Option.noConfusion h
    | some chr =>
      rw [h1] at h
      simp only [] at h
      cases h2 : read_exact data (pos + 1) 4 with
      | none => rw [h2] at h; exact Option.noConfusion h
      | some fr =>
        rw [h2] at h
        simp only [] at h
        have := ih (pos + 5) _ h
        have hb := (read_exact_some data (pos + 1) 4 fr h2).2
        exact ⟨by omega, fun _ => this.2 (by omega)⟩

theorem extract_vocabulary_pos (be : Bool) (data : List Nat) (vocabulary : List Nat)
    (pos : Nat) (h : extract_vocabulary be data 4 = some (vocabulary, pos)) :
    pos = 8 + 5 * u32_of_bytes be ((data.drop 4).take 4) ∧ pos ≤ data.length := by
  unfold extract_vocabulary at h
  cases h1 : read_exact data 4 4 with
  | none => rw [h1] at h; exact Option.noConfusion h
  | some cb =>
    rw [h1] at h
    simp only [] at h
    obtain ⟨e1, e2⟩ := read_exact_some data 4 4 cb h1
    have := extract_vocabulary_loop_pos be data _ _ _ _ h
    simp only [] at this
    rw [← e1]
    exact ⟨by omega, this.2 (by omega)⟩

/-- The counters of a completed `unzip`, on any source: the header and payload sizes are
stored in 32 bits. -/
theorem unzip_counters_mod (be : Bool) (data : List Nat) (a' : HuffmanArchiver)
    (h : unzip be (HuffmanArchiver.new data) = some (.done a')) :
    a'.out_file_size = u32_of_bytes be (data.take 4) ∧
    a'.extra_data_size = (8 + 5 * u32_of_bytes be ((data.drop 4).take 4)) % 2 ^ 32 ∧
    8 + 5 * u32_of_bytes be ((data.drop 4).take 4) ≤ a'.in_pos ∧
    a'.in_pos ≤ data.length ∧
    a'.in_file_size =
      (a'.in_pos - (8 + 5 * u32_of_bytes be ((data.drop 4).take 4))) % 2 ^ 32 := by
  obtain ⟨b, vocabulary, pos, s', h1, h2, h3, h4⟩ := unzip_done_inv be data a' h
  have hb := (read_exact_some data 0 4 b h1).1
  rw [List.drop_zero] at hb
  obtain ⟨hp1, hp2⟩ := extract_vocabulary_pos be data vocabulary pos h2
  unfold decode at h3
  obtain ⟨em, _, _, _, e4, e5⟩ := decode_loop_sound data _ _ _ s' h3 (fun x hx => hx)
  dsimp only at e4 e5
  have e6 := e5 hp2
  rw [h4]
  dsimp only
  rw [← hp1, ← hb]
  refine ⟨rfl, rfl, e4, e6, ?_⟩
  omega

theorem huge_header_count_lt : huge_header_count < 2 ^ 32 := by
  unfold huge_header_count
  decide

theorem huge_r1 (be : Bool) :
    read_exact (huge_header_archive be) 0 4 = some (u32_bytes be 0) := by
  have := read_exact_append [] (u32_bytes be 0)
    (u32_bytes be huge_header_count ++
      (List.replicate huge_header_count ((0 : Nat), (0 : Nat))).flatMap
        fun r => r.1 :: u32_bytes be r.2)
  rw [List.nil_append, List.length_nil, u32_bytes_length, ← List.append_assoc] at this
  exact this

theorem huge_r2 (be : Bool) :
    read_exact (huge_header_archive be) 4 4 = some (u32_bytes be huge_header_count) := by
  have := read_exact_append (u32_bytes be 0) (u32_bytes be huge_header_count)
    ((List.replicate huge_header_count ((0 : Nat), (0 : Nat))).flatMap
      fun r => r.1 :: u32_bytes be r.2)
  rw [u32_bytes_length, u32_bytes_length] at this
  exact this

theorem huge_r3 (be : Bool) :
    extract_vocabulary be (huge_header_archive be) 4 =
      some ((List.replicate huge_header_count ((0 : Nat), (0 : Nat))).foldl
        (fun v r => v.set r.1 r.2) (List.replicate 256 0), 4 + 4 + 5 * huge_header_count) := by
  unfold extract_vocabulary
  rw [huge_r2]
  simp only []
  rw [u32_of_bytes_u32_bytes, Nat.mod_eq_of_lt huge_header_count_lt]
  have := extract_vocabulary_loop_spec be
    (List.replicate huge_header_count ((0 : Nat), (0 : Nat)))
    (u32_bytes be 0 ++ u32_bytes be huge_header_count) [] (List.replicate 256 0)
    (by
      intro r hr
      rw [(List.mem_replicate.1 hr).2]
      exact Nat.two_pow_pos 32)
  rw [List.append_nil, List.length_replicate, List.length_append, u32_bytes_length,
    u32_bytes_length] at this
  exact this

theorem decode_zero (tree : HuffTree) (data : List Nat) (pos : Nat) (out : List Nat) :
    decode tree data 0 pos out =
      some (.done { tree := tree, buffer := [], chr := 0, i := 0, in_pos := pos, out := out }) := by
  unfold decode
  rw [decode_loop_done _ _ _ _ (by dsimp only; omega)]

/-- `unzip` put together from its three steps when none of them throws. -/
theorem unzip_of_steps (be : Bool) (data b vocabulary : List Nat) (pos : Nat) (s' : DecodeState)
    (h1 : read_exact data 0 4 = some b)
    (h2 : extract_vocabulary be data 4 = some (vocabulary, pos))
    (h3 : decode (HuffTree.new vocabulary) data (u32_of_bytes be b) pos [] = some (.done s')) :
    unzip be (HuffmanArchiver.new data) =
      some (.done
        { in_data := data, in_pos := s'.in_pos, out := s'.out,
          in_file_size := (s'.in_pos % 2 ^ 32 + 2 ^ 32 - pos % 2 ^ 32) % 2 ^ 32,
          out_file_size := u32_of_bytes be b, extra_data_size := pos % 2 ^ 32 }) := by
  unfold unzip
  simp only [HuffmanArchiver.new, Nat.zero_add]
  rw [h1]
  simp only []
  rw [h2]
  simp only []
  rw [h3]

theorem unzip_huge_header (be : Bool) :
    ∃ a', unzip be (HuffmanArchiver.new (huge_header_archive be)) = some (.done a') ∧
      a'.extra_data_size = (4 + 4 + 5 * huge_header_count) % 2 ^ 32 := by
  have hz : u32_of_bytes be (u32_bytes be 0) = 0 := by
    rw [u32_of_bytes_u32_bytes, Nat.zero_mod]
  have h3 : decode
      (HuffTree.new ((List.replicate huge_header_count ((0 : Nat), (0 : Nat))).foldl
        (fun v r => v.set r.1 r.2) (List.replicate 256 0)))
      (huge_header_archive be) (u32_of_bytes be (u32_bytes be 0))
      (4 + 4 + 5 * huge_header_count) [] =
      some (.done
        { tree := HuffTree.new ((List.replicate huge_header_count ((0 : Nat), (0 : Nat))).foldl
            (fun v r => v.set r.1 r.2) (List.replicate 256 0)),
          buffer := [], chr := 0, i := 0, in_pos := 4 + 4 + 5 * huge_header_count,
          out := [] }) := by
    rw [hz]
    exact decode_zero _ _ _ _
  exact ⟨_, unzip_of_steps be _ _ _ _ _ (huge_r1 be) (huge_r3 be) h3, rfl⟩

/-- C14 as stated fails: on a source with `858993459` vocabulary entries and original size
0, `unzip` completes, the header read is `8 + 5 * 858993459` bytes long, and
`get_extra_data_size` is 7. -/
theorem unzip_size_counters_counterexample :
    ∃ a', unzip false (HuffmanArchiver.new (huge_header_archive false)) = some (.done a') ∧
      u32_of_bytes false (((huge_header_archive false).drop 4).take 4) = 858993459 ∧
      a'.get_extra_data_size = 7 ∧
      a'.get_extra_data_size ≠
        8 + 5 * u32_of_bytes false (((huge_header_archive false).drop 4).take 4) := by
  have hc : u32_of_bytes false (((huge_header_archive false).drop 4).take 4) = 858993459 := by
    have e : ((huge_header_archive false).drop 4).take 4 = u32_bytes false huge_header_count :=
      ((read_exact_some _ 4 4 _ (huge_r2 false)).1).symm
    rw [e, u32_of_bytes_u32_bytes, Nat.mod_eq_of_lt huge_header_count_lt]
    rfl
  have h7 : (4 + 4 + 5 * huge_header_count) % 2 ^ 32 = 7 := by
    unfold huge_header_count
    norm_num
  obtain ⟨a', h1, h2⟩ := unzip_huge_header false
  refine ⟨a', h1, hc, ?_, ?_⟩
  · unfold HuffmanArchiver.get_extra_data_size
    rw [h2, h7]
  · unfold HuffmanArchiver.get_extra_data_size
    rw [h2, h7, hc]
    norm_num

/-- C14, amended: after a successful `unzip`, `get_out_file_size` is the original size read
from the header, and `get_extra_data_size` and `get_in_file_size` are the header length
`8 + 5 * (vocabulary entry count)` and the number of payload bytes consumed, both modulo
`2 ^ 32`, hence exactly these numbers when the source is shorter than `2 ^ 32` bytes; for
every archive produced by `zip` from an input of fewer than `2 ^ 32` bytes the three
counters equal the in-size, header-size and payload-size counters of `zip`, and `unzip`
stops exactly at the end of the archive. -/
theorem unzip_size_counters (be : Bool) :
    (∀ (data : List Nat) (a' : HuffmanArchiver),
      unzip be (HuffmanArchiver.new data) = some (.done a') →
      a'.get_out_file_size = u32_of_bytes be (data.take 4) ∧
      a'.get_extra_data_size = (8 + 5 * u32_of_bytes be ((data.drop 4).take 4)) % 2 ^ 32 ∧
      8 + 5 * u32_of_bytes be ((data.drop 4).take 4) ≤ a'.in_pos ∧
      a'.in_pos ≤ data.length ∧
      a'.get_in_file_size =
        (a'.in_pos - (8 + 5 * u32_of_bytes be ((data.drop 4).take 4))) % 2 ^ 32 ∧
      (data.length < 2 ^ 32 →
        a'.get_extra_data_size = 8 + 5 * u32_of_bytes be ((data.drop 4).take 4) ∧
        a'.get_in_file_size =
          a'.in_pos - (8 + 5 * u32_of_bytes be ((data.drop 4).take 4)))) ∧
    (∀ (S : List Nat), (∀ b ∈ S, b < 256) → S.length < 2 ^ 32 →
      ∃ a', unzip be (HuffmanArchiver.new (zip be (HuffmanArchiver.new S)).out)
          = some (.done a') ∧
        a'.get_out_file_size = (zip be (HuffmanArchiver.new S)).get_in_file_size ∧
        a'.get_extra_data_size = (zip be (HuffmanArchiver.new S)).get_extra_data_size ∧
        a'.get_in_file_size = (zip be (HuffmanArchiver.new S)).get_out_file_size ∧
        a'.in_pos = (zip be (HuffmanArchiver.new S)).out.length) := by
  constructor
  · intro data a' h
    obtain ⟨c1, c2, c3, c4, c5⟩ := unzip_counters_mod be data a' h
    unfold HuffmanArchiver.get_out_file_size HuffmanArchiver.get_extra_data_size
      HuffmanArchiver.get_in_file_size
    refine ⟨c1, c2, c3, c4, c5, fun hs => ?_⟩
    rw [c2, c5]
    constructor
    · exact Nat.mod_eq_of_lt (by omega)
    · exact Nat.mod_eq_of_lt (by omega)
  · intro S hS hlen
    obtain ⟨a', h1, _, h3, h4, h5, h6⟩ := unzip_zip_state be S hS hlen
    obtain ⟨f1, f2, f3⟩ := zip_fields be S hS hlen
    have hhl := expected_header_length be S
    have hk := present_symbols_length_le S
    have hmod : (expected_header be S).length % 2 ^ 32 = 8 + 5 * (present_symbols S).length := by
      rw [hhl]
      exact Nat.mod_eq_of_lt (by omega)
    unfold HuffmanArchiver.get_out_file_size HuffmanArchiver.get_extra_data_size
      HuffmanArchiver.get_in_file_size
    refine ⟨a', h1, ?_, ?_, ?_, h6⟩
    · rw [h3, f1]
    · rw [h4, f2, hmod]
    · rw [h5, f3, h6, h4, hmod]

set_option maxRecDepth 100000 in
theorem unzip_size_counters_witness :
    (unzip false (HuffmanArchiver.new [3, 0, 0, 0, 2, 0, 0, 0, 97, 2, 0, 0, 0, 98, 1, 0, 0, 0, 2]) =
      some (.done
        (HuffmanArchiver.mk [3, 0, 0, 0, 2, 0, 0, 0, 97, 2, 0, 0, 0, 98, 1, 0, 0, 0, 2]
          19 [97, 98, 97] 1 3 18)) ∧
      ([3, 0, 0, 0, 2, 0, 0, 0, 97, 2, 0, 0, 0, 98, 1, 0, 0, 0, 2] : List Nat).length < 2 ^ 32 ∧
      ((HuffmanArchiver.mk [3, 0, 0, 0, 2, 0, 0, 0, 97, 2, 0, 0, 0, 98, 1, 0, 0, 0, 2]
          19 [97, 98, 97] 1 3 18).get_extra_data_size =
          8 + 5 * u32_of_bytes false ((([3, 0, 0, 0, 2, 0, 0, 0, 97, 2, 0, 0, 0, 98, 1, 0, 0, 0, 2] : List Nat).drop 4).take 4) ∧
        (HuffmanArchiver.mk [3, 0, 0, 0, 2, 0, 0, 0, 97, 2, 0, 0, 0, 98, 1, 0, 0, 0, 2]
          19 [97, 98, 97] 1 3 18).get_in_file_size =
          (HuffmanArchiver.mk [3, 0, 0, 0, 2, 0, 0, 0, 97, 2, 0, 0, 0, 98, 1, 0, 0, 0, 2]
          19 [97, 98, 97] 1 3 18).in_pos -
            (8 + 5 * u32_of_bytes false ((([3, 0, 0, 0, 2, 0, 0, 0, 97, 2, 0, 0, 0, 98, 1, 0, 0, 0, 2] : List Nat).drop 4).take 4)))) ∧
    ((∀ b ∈ [97, 98, 97], b < 256) ∧ [97, 98, 97].length < 2 ^ 32 ∧
      ∃ a', unzip false (HuffmanArchiver.new (zip false (HuffmanArchiver.new [97, 98, 97])).out)
          = some (.done a') ∧
        a'.get_out_file_size = (zip false (HuffmanArchiver.new [97, 98, 97])).get_in_file_size ∧
        a'.get_extra_data_size =
          (zip false (HuffmanArchiver.new [97, 98, 97])).get_extra_data_size ∧
        a'.get_in_file_size = (zip false (HuffmanArchiver.new [97, 98, 97])).get_out_file_size ∧
        a'.in_pos = (zip false (HuffmanArchiver.new [97, 98, 97])).out.length) :=
  ⟨⟨by decide, by decide,
      ((unzip_size_counters false).1 [3, 0, 0, 0, 2, 0, 0, 0, 97, 2, 0, 0, 0, 98, 1, 0, 0, 0, 2]
        (HuffmanArchiver.mk [3, 0, 0, 0, 2, 0, 0, 0, 97, 2, 0, 0, 0, 98, 1, 0, 0, 0, 2]
          19 [97, 98, 97] 1 3 18) (by decide)).2.2.2.2.2 (by decide)⟩,
    by decide, by decide,
    (unzip_size_counters false).2 [97, 98, 97] (by decide) (by decide)⟩

/-- C21: on the tree built from a frequency table (with two or more non-zero counts, and
equally with just one), for a symbol `s` with a non-zero count and any bits `r`,
`try_extract_code` called with the cursor at the root and the queue `code(s) ++ r` returns
`true` with the symbol `s`, leaves exactly `r` in the queue, so that `length (code(s))`
bits are consumed, and leaves the tree with its cursor back at the root. -/
theorem try_extract_code_inverts (vocabulary : List Nat) (s : Nat) (hs : s < 256)
    (hnz : vocabulary.getD s 0 ≠ 0) (r : List Bool) (chr : Nat) :
    (HuffTree.new vocabulary).cur_node = (HuffTree.new vocabulary).root ∧
    try_extract_code (HuffTree.new vocabulary)
        ((HuffTree.new vocabulary).get_code_by_char s ++ r) chr =
      { ret := some true, tree := HuffTree.new vocabulary, buffer := r, chr := s } ∧
    ((HuffTree.new vocabulary).get_code_by_char s ++ r).length =
      ((HuffTree.new vocabulary).get_code_by_char s).length +
        (try_extract_code (HuffTree.new vocabulary)
          ((HuffTree.new vocabulary).get_code_by_char s ++ r) chr).buffer.length := by
  have hc := code_at_root vocabulary s hs hnz
  have he := try_extract_code_emit (HuffTree.new vocabulary)
    ((HuffTree.new vocabulary).get_code_by_char s) r s chr hc
  have hcur : ({ HuffTree.new vocabulary with cur_node := (HuffTree.new vocabulary).root }
      : HuffTree) = HuffTree.new vocabulary := rfl
  rw [hcur] at he
  refine ⟨rfl, he, ?_⟩
  rw [he, List.length_append]

set_option maxRecDepth 100000 in
theorem try_extract_code_inverts_witness :
    2 ≤ (nonzero_symbols (List.replicate 97 0 ++ [100, 200, 300] ++
      List.replicate 156 0)).length ∧ 98 < 256 ∧
    (List.replicate 97 0 ++ [100, 200, 300] ++ List.replicate 156 0).getD 98 0 ≠ 0 ∧
    try_extract_code (HuffTree.new (List.replicate 97 0 ++ [100, 200, 300] ++
          List.replicate 156 0))
        ((HuffTree.new (List.replicate 97 0 ++ [100, 200, 300] ++
          List.replicate 156 0)).get_code_by_char 98 ++ [true, false]) 0 =
      { ret := some true,
        tree := HuffTree.new (List.replicate 97 0 ++ [100, 200, 300] ++ List.replicate 156 0),
        buffer := [true, false], chr := 98 } :=
  ⟨by decide, by decide, by decide,
    (try_extract_code_inverts _ 98 (by decide) (by decide) [true, false] 0).2.1⟩

theorem subtrees_self (t : TreeNode) (h : t ≠ nullptr) : t ∈ subtrees t := by
  cases t with
  | nullptr => exact absurd rfl h
  | mk f leaf v l r => simp [subtrees]

theorem subtrees_ne_nullptr (t n : TreeNode) (h : n ∈ subtrees t) : n ≠ nullptr := by
  induction t with
  | nullptr => simp [subtrees] at h
  | mk f leaf v l r ihl ihr =>
    simp only [subtrees, List.mem_cons, List.mem_append] at h
    rcases h with h | h | h
    · rw [h]; exact fun h => TreeNode.noConfusion h
    · exact ihl h
    · exact ihr h

theorem subtrees_trans (t m n : TreeNode) (h1 : m ∈ subtrees t) (h2 : n ∈ subtrees m) :
    n ∈ subtrees t := by
  induction t with
  | nullptr => simp [subtrees] at h1
  | mk f leaf v l r ihl ihr =>
    simp only [subtrees, List.mem_cons, List.mem_append] at h1
    rcases h1 with h | h | h
    · rw [h] at h2; exact h2
    · simp only [subtrees, List.mem_cons, List.mem_append]
      exact Or.inr (Or.inl (ihl h))
    · simp only [subtrees, List.mem_cons, List.mem_append]
      exact Or.inr (Or.inr (ihr h))

/-- The forest invariant behind the node shape: every tree of the working list is non-null
and each of its nodes has the local shape `node_ok`. -/
theorem build_loop_nodes (vocabulary : List Nat) (fuel : Nat) :
    (∀ t ∈ build_loop fuel (init_nodes vocabulary), t ≠ nullptr) ∧
    ∀ t ∈ build_loop fuel (init_nodes vocabulary), ∀ n ∈ subtrees t, node_ok vocabulary n := by
  apply build_loop_induction
    (fun nodes => (∀ t ∈ nodes, t ≠ nullptr) ∧
      ∀ t ∈ nodes, ∀ n ∈ subtrees t, node_ok vocabulary n)
  · intro nodes h2 ⟨hnn, hok⟩
    obtain ⟨l, r, rest, hp, he, hl, hr⟩ := build_step_spec nodes h2
    have hlm : l ∈ nodes := hp.symm.subset (by simp)
    have hrm : r ∈ nodes := hp.symm.subset (by simp)
    have hrest : ∀ x ∈ rest, x ∈ nodes := fun x hx => hp.symm.subset (by simp [hx])
    rw [he]
    constructor
    · intro t ht
      rcases List.mem_append.1 ht with h | h
      · exact hnn t (hrest t h)
      · rw [List.mem_singleton.1 h]; exact fun h => TreeNode.noConfusion h
    · intro t ht n hn
      rcases List.mem_append.1 ht with h | h
      · exact hok t (hrest t h) n hn
      · rw [List.mem_singleton.1 h] at hn
        simp only [subtrees, List.mem_cons, List.mem_append] at hn
        rcases hn with hn | hn | hn
        · rw [hn]
          refine ⟨fun _ => ⟨hnn l hlm, hnn r hrm, rfl, hl r hrm⟩, fun h => ?_⟩
          exact absurd h (by simp [is_leaf])
        · exact hok l hlm n hn
        · exact hok r hrm n hn
  · rw [init_nodes_eq]
    constructor
    · intro t ht
      obtain ⟨i, _, hi⟩ := List.mem_map.1 ht
      rw [← hi]; exact fun h => TreeNode.noConfusion h
    · intro t ht n hn
      obtain ⟨i, him, hi⟩ := List.mem_map.1 ht
      rw [← hi] at hn
      simp only [subtrees, List.append_nil, List.mem_singleton] at hn
      have hi2 := (mem_nonzero_symbols vocabulary i).1 him
      rw [hn]
      refine ⟨fun h => absurd h (by simp [is_leaf]), fun _ => ⟨rfl, rfl, hi2.1, hi2.2, rfl⟩⟩

theorem build_tree_nodes (vocabulary : List Nat) :
    ∀ n ∈ subtrees (build_tree vocabulary), node_ok vocabulary n := by
  have hc := (build_loop_nodes vocabulary (init_nodes vocabulary).length).2
  unfold build_tree
  simp only []
  generalize build_loop (init_nodes vocabulary).length (init_nodes vocabulary) = final at hc
  match final with
  | [] => intro n hn; simp [subtrees] at hn
  | t :: _ => exact hc t (by simp)

/-- When leaves have no children, the leaf nodes of a tree are those the code traversal
reaches, in the same order. -/
theorem leaf_nodes_values (t : TreeNode)
    (h : ∀ n ∈ subtrees t, n.is_leaf = true →
      n.get_left_child = nullptr ∧ n.get_right_child = nullptr) :
    ((subtrees t).filter fun n => n.is_leaf).map get_value = (leaf_paths t).map Prod.snd := by
  induction t with
  | nullptr => rfl
  | mk f leaf v l r ihl ihr =>
    have hl : ∀ n ∈ subtrees l, n.is_leaf = true →
        n.get_left_child = nullptr ∧ n.get_right_child = nullptr := fun n hn =>
      h n (by simp [subtrees, hn])
    have hr : ∀ n ∈ subtrees r, n.is_leaf = true →
        n.get_left_child = nullptr ∧ n.get_right_child = nullptr := fun n hn =>
      h n (by simp [subtrees, hn])
    cases leaf with
    | true =>
      have h0 := h (mk f true v l r) (by simp [subtrees]) rfl
      simp only [get_left_child, get_right_child] at h0
      rw [h0.1, h0.2]
      simp [subtrees, leaf_paths, is_leaf, get_value]
    | false =>
      have e : (mk f false v l r).is_leaf = false := rfl
      simp only [subtrees, leaf_paths, List.filter_cons, e, Bool.false_eq_true, if_false,
        List.filter_append, List.map_append, List.map_map]
      rw [ihl hl, ihr hr]
      rfl

/-- C27: in the tree returned by `build_tree`, every internal node has two non-null
children and a frequency equal to the sum of its children's frequencies modulo `2 ^ 32`;
every leaf has no children and carries a symbol whose table count is non-zero, together
with exactly that count; and no two leaves carry the same symbol. -/
theorem build_tree_node_invariant (vocabulary : List Nat) :
    (∀ n ∈ subtrees (build_tree vocabulary),
      (n.is_leaf = false →
        n.get_left_child ≠ nullptr ∧ n.get_right_child ≠ nullptr ∧
        n.get_frequency =
          (n.get_left_child.get_frequency + n.get_right_child.get_frequency) % 2 ^ 32) ∧
      (n.is_leaf = true →
        n.get_left_child = nullptr ∧ n.get_right_child = nullptr ∧ n.get_value < 256 ∧
        vocabulary.getD n.get_value 0 ≠ 0 ∧
        n.get_frequency = vocabulary.getD n.get_value 0)) ∧
    (((subtrees (build_tree vocabulary)).filter fun n => n.is_leaf).map get_value).Nodup := by
  have hok := build_tree_nodes vocabulary
  constructor
  · intro n hn
    obtain ⟨h1, h2⟩ := hok n hn
    exact ⟨fun h => ⟨(h1 h).1, (h1 h).2.1, (h1 h).2.2.1⟩, h2⟩
  · rw [leaf_nodes_values _ (fun n hn h => ⟨((hok n hn).2 h).1, ((hok n hn).2 h).2.1⟩)]
    exact build_tree_leaves_nodup vocabulary

set_option maxRecDepth 100000 in
theorem build_tree_node_invariant_witness :
    build_tree (List.replicate 97 0 ++ [100, 200, 300] ++ List.replicate 156 0) =
      mk 600 false 0 (mk 300 true 99 nullptr nullptr)
        (mk 300 false 0 (mk 100 true 97 nullptr nullptr) (mk 200 true 98 nullptr nullptr)) ∧
    (mk 300 false 0 (mk 100 true 97 nullptr nullptr) (mk 200 true 98 nullptr nullptr)) ∈
      subtrees (build_tree (List.replicate 97 0 ++ [100, 200, 300] ++ List.replicate 156 0)) ∧
    (mk 300 false 0 (mk 100 true 97 nullptr nullptr)
      (mk 200 true 98 nullptr nullptr)).get_frequency = (100 + 200) % 2 ^ 32 :=
  ⟨by decide, by decide,
    (((build_tree_node_invariant
      (List.replicate 97 0 ++ [100, 200, 300] ++ List.replicate 156 0)).1
      (mk 300 false 0 (mk 100 true 97 nullptr nullptr) (mk 200 true 98 nullptr nullptr))
      (by decide)).1 rfl).2.2⟩

/-- C29: in the tree returned by `build_tree`, at every internal node the left child's
frequency is at most the right child's; for the loop step that makes the node takes as left
child the first minimum of the working list and as right child the first minimum of what
is left. -/
theorem build_tree_child_order (vocabulary : List Nat) :
    (∀ n ∈ subtrees (build_tree vocabulary), n.is_leaf = false →
      n.get_left_child.get_frequency ≤ n.get_right_child.get_frequency) ∧
    (∀ nodes : List TreeNode, 2 ≤ nodes.length →
      build_step nodes =
        (nodes.eraseIdx (find_min nodes)).eraseIdx (find_min (nodes.eraseIdx (find_min nodes)))
          ++ [mk (((nodes.getD (find_min nodes) nullptr).get_frequency +
              ((nodes.eraseIdx (find_min nodes)).getD
                (find_min (nodes.eraseIdx (find_min nodes))) nullptr).get_frequency) % 2 ^ 32)
            false 0 (nodes.getD (find_min nodes) nullptr)
            ((nodes.eraseIdx (find_min nodes)).getD
              (find_min (nodes.eraseIdx (find_min nodes))) nullptr)] ∧
      (nodes.getD (find_min nodes) nullptr).get_frequency ≤
        ((nodes.eraseIdx (find_min nodes)).getD
          (find_min (nodes.eraseIdx (find_min nodes))) nullptr).get_frequency) := by
  constructor
  · intro n hn h
    exact ((build_tree_nodes vocabulary n hn).1 h).2.2.2
  · intro nodes h2
    refine ⟨rfl, ?_⟩
    apply find_min_le_of_mem
    have hne : nodes ≠ [] := by intro h; rw [h] at h2; simp at h2
    have hi := find_min_lt nodes hne
    have hlen : (nodes.eraseIdx (find_min nodes)).length = nodes.length - 1 :=
      List.length_eraseIdx_of_lt hi
    have hne1 : nodes.eraseIdx (find_min nodes) ≠ [] := by
      intro h; rw [h] at hlen; simp at hlen; omega
    have hj := find_min_lt _ hne1
    rw [List.getD_eq_getElem _ _ hj]
    exact List.mem_of_mem_eraseIdx (List.getElem_mem hj)

set_option maxRecDepth 100000 in
theorem build_tree_child_order_witness :
    (mk 600 false 0 (mk 300 true 99 nullptr nullptr)
      (mk 300 false 0 (mk 100 true 97 nullptr nullptr) (mk 200 true 98 nullptr nullptr))) ∈
      subtrees (build_tree (List.replicate 97 0 ++ [100, 200, 300] ++ List.replicate 156 0)) ∧
    (mk 300 true 99 nullptr nullptr).get_frequency ≤
      (mk 300 false 0 (mk 100 true 97 nullptr nullptr)
        (mk 200 true 98 nullptr nullptr)).get_frequency :=
  ⟨by decide,
    (build_tree_child_order
      (List.replicate 97 0 ++ [100, 200, 300] ++ List.replicate 156 0)).1
      (mk 600 false 0 (mk 300 true 99 nullptr nullptr)
        (mk 300 false 0 (mk 100 true 97 nullptr nullptr) (mk 200 true 98 nullptr nullptr)))
      (by decide) rfl⟩

theorem leaf_weight_leaf (vocabulary : List Nat) (f v : Nat) (l r : TreeNode) :
    leaf_weight vocabulary (mk f true v l r) = vocabulary.getD v 0 := by
  simp [leaf_weight, leaf_paths]

/-- In a tree whose nodes have the shape `node_ok`, the frequency stored in a node is the
sum of the table counts of the leaves below it, as a `uint32_t`. -/
theorem frequency_eq_leaf_weight (vocabulary : List Nat)
    (hlt : ∀ i, vocabulary.getD i 0 < 2 ^ 32) (t : TreeNode)
    (h : ∀ n ∈ subtrees t, node_ok vocabulary n) :
    t.get_frequency = leaf_weight vocabulary t % 2 ^ 32 := by
  induction t with
  | nullptr => rfl
  | mk f leaf v l r ihl ihr =>
    have hl := ihl (fun n hn => h n (by simp [subtrees, hn]))
    have hr := ihr (fun n hn => h n (by simp [subtrees, hn]))
    have h0 := h (mk f leaf v l r) (by simp [subtrees])
    cases leaf with
    | true =>
      have h1 := (h0.2 rfl).2.2.2.2
      simp only [get_frequency, get_value] at h1
      rw [leaf_weight_leaf, get_frequency_mk, h1, Nat.mod_eq_of_lt (hlt v)]
    | false =>
      have h1 := (h0.1 rfl).2.2.1
      simp only [get_left_child, get_right_child] at h1
      rw [h1, leaf_weight_node, hl, hr, ← Nat.add_mod]

theorem sum_nonzero_symbols (vocabulary : List Nat) :
    ((nonzero_symbols vocabulary).map fun s => vocabulary.getD s 0).sum =
      ((List.range 256).map fun s => vocabulary.getD s 0).sum := by
  unfold nonzero_symbols
  apply sum_map_filter_of_zero
  intro b _ hb
  simpa using hb

theorem leaf_weight_build_tree (vocabulary : List Nat) :
    leaf_weight vocabulary (build_tree vocabulary) =
      ((List.range 256).map fun s => vocabulary.getD s 0).sum := by
  rw [← sum_nonzero_symbols]
  have hp := build_tree_leaves vocabulary
  have := (hp.map fun s => vocabulary.getD s 0).sum_eq
  rw [List.map_map] at this
  exact this

theorem build_tree_frequency (vocabulary : List Nat) (hlt : ∀ i, vocabulary.getD i 0 < 2 ^ 32) :
    (build_tree vocabulary).get_frequency =
      ((List.range 256).map fun s => vocabulary.getD s 0).sum % 2 ^ 32 := by
  rw [frequency_eq_leaf_weight vocabulary hlt _ (build_tree_nodes vocabulary),
    leaf_weight_build_tree]

theorem build_tree_children (vocabulary : List Nat)
    (h2 : 2 ≤ (nonzero_symbols vocabulary).length) :
    (build_tree vocabulary).get_left_child ≠ nullptr ∧
      (build_tree vocabulary).get_right_child ≠ nullptr := by
  have hne := ((build_tree_counts vocabulary).2 (by omega)).1
  have hok := build_tree_nodes vocabulary _ (subtrees_self _ hne)
  have h := hok.1 (build_tree_not_leaf vocabulary h2)
  exact ⟨h.1, h.2.1⟩

/-- C25: for a frequency table (256 counts, each a `uint32_t`) with at least one non-zero
count, the root returned by `build_tree` exists and its frequency is the sum of all table
counts modulo `2 ^ 32`, which is the sum itself when that is below `2 ^ 32`; with at least
two non-zero counts the root has both a left and a right child. -/
theorem build_tree_root_frequency (vocabulary : List Nat) (hlen : vocabulary.length = 256)
    (hlt : ∀ x ∈ vocabulary, x < 2 ^ 32) (h1 : 1 ≤ (nonzero_symbols vocabulary).length) :
    build_tree vocabulary ≠ nullptr ∧
    (build_tree vocabulary).get_frequency = vocabulary.sum % 2 ^ 32 ∧
    (vocabulary.sum < 2 ^ 32 → (build_tree vocabulary).get_frequency = vocabulary.sum) ∧
    (2 ≤ (nonzero_symbols vocabulary).length →
      (build_tree vocabulary).get_left_child ≠ nullptr ∧
      (build_tree vocabulary).get_right_child ≠ nullptr) := by
  have hlt2 : ∀ i, vocabulary.getD i 0 < 2 ^ 32 := by
    intro i
    by_cases hi : i < vocabulary.length
    · rw [List.getD_eq_getElem _ _ hi]; exact hlt _ (List.getElem_mem hi)
    · rw [List.getD_eq_default _ _ (by omega)]; exact Nat.two_pow_pos 32
  have hf := build_tree_frequency vocabulary hlt2
  rw [← hlen, ← sum_eq_sum_getD] at hf
  refine ⟨((build_tree_counts vocabulary).2 h1).1, hf, fun h => ?_,
    build_tree_children vocabulary⟩
  rw [hf, Nat.mod_eq_of_lt h]

set_option maxRecDepth 100000 in
theorem build_tree_root_frequency_witness :
    (List.replicate 97 0 ++ [100, 200, 300] ++ List.replicate 156 0).length = 256 ∧
    (∀ x ∈ List.replicate 97 0 ++ [100, 200, 300] ++ List.replicate 156 0, x < 2 ^ 32) ∧
    1 ≤ (nonzero_symbols
      (List.replicate 97 0 ++ [100, 200, 300] ++ List.replicate 156 0)).length ∧
    (build_tree (List.replicate 97 0 ++ [100, 200, 300] ++
      List.replicate 156 0)).get_frequency = 600 :=
  ⟨by decide, by decide, by decide,
    (build_tree_root_frequency (List.replicate 97 0 ++ [100, 200, 300] ++ List.replicate 156 0)
      (by decide) (by decide) (by decide)).2.2.1 (by decide)⟩

/-- A leaf lies no deeper than the number of internal nodes of the tree. -/
theorem leaf_path_length_le (t : TreeNode) (p : List Bool) (v : Nat)
    (h : (p, v) ∈ leaf_paths t) : p.length ≤ count_internal t := by
  induction t generalizing p with
  | nullptr => simp [leaf_paths] at h
  | mk f leaf w l r ihl ihr =>
    cases leaf with
    | true =>
      simp only [leaf_paths, List.mem_singleton, Prod.mk.injEq] at h
      rw [h.1]; exact Nat.zero_le _
    | false =>
      simp only [leaf_paths, List.mem_append, List.mem_map] at h
      rcases h with ⟨x, hx, he⟩ | ⟨x, hx, he⟩
      · have := ihl x.1 (by rw [← (Prod.mk.inj he).2]; exact hx)
        rw [← (Prod.mk.inj he).1]
        simp only [List.length_cons, count_internal, Bool.false_eq_true, if_false]
        omega
      · have := ihr x.1 (by rw [← (Prod.mk.inj he).2]; exact hx)
        rw [← (Prod.mk.inj he).1]
        simp only [List.length_cons, count_internal, Bool.false_eq_true, if_false]
        omega

theorem nonzero_symbols_length_le (vocabulary : List Nat) :
    (nonzero_symbols vocabulary).length ≤ 256 := by
  unfold nonzero_symbols
  exact (List.length_filter_le _ _).trans (by rw [List.length_range])

/-- A symbol without a count in the table has the empty code. -/
theorem code_of_absent (vocabulary : List Nat) (b : Nat)
    (hb : ¬ (b < 256 ∧ vocabulary.getD b 0 ≠ 0)) :
    (HuffTree.new vocabulary).get_code_by_char b = [] := by
  have hnm : b ∉ (leaf_paths (build_tree vocabulary)).map Prod.snd := by
    intro h
    exact hb ((mem_nonzero_symbols vocabulary b).1 ((build_tree_leaves vocabulary).subset h))
  unfold HuffTree.new HuffTree.get_code_by_char
  simp only []
  cases hleaf : (build_tree vocabulary).is_leaf with
  | false =>
    rw [get_codes_of_not_leaf _ hleaf, foldl_set_getD_of_not_mem _ _ _ _ hnm,
      getD_replicate_nil]
  | true =>
    match hbt : build_tree vocabulary with
    | nullptr => rw [hbt] at hleaf; simp [is_leaf] at hleaf
    | mk f leaf v l r =>
      rw [hbt] at hleaf hnm
      simp only [is_leaf] at hleaf
      subst hleaf
      simp only [leaf_paths, List.map_cons, List.map_nil, List.mem_singleton] at hnm
      rw [get_codes_of_leaf, getD_set_eq, if_neg (fun h => hnm h.1.symm), getD_replicate_nil]

/-- C30: for a frequency table with `k ≥ 2` non-zero counts, the code of every symbol with
a non-zero count has at least 1 and at most `k - 1` bits, no entry of the codebook is
longer than `k - 1` bits, and `k - 1` is at most 255. -/
theorem code_length_bound (vocabulary : List Nat)
    (h2 : 2 ≤ (nonzero_symbols vocabulary).length) :
    (∀ s, s < 256 → vocabulary.getD s 0 ≠ 0 →
      1 ≤ ((HuffTree.new vocabulary).get_code_by_char s).length ∧
      ((HuffTree.new vocabulary).get_code_by_char s).length
        ≤ (nonzero_symbols vocabulary).length - 1) ∧
    (∀ b, ((HuffTree.new vocabulary).get_code_by_char b).length
      ≤ (nonzero_symbols vocabulary).length - 1) ∧
    (nonzero_symbols vocabulary).length - 1 ≤ 255 := by
  have hci := ((build_tree_counts vocabulary).2 (by omega)).2.2
  have hpresent : ∀ s, s < 256 → vocabulary.getD s 0 ≠ 0 →
      1 ≤ ((HuffTree.new vocabulary).get_code_by_char s).length ∧
      ((HuffTree.new vocabulary).get_code_by_char s).length
        ≤ (nonzero_symbols vocabulary).length - 1 := by
    intro s hs hnz
    have hm := code_mem_leaf_paths vocabulary h2 s hs hnz
    have hne := path_ne_nil_of_not_leaf _ _ _ (build_tree_not_leaf vocabulary h2) hm
    have hle := leaf_path_length_le _ _ _ hm
    rw [hci] at hle
    exact ⟨List.length_pos.2 hne, hle⟩
  refine ⟨hpresent, fun b => ?_, ?_⟩
  · by_cases hb : b < 256 ∧ vocabulary.getD b 0 ≠ 0
    · exact (hpresent b hb.1 hb.2).2
    · rw [code_of_absent vocabulary b hb]; exact Nat.zero_le _
  · have := nonzero_symbols_length_le vocabulary
    omega

set_option maxRecDepth 100000 in
theorem code_length_bound_witness :
    2 ≤ (nonzero_symbols (List.replicate 97 0 ++ [100, 200, 300] ++
      List.replicate 156 0)).length ∧
    (HuffTree.new (List.replicate 97 0 ++ [100, 200, 300] ++
      List.replicate 156 0)).get_code_by_char 97 = [false, true] ∧
    ((HuffTree.new (List.replicate 97 0 ++ [100, 200, 300] ++
      List.replicate 156 0)).get_code_by_char 97).length
        ≤ (nonzero_symbols (List.replicate 97 0 ++ [100, 200, 300] ++
          List.replicate 156 0)).length - 1 :=
  ⟨by decide, by decide,
    ((code_length_bound (List.replicate 97 0 ++ [100, 200, 300] ++ List.replicate 156 0)
      (by decide)).1 97 (by decide) (by decide)).2⟩

theorem follow_nullptr (p : List Bool) : follow nullptr p = nullptr := by
  induction p with
  | nil => rfl
  | cons b p ih => cases b <;> simpa [follow, get_left_child, get_right_child] using ih

/-- A path listed by `leaf_paths` leads, edge by edge, through internal nodes to a leaf
carrying the listed symbol. -/
theorem follow_leaf_path (t : TreeNode) (p : List Bool) (v : Nat)
    (h : (p, v) ∈ leaf_paths t) :
    follow t p ≠ nullptr ∧ (follow t p).is_leaf = true ∧ (follow t p).get_value = v ∧
      ∀ q, q <+: p → q ≠ p → (follow t q).is_leaf = false := by
  induction t generalizing p with
  | nullptr => simp [leaf_paths] at h
  | mk f leaf w l r ihl ihr =>
    cases leaf with
    | true =>
      simp only [leaf_paths, List.mem_singleton, Prod.mk.injEq] at h
      rw [h.1, ← h.2]
      refine ⟨fun h => TreeNode.noConfusion h, rfl, rfl, ?_⟩
      intro q hq hne
      exact absurd (List.prefix_nil.1 hq) hne
    | false =>
      simp only [leaf_paths, List.mem_append, List.mem_map] at h
      rcases h with ⟨x, hx, he⟩ | ⟨x, hx, he⟩
      · obtain ⟨a1, a2, a3, a4⟩ := ihl x.1 (by rw [← (Prod.mk.inj he).2]; exact hx)
        rw [← (Prod.mk.inj he).1]
        refine ⟨a1, a2, a3, ?_⟩
        intro q hq hne
        cases q with
        | nil => rfl
        | cons c q =>
          obtain ⟨hc, hq2⟩ := List.cons_prefix_cons.1 hq
          subst hc
          exact a4 q hq2 (fun h => hne (by rw [h]))
      · obtain ⟨a1, a2, a3, a4⟩ := ihr x.1 (by rw [← (Prod.mk.inj he).2]; exact hx)
        rw [← (Prod.mk.inj he).1]
        refine ⟨a1, a2, a3, ?_⟩
        intro q hq hne
        cases q with
        | nil => rfl
        | cons c q =>
          obtain ⟨hc, hq2⟩ := List.cons_prefix_cons.1 hq
          subst hc
          exact a4 q hq2 (fun h => hne (by rw [h]))

/-- In a tree whose leaves have no children, a sequence of edges that ends on a leaf is
one of the paths listed by `leaf_paths`. -/
theorem leaf_path_of_follow (t : TreeNode) (p : List Bool)
    (h : ∀ n ∈ subtrees t, n.is_leaf = true →
      n.get_left_child = nullptr ∧ n.get_right_child = nullptr)
    (hne : follow t p ≠ nullptr) (hleaf : (follow t p).is_leaf = true) :
    (p, (follow t p).get_value) ∈ leaf_paths t := by
  induction p generalizing t with
  | nil =>
    cases t with
    | nullptr => exact absurd rfl hne
    | mk f leaf w l r =>
      simp only [follow, is_leaf] at hleaf
      subst hleaf
      simp [follow, leaf_paths, get_value]
  | cons b p ih =>
    cases t with
    | nullptr => exact absurd (follow_nullptr _) hne
    | mk f leaf w l r =>
      cases leaf with
      | true =>
        have h0 := h (mk f true w l r) (by simp [subtrees]) rfl
        simp only [get_left_child, get_right_child] at h0
        exfalso
        apply hne
        cases b
        · simp only [follow, get_right_child, Bool.false_eq_true, if_false]
          rw [h0.2]; exact follow_nullptr _
        · simp only [follow, get_left_child, if_true]
          rw [h0.1]; exact follow_nullptr _
      | false =>
        cases b with
        | true =>
          have hl : ∀ n ∈ subtrees l, n.is_leaf = true →
              n.get_left_child = nullptr ∧ n.get_right_child = nullptr := fun n hn =>
            h n (by simp [subtrees, hn])
          have := ih l hl hne hleaf
          simp only [leaf_paths, List.mem_append, List.mem_map]
          exact Or.inl ⟨_, this, rfl⟩
        | false =>
          have hr : ∀ n ∈ subtrees r, n.is_leaf = true →
              n.get_left_child = nullptr ∧ n.get_right_child = nullptr := fun n hn =>
            h n (by simp [subtrees, hn])
          have := ih r hr hne hleaf
          simp only [leaf_paths, List.mem_append, List.mem_map]
          exact Or.inr ⟨_, this, rfl⟩

theorem eq_of_nodup_map_snd (L : List (List Bool × Nat)) (hnd : (L.map Prod.snd).Nodup)
    (p c : List Bool) (s : Nat) (hp : (p, s) ∈ L) (hc : (c, s) ∈ L) : p = c := by
  have := List.inj_on_of_nodup_map hnd hp hc rfl
  exact (Prod.mk.inj this).1

theorem code_ne_nil_iff (vocabulary : List Nat) (b : Nat) :
    (HuffTree.new vocabulary).get_code_by_char b ≠ [] ↔ b < 256 ∧ vocabulary.getD b 0 ≠ 0 := by
  constructor
  · intro h
    by_contra hb
    exact h (code_of_absent vocabulary b hb)
  · intro h
    exact CodeAt_ne_nil _ _ _ _ (code_at_root vocabulary b h.1 h.2)

/-- C28: for a table with at least two non-zero counts and a symbol `s` with a non-zero
count, following the bits of `code(s)` from the root (1 = left child, 0 = right child)
leads through internal nodes to a leaf that carries `s`, and `code(s)` is the only
sequence of edges from the root that ends on a leaf carrying `s`.  For every table, the
symbols with a non-empty code are exactly the symbols with a non-zero count, so the number
of codes is the number of non-zero counts (none for an all-zero table). -/
theorem codebook_is_leaf_path (vocabulary : List Nat) :
    (2 ≤ (nonzero_symbols vocabulary).length → ∀ s, s < 256 → vocabulary.getD s 0 ≠ 0 →
      follow (build_tree vocabulary) ((HuffTree.new vocabulary).get_code_by_char s) ≠ nullptr ∧
      (follow (build_tree vocabulary)
        ((HuffTree.new vocabulary).get_code_by_char s)).is_leaf = true ∧
      (follow (build_tree vocabulary)
        ((HuffTree.new vocabulary).get_code_by_char s)).get_value = s ∧
      (∀ q, q <+: (HuffTree.new vocabulary).get_code_by_char s →
        q ≠ (HuffTree.new vocabulary).get_code_by_char s →
        (follow (build_tree vocabulary) q).is_leaf = false) ∧
      (∀ p, follow (build_tree vocabulary) p ≠ nullptr →
        (follow (build_tree vocabulary) p).is_leaf = true →
        (follow (build_tree vocabulary) p).get_value = s →
        p = (HuffTree.new vocabulary).get_code_by_char s)) ∧
    (∀ b, (HuffTree.new vocabulary).get_code_by_char b ≠ [] ↔
      b < 256 ∧ vocabulary.getD b 0 ≠ 0) ∧
    ((List.range 256).filter fun b =>
      decide ((HuffTree.new vocabulary).get_code_by_char b ≠ [])).length =
        (nonzero_symbols vocabulary).length ∧
    ((nonzero_symbols vocabulary).length = 0 →
      ∀ b, (HuffTree.new vocabulary).get_code_by_char b = []) := by
  refine ⟨?_, code_ne_nil_iff vocabulary, ?_, ?_⟩
  · intro h2 s hs hnz
    have hm := code_mem_leaf_paths vocabulary h2 s hs hnz
    obtain ⟨a1, a2, a3, a4⟩ := follow_leaf_path _ _ _ hm
    refine ⟨a1, a2, a3, a4, ?_⟩
    intro p hp1 hp2 hp3
    have hok := build_tree_nodes vocabulary
    have hp := leaf_path_of_follow (build_tree vocabulary) p
      (fun n hn h => ⟨((hok n hn).2 h).1, ((hok n hn).2 h).2.1⟩) hp1 hp2
    rw [hp3] at hp
    exact eq_of_nodup_map_snd _ (build_tree_leaves_nodup vocabulary) _ _ s hp hm
  · unfold nonzero_symbols
    congr 1
    apply List.filter_congr
    intro b hb
    have hb2 : b < 256 := List.mem_range.1 hb
    have := code_ne_nil_iff vocabulary b
    by_cases hz : vocabulary.getD b 0 ≠ 0
    · rw [decide_eq_true hz, decide_eq_true (this.2 ⟨hb2, hz⟩)]
    · rw [decide_eq_false hz, decide_eq_false (fun h => hz (this.1 h).2)]
  · intro h0 b
    apply code_of_absent
    intro hb
    have := (mem_nonzero_symbols vocabulary b).2 hb
    rw [List.length_eq_zero.1 h0] at this
    simp at this

set_option maxRecDepth 100000 in
theorem codebook_is_leaf_path_witness :
    2 ≤ (nonzero_symbols (List.replicate 97 0 ++ [100, 200, 300] ++
      List.replicate 156 0)).length ∧
    (HuffTree.new (List.replicate 97 0 ++ [100, 200, 300] ++
      List.replicate 156 0)).get_code_by_char 98 = [false, false] ∧
    (follow (build_tree (List.replicate 97 0 ++ [100, 200, 300] ++ List.replicate 156 0))
      ((HuffTree.new (List.replicate 97 0 ++ [100, 200, 300] ++
        List.replicate 156 0)).get_code_by_char 98)).get_value = 98 :=
  ⟨by decide, by decide,
    ((codebook_is_leaf_path
      (List.replicate 97 0 ++ [100, 200, 300] ++ List.replicate 156 0)).1
      (by decide) 98 (by decide) (by decide)).2.2.1⟩

/-- Walking bits that stay on internal nodes of a tree whose internal nodes have two
children: the loop of `try_extract_code` consumes them all and arrives where the edges
lead, and continues from there on further bits. -/
theorem walk_follow (b1 : List Bool) :
    ∀ (cur : TreeNode),
      (∀ n ∈ subtrees cur, n.is_leaf = false →
        n.get_left_child ≠ nullptr ∧ n.get_right_child ≠ nullptr) →
      cur ≠ nullptr →
      (∀ q, q <+: b1 → (follow cur q).is_leaf = false) →
      follow cur b1 ≠ nullptr ∧ (∀ b2, walk cur (b1 ++ b2) = walk (follow cur b1) b2) := by
  induction b1 with
  | nil => intro cur _ hne _; exact ⟨hne, fun b2 => rfl⟩
  | cons b rest ih =>
    intro cur hch hne hb1
    cases cur with
    | nullptr => exact absurd rfl hne
    | mk f leaf v l r =>
      have hleaf : leaf = false := hb1 [] List.nil_prefix
      subst hleaf
      have h0 := hch (mk f false v l r) (by simp [subtrees]) rfl
      simp only [get_left_child, get_right_child] at h0
      have hchild : (if b = true then l else r) ≠ nullptr := by
        cases b
        · exact h0.2
        · exact h0.1
      have hsub : ∀ n ∈ subtrees (if b = true then l else r), n.is_leaf = false →
          n.get_left_child ≠ nullptr ∧ n.get_right_child ≠ nullptr := by
        intro n hn
        apply hch n
        cases b
        · simp only [Bool.false_eq_true, if_false] at hn; simp [subtrees, hn]
        · simp only [if_true] at hn; simp [subtrees, hn]
      have hq : ∀ q, q <+: rest → (follow (if b = true then l else r) q).is_leaf = false := by
        intro q hq
        exact hb1 (b :: q) (List.cons_prefix_cons.2 ⟨rfl, hq⟩)
      obtain ⟨i1, i2⟩ := ih _ hsub hchild hq
      refine ⟨i1, fun b2 => ?_⟩
      have := i2 b2
      simp only [follow, get_left_child, get_right_child, List.cons_append, walk,
        Bool.false_eq_true, if_false]
      exact this

theorem try_extract_code_not_leaf (tree : HuffTree) (buffer : List Bool) (chr : Nat)
    (h : tree.cur_node.is_leaf = false) :
    try_extract_code tree buffer chr =
      if (walk tree.cur_node buffer).1 = nullptr then
        { ret := none, tree := { tree with cur_node := (walk tree.cur_node buffer).1 },
          buffer := (walk tree.cur_node buffer).2, chr := chr }
      else if (walk tree.cur_node buffer).1.is_leaf then
        { ret := some true, tree := { tree with cur_node := tree.root },
          buffer := (walk tree.cur_node buffer).2,
          chr := (walk tree.cur_node buffer).1.get_value }
      else
        { ret := some false, tree := { tree with cur_node := (walk tree.cur_node buffer).1 },
          buffer := (walk tree.cur_node buffer).2, chr := chr } := by
  unfold try_extract_code
  rw [if_neg (by simp [h])]

/-- C22: on the tree built from a frequency table, with the cursor at any node of the
tree and a bit sequence `b1` that does not reach a leaf from there (so the tree has two or
more symbols and the cursor is on an internal node), `try_extract_code` on `b1` returns
`false` without an exception, has consumed all of `b1`, and has moved the cursor along
the edges of `b1`; on the empty queue it returns `false` and leaves the tree as it was;
and a following call on `b2` gives the same result, queue, cursor and `chr` as one call
on `b1 ++ b2` from the original position. -/
theorem try_extract_code_resumes (vocabulary : List Nat) (cur : TreeNode)
    (hcur : cur ∈ subtrees (build_tree vocabulary)) (b1 : List Bool)
    (hb1 : ∀ q, q <+: b1 → (follow cur q).is_leaf = false) (chr : Nat) :
    try_extract_code { HuffTree.new vocabulary with cur_node := cur } b1 chr =
      { ret := some false,
        tree := { HuffTree.new vocabulary with cur_node := follow cur b1 },
        buffer := [], chr := chr } ∧
    try_extract_code { HuffTree.new vocabulary with cur_node := cur } [] chr =
      { ret := some false, tree := { HuffTree.new vocabulary with cur_node := cur },
        buffer := [], chr := chr } ∧
    ∀ b2,
      try_extract_code
          (try_extract_code { HuffTree.new vocabulary with cur_node := cur } b1 chr).tree b2
          (try_extract_code { HuffTree.new vocabulary with cur_node := cur } b1 chr).chr =
        try_extract_code { HuffTree.new vocabulary with cur_node := cur } (b1 ++ b2) chr := by
  have hok := build_tree_nodes vocabulary
  have hch : ∀ n ∈ subtrees cur, n.is_leaf = false →
      n.get_left_child ≠ nullptr ∧ n.get_right_child ≠ nullptr := fun n hn h =>
    ⟨((hok n (subtrees_trans _ _ _ hcur hn)).1 h).1,
      ((hok n (subtrees_trans _ _ _ hcur hn)).1 h).2.1⟩
  have hne := subtrees_ne_nullptr _ _ hcur
  have hleaf : cur.is_leaf = false := hb1 [] List.nil_prefix
  obtain ⟨w1, w2⟩ := walk_follow b1 cur hch hne hb1
  have w3 : walk cur b1 = (follow cur b1, []) := by
    have := w2 []
    rw [List.append_nil, walk_nil] at this
    exact this
  have w4 : (follow cur b1).is_leaf = false := hb1 b1 (List.prefix_refl _)
  have e1 : try_extract_code { HuffTree.new vocabulary with cur_node := cur } b1 chr =
      { ret := some false,
        tree := { HuffTree.new vocabulary with cur_node := follow cur b1 },
        buffer := [], chr := chr } := by
    unfold try_extract_code
    rw [if_neg (by simp [hleaf])]
    simp only [w3, w1, if_false, w4, Bool.false_eq_true]
  refine ⟨e1, ?_, ?_⟩
  · unfold try_extract_code
    rw [if_neg (by simp)]
    simp only [walk_nil, hne, if_false, hleaf, Bool.false_eq_true]
  · intro b2
    rw [e1]
    rw [try_extract_code_not_leaf
        { HuffTree.new vocabulary with cur_node := follow cur b1 } b2 chr w4,
      try_extract_code_not_leaf
        { HuffTree.new vocabulary with cur_node := cur } (b1 ++ b2) chr hleaf]
    simp only [w2 b2]

set_option maxRecDepth 100000 in
theorem try_extract_code_resumes_witness :
    (mk 600 false 0 (mk 300 true 99 nullptr nullptr)
      (mk 300 false 0 (mk 100 true 97 nullptr nullptr) (mk 200 true 98 nullptr nullptr))) ∈
      subtrees (build_tree (List.replicate 97 0 ++ [100, 200, 300] ++ List.replicate 156 0)) ∧
    (∀ q, q <+: [false] →
      (follow (mk 600 false 0 (mk 300 true 99 nullptr nullptr)
        (mk 300 false 0 (mk 100 true 97 nullptr nullptr) (mk 200 true 98 nullptr nullptr)))
        q).is_leaf = false) ∧
    try_extract_code
        (try_extract_code
          { HuffTree.new (List.replicate 97 0 ++ [100, 200, 300] ++ List.replicate 156 0) with
            cur_node := mk 600 false 0 (mk 300 true 99 nullptr nullptr)
              (mk 300 false 0 (mk 100 true 97 nullptr nullptr)
                (mk 200 true 98 nullptr nullptr)) } [false] 7).tree [true, true]
        (try_extract_code
          { HuffTree.new (List.replicate 97 0 ++ [100, 200, 300] ++ List.replicate 156 0) with
            cur_node := mk 600 false 0 (mk 300 true 99 nullptr nullptr)
              (mk 300 false 0 (mk 100 true 97 nullptr nullptr)
                (mk 200 true 98 nullptr nullptr)) } [false] 7).chr =
      try_extract_code
        { HuffTree.new (List.replicate 97 0 ++ [100, 200, 300] ++ List.replicate 156 0) with
          cur_node := mk 600 false 0 (mk 300 true 99 nullptr nullptr)
            (mk 300 false 0 (mk 100 true 97 nullptr nullptr)
              (mk 200 true 98 nullptr nullptr)) } ([false] ++ [true, true]) 7 :=
  have hq : ∀ q, q <+: [false] →
      (follow (mk 600 false 0 (mk 300 true 99 nullptr nullptr)
        (mk 300 false 0 (mk 100 true 97 nullptr nullptr) (mk 200 true 98 nullptr nullptr)))
        q).is_leaf = false := by
    intro q hq
    match q, hq with
    | [], _ => rfl
    | [false], _ => rfl
    | [true], h => exact absurd h (by decide)
    | _ :: _ :: _, h => exact absurd h.length_le (by simp)
  ⟨by decide, hq,
    (try_extract_code_resumes
      (List.replicate 97 0 ++ [100, 200, 300] ++ List.replicate 156 0) _ (by decide) [false]
      hq 7).2.2 [true, true]⟩

/-- C24: for every source shorter than 8 bytes, or shorter than `8 + 5 * c` bytes where `c`
is the vocabulary entry count stored in its bytes 4..7, `unzip` fails with the read
exception and has written nothing to the sink. -/
theorem unzip_truncated_header_atomic (be : Bool) (data : List Nat)
    (h : data.length < 8 ∨
      data.length < 8 + 5 * u32_of_bytes be ((data.drop 4).take 4)) :
    unzip be (HuffmanArchiver.new data) = some (.thrown .ios_failure []) := by
  unfold unzip
  simp only [HuffmanArchiver.new, Nat.zero_add]
  by_cases h4 : data.length < 4
  · rw [read_exact_none data 0 4 (by omega)]
  · have e1 : read_exact data 0 4 = some ((data.drop 0).take 4) := by
      unfold read_exact; rw [if_pos (by omega)]
    rw [e1]
    simp only []
    have e2 : extract_vocabulary be data 4 = none := by
      unfold extract_vocabulary
      by_cases h8 : data.length < 8
      · rw [read_exact_none data 4 4 (by omega)]
      · have e3 : read_exact data 4 4 = some ((data.drop 4).take 4) := by
          unfold read_exact; rw [if_pos (by omega)]
        rw [e3]
        simp only []
        exact extract_vocabulary_loop_short be data _ (4 + 4) _ (by omega) (by omega)
    rw [e2]

theorem unzip_truncated_header_atomic_witness :
    (([3, 0, 0, 0, 2, 0, 0, 0, 97, 2, 0, 0, 0, 98, 1, 0, 0] : List Nat).length < 8 ∨
      ([3, 0, 0, 0, 2, 0, 0, 0, 97, 2, 0, 0, 0, 98, 1, 0, 0] : List Nat).length <
        8 + 5 * u32_of_bytes false
          ((([3, 0, 0, 0, 2, 0, 0, 0, 97, 2, 0, 0, 0, 98, 1, 0, 0] : List Nat).drop 4).take 4)) ∧
    unzip false (HuffmanArchiver.new [3, 0, 0, 0, 2, 0, 0, 0, 97, 2, 0, 0, 0, 98, 1, 0, 0]) =
      some (.thrown .ios_failure []) :=
  ⟨by decide, unzip_truncated_header_atomic false _ (by decide)⟩

theorem build_tree_all_zero (vocabulary : List Nat)
    (h : ∀ i, i < 256 → vocabulary.getD i 0 = 0) : build_tree vocabulary = nullptr := by
  apply (build_tree_counts vocabulary).1
  rw [List.length_eq_zero]
  apply List.eq_nil_iff_forall_not_mem.2
  intro a ha
  have := (mem_nonzero_symbols vocabulary a).1 ha
  exact this.2 (h a this.1)

theorem try_extract_code_nullptr (tree : HuffTree) (buffer : List Bool) (chr : Nat)
    (h : tree.cur_node = nullptr) :
    try_extract_code tree buffer chr =
      { ret := none, tree := tree, buffer := buffer, chr := chr } := by
  have hw : walk nullptr buffer = (nullptr, buffer) := by
    cases buffer <;> rfl
  cases tree with
  | mk root codes cur =>
    simp only at h
    subst h
    unfold try_extract_code
    rw [if_neg (by simp)]
    simp only [hw, if_true]

theorem cur_node_all_zero (vocabulary : List Nat)
    (h : ∀ i, i < 256 → vocabulary.getD i 0 = 0) :
    (HuffTree.new vocabulary).cur_node = nullptr := build_tree_all_zero vocabulary h

/-- A source with a non-zero original size whose header yields an all-zero table and is
followed by at least one more byte: the first decoding step throws `std::logic_error`. -/
theorem unzip_all_zero_table (be : Bool) (data vocabulary : List Nat) (pos : Nat)
    (h4 : 4 ≤ data.length) (hn : u32_of_bytes be (data.take 4) ≠ 0)
    (hv : extract_vocabulary be data 4 = some (vocabulary, pos))
    (hz : ∀ i, i < 256 → vocabulary.getD i 0 = 0) (hpos : pos < data.length) :
    unzip be (HuffmanArchiver.new data) = some (.thrown .logic_error []) := by
  have hcur := cur_node_all_zero _ hz
  unfold unzip
  simp only [HuffmanArchiver.new, Nat.zero_add]
  have e1 : read_exact data 0 4 = some (data.take 4) := by
    unfold read_exact; rw [if_pos (by omega)]; rfl
  rw [e1]
  simp only []
  rw [hv]
  simp only []
  have e4 : decode (HuffTree.new vocabulary) data (u32_of_bytes be (data.take 4))
      pos [] = some (.thrown .logic_error []) := by
    unfold decode
    obtain ⟨fuel, hf⟩ : ∃ fuel, u32_of_bytes be (data.take 4) + (data.length - pos)
        = fuel + 1 := ⟨_, (Nat.succ_pred_eq_of_pos (by omega)).symm⟩
    rw [hf]
    obtain ⟨c, hcget⟩ : ∃ c, data.get? pos = some c := by
      rw [List.get?_eq_get hpos]; exact ⟨_, rfl⟩
    rw [decode_loop_succ data _ fuel _ (Nat.pos_of_ne_zero hn) (pos + 1) (byte_bits c)
      (by simp only [if_true]; rw [fill_buffer_get _ _ _ _ hcget]; rfl)]
    simp only []
    rw [try_extract_code_nullptr _ _ _ hcur]
  rw [e4]

/-- C23: on the tree built from an all-zero frequency table the root is null, and
`try_extract_code` throws `std::logic_error` on every bit queue, the empty one included,
leaving `chr` and the queue as they were; hence `unzip` of a source whose header declares
a non-zero original size and no vocabulary entry (or, more generally, only entries that
leave the table all-zero), followed by at least one payload byte, fails with that
exception, with nothing written to the sink. -/
theorem try_extract_code_empty_tree :
    (∀ vocabulary : List Nat, (∀ i, i < 256 → vocabulary.getD i 0 = 0) →
      (HuffTree.new vocabulary).root = nullptr ∧
      ∀ (buffer : List Bool) (chr : Nat),
        try_extract_code (HuffTree.new vocabulary) buffer chr =
          { ret := none, tree := HuffTree.new vocabulary, buffer := buffer, chr := chr }) ∧
    (∀ (be : Bool) (data : List Nat), 9 ≤ data.length →
      u32_of_bytes be (data.take 4) ≠ 0 → u32_of_bytes be ((data.drop 4).take 4) = 0 →
      unzip be (HuffmanArchiver.new data) = some (.thrown .logic_error [])) ∧
    (∀ (be : Bool) (data vocabulary : List Nat) (pos : Nat), 4 ≤ data.length →
      u32_of_bytes be (data.take 4) ≠ 0 →
      extract_vocabulary be data 4 = some (vocabulary, pos) →
      (∀ i, i < 256 → vocabulary.getD i 0 = 0) → pos < data.length →
      unzip be (HuffmanArchiver.new data) = some (.thrown .logic_error [])) := by
  refine ⟨?_, ?_, unzip_all_zero_table⟩
  · intro vocabulary h
    have hr : (HuffTree.new vocabulary).root = nullptr := build_tree_all_zero vocabulary h
    exact ⟨hr, fun buffer chr => try_extract_code_nullptr _ _ _ hr⟩
  · intro be data hlen hn hc
    have hz : ∀ i, i < 256 → (List.replicate 256 0).getD i 0 = 0 := fun i _ =>
      getD_replicate_zero 256 i
    have e2 : extract_vocabulary be data 4 = some (List.replicate 256 0, 4 + 4) := by
      unfold extract_vocabulary
      have e3 : read_exact data 4 4 = some ((data.drop 4).take 4) := by
        unfold read_exact; rw [if_pos (by omega)]
      rw [e3]
      simp only []
      rw [hc]
      rfl
    exact unzip_all_zero_table be data _ _ (by omega) hn e2 hz (by omega)

theorem try_extract_code_empty_tree_witness :
    (9 ≤ ([2, 0, 0, 0, 0, 0, 0, 0, 255] : List Nat).length ∧
      u32_of_bytes false (([2, 0, 0, 0, 0, 0, 0, 0, 255] : List Nat).take 4) ≠ 0 ∧
      u32_of_bytes false ((([2, 0, 0, 0, 0, 0, 0, 0, 255] : List Nat).drop 4).take 4) = 0) ∧
    unzip false (HuffmanArchiver.new [2, 0, 0, 0, 0, 0, 0, 0, 255]) =
      some (.thrown .logic_error []) :=
  ⟨⟨by decide, by decide, by decide⟩,
    try_extract_code_empty_tree.2.1 false _ (by decide) (by decide) (by decide)⟩

/-- C26: for a non-empty node list, `find_min` returns the position of the first node of
minimal frequency: a position inside the list, such that every node has a frequency at
least that of the node there, and every node before it a strictly greater one; for the
empty list it returns the end position. -/
theorem find_min_first_minimum :
    (∀ nodes : List TreeNode, nodes ≠ [] →
      find_min nodes < nodes.length ∧
      (∀ j, j < nodes.length →
        (nodes.getD (find_min nodes) nullptr).get_frequency ≤
          (nodes.getD j nullptr).get_frequency) ∧
      (∀ j, j < find_min nodes →
        (nodes.getD (find_min nodes) nullptr).get_frequency <
          (nodes.getD j nullptr).get_frequency)) ∧
    find_min [] = ([] : List TreeNode).length := by
  refine ⟨fun nodes hne => ?_, rfl⟩
  obtain ⟨_, h2, h3⟩ := find_min_spec nodes
  exact ⟨find_min_lt nodes hne, h2, h3⟩

theorem find_min_first_minimum_witness :
    [mk 3 true 97 nullptr nullptr, mk 1 true 98 nullptr nullptr,
      mk 2 false 0 (mk 1 true 99 nullptr nullptr) (mk 1 true 100 nullptr nullptr),
      mk 1 true 101 nullptr nullptr] ≠ [] ∧
    find_min [mk 3 true 97 nullptr nullptr, mk 1 true 98 nullptr nullptr,
      mk 2 false 0 (mk 1 true 99 nullptr nullptr) (mk 1 true 100 nullptr nullptr),
      mk 1 true 101 nullptr nullptr] = 1 ∧
    find_min [mk 3 true 97 nullptr nullptr, mk 1 true 98 nullptr nullptr,
      mk 2 false 0 (mk 1 true 99 nullptr nullptr) (mk 1 true 100 nullptr nullptr),
      mk 1 true 101 nullptr nullptr] <
      [mk 3 true 97 nullptr nullptr, mk 1 true 98 nullptr nullptr,
        mk 2 false 0 (mk 1 true 99 nullptr nullptr) (mk 1 true 100 nullptr nullptr),
        mk 1 true 101 nullptr nullptr].length :=
  ⟨by decide, by decide, (find_min_first_minimum.1 _ (by decide)).1⟩

/-- C34: for an input `S` of fewer than `2 ^ 32` bytes (with `k` distinct byte values), the
codes of its bytes take at most `8 * length S` bits in total, so the payload `zip` writes
after the `8 + 5 * k` header bytes is at most `length S` bytes long; `get_out_file_size`
reports that number. -/
theorem zip_no_expansion (be : Bool) (S : List Nat) (hS : ∀ b ∈ S, b < 256)
    (hlen : S.length < 2 ^ 32) :
    (S.flatMap
      (HuffTree.new (build_vocabulary (HuffmanArchiver.new S)).1).get_code_by_char).length
      ≤ 8 * S.length ∧
    ((zip be (HuffmanArchiver.new S)).out.drop (8 + 5 * S.dedup.length)).length ≤ S.length ∧
    (zip be (HuffmanArchiver.new S)).get_out_file_size ≤ S.length := by
  obtain ⟨_, _, f3⟩ := zip_fields be S hS hlen
  obtain ⟨bytes, hA, hb⟩ := zip_payload_le be S hS hlen
  have hhl := expected_header_length be S
  have hk := present_symbols_length S hS
  have hk256 := present_symbols_length_le S
  refine ⟨code_bits_le S hS hlen, ?_, ?_⟩
  · rw [hA, List.length_drop, List.length_append, hhl, hk]
    omega
  · unfold HuffmanArchiver.get_out_file_size
    rw [f3, hA, List.length_append, hhl, hk]
    rw [hk] at hk256
    omega

theorem zip_no_expansion_witness :
    (∀ b ∈ [97, 98, 99, 100], b < 256) ∧ [97, 98, 99, 100].length < 2 ^ 32 ∧
    ((zip false (HuffmanArchiver.new [97, 98, 99, 100])).out.drop
      (8 + 5 * [97, 98, 99, 100].dedup.length)).length ≤ [97, 98, 99, 100].length :=
  ⟨by decide, by decide, (zip_no_expansion false [97, 98, 99, 100] (by decide) (by decide)).2.1⟩

/-- A larger iteration budget does not change what the decode loop ends with. -/
theorem decode_loop_mono (data : List Nat) (n k fuel : Nat) :
    ∀ (s : DecodeState) (o : Outcome DecodeState),
      decode_loop data n fuel s = some o → decode_loop data n (fuel + k) s = some o := by
  induction fuel with
  | zero =>
    intro s o h
    by_cases hi : s.i < n
    · rw [decode_loop, if_pos hi] at h; exact Option.noConfusion h
    · rw [decode_loop_done data n 0 s hi] at h
      rw [decode_loop_done data n _ s hi]; exact h
  | succ fuel ih =>
    intro s o h
    rw [show fuel + 1 + k = (fuel + k) + 1 by omega]
    by_cases hi : s.i < n
    · cases hfill : (if s.buffer = [] then fill_buffer data s.in_pos s.buffer
          else some (s.in_pos, s.buffer)) with
      | none =>
        rw [decode_loop_fail data n fuel s hi hfill] at h
        rw [decode_loop_fail data n _ s hi hfill]; exact h
      | some pb =>
        obtain ⟨pos1, buffer1⟩ := pb
        rw [decode_loop_succ data n fuel s hi pos1 buffer1 hfill] at h
        rw [decode_loop_succ data n _ s hi pos1 buffer1 hfill]
        cases hret : (try_extract_code s.tree buffer1 s.chr).ret with
        | none => rw [hret] at h; exact h
        | some b =>
          rw [hret] at h
          cases b with
          | true => exact ih _ _ h
          | false => exact ih _ _ h
    · rw [decode_loop_done data n _ s hi] at h
      rw [decode_loop_done data n _ s hi]; exact h

/-- One iteration of the decode loop, entered with `i < _out_file_size`: it throws, or it
goes on from a state that has one more symbol emitted or an empty queue; it has read one
source byte exactly when it was entered with an empty queue. -/
theorem decode_loop_step (data : List Nat) (n fuel : Nat) (s : DecodeState) (hi : s.i < n) :
    (s.buffer = [] ∧ data.length ≤ s.in_pos ∧
      decode_loop data n (fuel + 1) s = some (.thrown .ios_failure s.out)) ∨
    decode_loop data n (fuel + 1) s = some (.thrown .logic_error s.out) ∨
    ∃ s', decode_loop data n (fuel + 1) s = decode_loop data n fuel s' ∧
      ((s'.i = s.i + 1 ∧ ∃ c, s'.out = s.out ++ [c]) ∨
        (s'.i = s.i ∧ s'.out = s.out ∧ s'.buffer = [])) ∧
      (s.buffer = [] → s.in_pos < data.length ∧ s'.in_pos = s.in_pos + 1) ∧
      (s.buffer ≠ [] → s'.in_pos = s.in_pos) := by
  cases hfill : (if s.buffer = [] then fill_buffer data s.in_pos s.buffer
      else some (s.in_pos, s.buffer)) with
  | none =>
    left
    by_cases hb : s.buffer = []
    · rw [if_pos hb] at hfill
      refine ⟨hb, ?_, decode_loop_fail data n fuel s hi (by rw [if_pos hb]; exact hfill)⟩
      unfold fill_buffer at hfill
      cases hg : data.get? s.in_pos with
      | none =>
        rw [List.get?_eq_getElem?] at hg
        exact List.getElem?_eq_none_iff.1 hg
      | some c => rw [hg] at hfill; exact Option.noConfusion hfill
    · rw [if_neg hb] at hfill; exact Option.noConfusion hfill
  | some pb =>
    obtain ⟨pos1, buffer1⟩ := pb
    right
    have hpos : (s.buffer = [] → s.in_pos < data.length ∧ pos1 = s.in_pos + 1) ∧
        (s.buffer ≠ [] → pos1 = s.in_pos) := by
      constructor
      · intro hb
        rw [if_pos hb] at hfill
        have := fill_buffer_pos _ _ _ _ _ hfill
        omega
      · intro hb
        rw [if_neg hb] at hfill
        exact (Prod.mk.inj (Option.some.inj hfill)).1.symm
    rw [decode_loop_succ data n fuel s hi pos1 buffer1 hfill]
    cases hret : (try_extract_code s.tree buffer1 s.chr).ret with
    | none => left; rfl
    | some b =>
      right
      cases b with
      | true => exact ⟨_, rfl, Or.inl ⟨rfl, _, rfl⟩, hpos.1, hpos.2⟩
      | false =>
        exact ⟨_, rfl, Or.inr ⟨rfl, rfl, try_extract_code_false _ _ _ hret⟩, hpos.1, hpos.2⟩

/-- C32: `unzip` always ends, on every archiver state and so on every finite source,
whatever its header declares: it completes or it throws.  The decode loop ends within
"symbols still to emit + unread source bytes (+ 1 when bits are queued)" iterations, a
larger budget changes nothing, and each iteration that does not throw either emits a
symbol or leaves the bit queue empty, an iteration entered with an empty queue having
read one more source byte. -/
theorem unzip_always_terminates :
    (∀ (be : Bool) (a : HuffmanArchiver),
      (∃ a', unzip be a = some (.done a')) ∨ ∃ e out, unzip be a = some (.thrown e out)) ∧
    (∀ (data : List Nat) (n fuel : Nat) (s : DecodeState),
      (n - s.i) + (data.length - s.in_pos) + (if s.buffer = [] then 0 else 1) ≤ fuel →
      decode_loop data n fuel s ≠ none) ∧
    (∀ (data : List Nat) (n k fuel : Nat) (s : DecodeState) (o : Outcome DecodeState),
      decode_loop data n fuel s = some o → decode_loop data n (fuel + k) s = some o) ∧
    (∀ (data : List Nat) (n fuel : Nat) (s : DecodeState), s.i < n →
      (s.buffer = [] ∧ data.length ≤ s.in_pos ∧
        decode_loop data n (fuel + 1) s = some (.thrown .ios_failure s.out)) ∨
      decode_loop data n (fuel + 1) s = some (.thrown .logic_error s.out) ∨
      ∃ s', decode_loop data n (fuel + 1) s = decode_loop data n fuel s' ∧
        ((s'.i = s.i + 1 ∧ ∃ c, s'.out = s.out ++ [c]) ∨
          (s'.i = s.i ∧ s'.out = s.out ∧ s'.buffer = [])) ∧
        (s.buffer = [] → s.in_pos < data.length ∧ s'.in_pos = s.in_pos + 1) ∧
        (s.buffer ≠ [] → s'.in_pos = s.in_pos)) := by
  refine ⟨?_, decode_loop_fuel, fun data n k fuel => decode_loop_mono data n k fuel,
    decode_loop_step⟩
  intro be a
  have h := unzip_terminates be a
  cases hu : unzip be a with
  | none => exact (h hu).elim
  | some o =>
    cases o with
    | done a' => exact Or.inl ⟨a', rfl⟩
    | thrown e out => exact Or.inr ⟨e, out, rfl⟩

theorem unzip_always_terminates_witness :
    ((3 - (DecodeState.mk (HuffTree.new []) [] 0 0 2 []).i) +
      (([1, 2, 3, 4] : List Nat).length - (DecodeState.mk (HuffTree.new []) [] 0 0 2 []).in_pos)
      + (if (DecodeState.mk (HuffTree.new []) [] 0 0 2 []).buffer = [] then 0 else 1) ≤ 5) ∧
    decode_loop [1, 2, 3, 4] 3 5 (DecodeState.mk (HuffTree.new []) [] 0 0 2 []) ≠ none :=
  ⟨by decide,
    unzip_always_terminates.2.1 [1, 2, 3, 4] 3 5 (DecodeState.mk (HuffTree.new []) [] 0 0 2 [])
      (by decide)⟩

/-- In a tree whose internal nodes have two children, the walk of `try_extract_code` stops
on a node of the tree. -/
theorem walk_mem_subtrees (buffer : List Bool) :
    ∀ (cur : TreeNode),
      (∀ n ∈ subtrees cur, n.is_leaf = false →
        n.get_left_child ≠ nullptr ∧ n.get_right_child ≠ nullptr) →
      cur ≠ nullptr → (walk cur buffer).1 ∈ subtrees cur := by
  induction buffer with
  | nil => intro cur _ hne; rw [walk_nil]; exact subtrees_self cur hne
  | cons b rest ih =>
    intro cur hch hne
    cases cur with
    | nullptr => exact absurd rfl hne
    | mk f leaf v l r =>
      cases leaf with
      | true => exact subtrees_self _ hne
      | false =>
        have h0 := hch (mk f false v l r) (by simp [subtrees]) rfl
        simp only [get_left_child, get_right_child] at h0
        simp only [walk, Bool.false_eq_true, if_false]
        cases b with
        | true =>
          have := ih l (fun n hn => hch n (by simp [subtrees, hn])) h0.1
          simp only [if_true]
          simp only [subtrees, List.mem_cons, List.mem_append]
          exact Or.inr (Or.inl this)
        | false =>
          have := ih r (fun n hn => hch n (by simp [subtrees, hn])) h0.2
          simp only [Bool.false_eq_true, if_false]
          simp only [subtrees, List.mem_cons, List.mem_append]
          exact Or.inr (Or.inr this)

/-- With the cursor on a node of a non-empty tree whose internal nodes have two children,
`try_extract_code` does not throw and leaves the cursor on a node of the tree. -/
theorem try_extract_code_safe (tree : HuffTree) (buffer : List Bool) (chr : Nat)
    (hch : ∀ n ∈ subtrees tree.root, n.is_leaf = false →
      n.get_left_child ≠ nullptr ∧ n.get_right_child ≠ nullptr)
    (hr : tree.root ≠ nullptr) (hcur : tree.cur_node ∈ subtrees tree.root) :
    (try_extract_code tree buffer chr).ret ≠ none ∧
    (try_extract_code tree buffer chr).tree.root = tree.root ∧
    (try_extract_code tree buffer chr).tree.cur_node ∈ subtrees tree.root := by
  have hne := subtrees_ne_nullptr _ _ hcur
  have hw := walk_mem_subtrees buffer tree.cur_node
    (fun n hn => hch n (subtrees_trans _ _ _ hcur hn)) hne
  have hw2 := subtrees_trans _ _ _ hcur hw
  have hw3 := subtrees_ne_nullptr _ _ hw2
  unfold try_extract_code
  by_cases hc : tree.cur_node ≠ nullptr ∧ tree.cur_node = tree.root ∧
      tree.cur_node.is_leaf = true ∧ buffer ≠ []
  · rw [if_pos hc]
    exact ⟨fun h => Option.noConfusion h, rfl, hcur⟩
  · rw [if_neg hc]
    simp only [hw3, if_false]
    by_cases hl : (walk tree.cur_node buffer).1.is_leaf = true
    · rw [if_pos hl]
      exact ⟨fun h => Option.noConfusion h, rfl, subtrees_self _ hr⟩
    · rw [if_neg hl]
      exact ⟨fun h => Option.noConfusion h, rfl, hw2⟩

theorem after_calls_inv (calls : List (List Bool × Nat)) :
    ∀ (tree : HuffTree),
      (∀ n ∈ subtrees tree.root, n.is_leaf = false →
        n.get_left_child ≠ nullptr ∧ n.get_right_child ≠ nullptr) →
      tree.root ≠ nullptr → tree.cur_node ∈ subtrees tree.root →
      (after_calls tree calls).root = tree.root ∧
      (after_calls tree calls).cur_node ∈ subtrees tree.root := by
  induction calls with
  | nil => intro tree _ _ hcur; exact ⟨rfl, hcur⟩
  | cons c calls ih =>
    intro tree hch hr hcur
    obtain ⟨_, s2, s3⟩ := try_extract_code_safe tree c.1 c.2 hch hr hcur
    have := ih (try_extract_code tree c.1 c.2).tree (by rw [s2]; exact hch)
      (by rw [s2]; exact hr) (by rw [s2]; exact s3)
    rw [s2] at this
    exact this

/-- C33: on the tree built from a table with at least one non-zero count, after any series
of calls of `try_extract_code` starting with the cursor at the root, the cursor is on a
node of the tree, and a further call on any bit queue does not throw `std::logic_error`
and leaves the cursor non-null, on a node of the tree. -/
theorem try_extract_code_never_throws (vocabulary : List Nat)
    (h1 : 1 ≤ (nonzero_symbols vocabulary).length) (calls : List (List Bool × Nat))
    (buffer : List Bool) (chr : Nat) :
    (after_calls (HuffTree.new vocabulary) calls).cur_node ∈ subtrees (build_tree vocabulary) ∧
    (after_calls (HuffTree.new vocabulary) calls).cur_node ≠ nullptr ∧
    (try_extract_code (after_calls (HuffTree.new vocabulary) calls) buffer chr).ret ≠ none ∧
    (try_extract_code (after_calls (HuffTree.new vocabulary) calls) buffer chr).tree.cur_node
      ≠ nullptr ∧
    (try_extract_code (after_calls (HuffTree.new vocabulary) calls) buffer chr).tree.cur_node
      ∈ subtrees (build_tree vocabulary) := by
  have hok := build_tree_nodes vocabulary
  have hch : ∀ n ∈ subtrees (HuffTree.new vocabulary).root, n.is_leaf = false →
      n.get_left_child ≠ nullptr ∧ n.get_right_child ≠ nullptr := fun n hn h =>
    ⟨((hok n hn).1 h).1, ((hok n hn).1 h).2.1⟩
  have hr : (HuffTree.new vocabulary).root ≠ nullptr := ((build_tree_counts vocabulary).2 h1).1
  have hcur : (HuffTree.new vocabulary).cur_node ∈ subtrees (HuffTree.new vocabulary).root :=
    subtrees_self _ hr
  obtain ⟨a1, a2⟩ := after_calls_inv calls _ hch hr hcur
  obtain ⟨s1, _, s3⟩ := try_extract_code_safe (after_calls (HuffTree.new vocabulary) calls)
    buffer chr (by rw [a1]; exact hch) (by rw [a1]; exact hr) (by rw [a1]; exact a2)
  rw [a1] at s3
  exact ⟨a2, subtrees_ne_nullptr _ _ a2, s1, subtrees_ne_nullptr _ _ s3, s3⟩

set_option maxRecDepth 100000 in
theorem try_extract_code_never_throws_witness :
    1 ≤ (nonzero_symbols (List.replicate 97 0 ++ [100, 200, 300] ++
      List.replicate 156 0)).length ∧
    (try_extract_code (after_calls (HuffTree.new (List.replicate 97 0 ++ [100, 200, 300] ++
      List.replicate 156 0)) [([false], 0), ([true, true], 0)]) [false] 0).ret ≠ none :=
  ⟨by decide,
    (try_extract_code_never_throws
      (List.replicate 97 0 ++ [100, 200, 300] ++ List.replicate 156 0) (by decide)
      [([false], 0), ([true, true], 0)] [false] 0).2.2.1⟩

theorem sizeOf_le_of_mem_subtrees (t n : TreeNode) (h : n ∈ subtrees t) :
    sizeOf n ≤ sizeOf t := by
  induction t with
  | nullptr => simp [subtrees] at h
  | mk f leaf v l r ihl ihr =>
    simp only [subtrees, List.mem_cons, List.mem_append] at h
    rcases h with h | h | h
    · rw [h]
    · have := ihl h
      simp only [TreeNode.mk.sizeOf_spec]
      omega
    · have := ihr h
      simp only [TreeNode.mk.sizeOf_spec]
      omega

/-- A node strictly below the root is not equal to the root as a value: comparing the
cursor with the root by value is the pointer comparison of the code. -/
theorem proper_subtree_ne (f : Nat) (leaf : Bool) (v : Nat) (l r n : TreeNode)
    (h : n ∈ subtrees l ++ subtrees r) : n ≠ mk f leaf v l r := by
  intro he
  rcases List.mem_append.1 h with h | h
  · have := sizeOf_le_of_mem_subtrees _ _ h
    rw [he] at this
    simp only [TreeNode.mk.sizeOf_spec] at this
    omega
  · have := sizeOf_le_of_mem_subtrees _ _ h
    rw [he] at this
    simp only [TreeNode.mk.sizeOf_spec] at this
    omega

theorem walk_length_le (buffer : List Bool) :
    ∀ cur : TreeNode, (walk cur buffer).2.length ≤ buffer.length := by
  induction buffer with
  | nil => intro cur; rw [walk_nil]
  | cons b rest ih =>
    intro cur
    cases cur with
    | nullptr => exact Nat.le_refl _
    | mk f leaf v l r =>
      cases leaf with
      | true => exact Nat.le_refl _
      | false =>
        simp only [walk, Bool.false_eq_true, if_false, List.length_cons]
        exact Nat.le_succ_of_le (ih _)

/-- A walk that starts on a node that is not a leaf and ends on a leaf has consumed a bit. -/
theorem walk_leaf_consumes (cur : TreeNode) (buffer : List Bool) (hcur : cur.is_leaf = false)
    (hleaf : (walk cur buffer).1.is_leaf = true) :
    (walk cur buffer).2.length < buffer.length := by
  cases buffer with
  | nil => rw [walk_nil] at hleaf; rw [hcur] at hleaf; exact Bool.noConfusion hleaf
  | cons b rest =>
    cases cur with
    | nullptr => exact Bool.noConfusion hleaf
    | mk f leaf v l r =>
      simp only [is_leaf] at hcur
      subst hcur
      simp only [walk, Bool.false_eq_true, if_false, List.length_cons]
      exact Nat.lt_succ_of_le (walk_length_le rest _)

/-- With the cursor where `decode` keeps it (at the root, or on a node that is not a leaf)
and a non-empty queue, `try_extract_code` never lengthens the queue, removes at least one
bit when it reports a symbol, and leaves the cursor at the root or on a node that is not
a leaf. -/
theorem try_extract_code_consumes (tree : HuffTree) (buffer : List Bool) (chr : Nat)
    (hinv : tree.cur_node = tree.root ∨ tree.cur_node.is_leaf = false) (hB : buffer ≠ []) :
    ((try_extract_code tree buffer chr).tree.cur_node =
        (try_extract_code tree buffer chr).tree.root ∨
      (try_extract_code tree buffer chr).tree.cur_node.is_leaf = false) ∧
    (try_extract_code tree buffer chr).buffer.length ≤ buffer.length ∧
    ((try_extract_code tree buffer chr).ret = some true →
      (try_extract_code tree buffer chr).buffer.length < buffer.length) := by
  unfold try_extract_code
  by_cases hc : tree.cur_node ≠ nullptr ∧ tree.cur_node = tree.root ∧
      tree.cur_node.is_leaf = true ∧ buffer ≠ []
  · rw [if_pos hc]
    cases buffer with
    | nil => exact absurd rfl hB
    | cons b rest =>
      refine ⟨hinv, ?_, fun _ => ?_⟩
      · simp
      · simp
  · rw [if_neg hc]
    have hnl : tree.cur_node.is_leaf = false := by
      rcases hinv with h | h
      · cases hl : tree.cur_node.is_leaf with
        | false => rfl
        | true =>
          exfalso
          apply hc
          refine ⟨?_, h, hl, hB⟩
          intro h0; rw [h0] at hl; exact Bool.noConfusion hl
      · exact h
    simp only []
    by_cases hn : (walk tree.cur_node buffer).1 = nullptr
    · rw [if_pos hn]
      refine ⟨Or.inr ?_, walk_length_le _ _, fun h => Option.noConfusion h⟩
      simp only [hn]; rfl
    · rw [if_neg hn]
      by_cases hl : (walk tree.cur_node buffer).1.is_leaf = true
      · rw [if_pos hl]
        exact ⟨Or.inl rfl, walk_length_le _ _, fun _ => walk_leaf_consumes _ _ hnl hl⟩
      · rw [if_neg hl]
        refine ⟨Or.inr ?_, walk_length_le _ _, fun h => ?_⟩
        · simpa using hl
        · simp at h

/-- With the cursor on a leaf and an empty queue, `try_extract_code` reports the leaf's
symbol although no bit is there to consume. -/
theorem try_extract_code_leaf_nil (tree : HuffTree) (chr f v : Nat) (l r : TreeNode)
    (h : tree.cur_node = mk f true v l r) :
    try_extract_code tree [] chr =
      { ret := some true, tree := { tree with cur_node := tree.root }, buffer := [],
        chr := v } := by
  unfold try_extract_code
  rw [if_neg (by simp)]
  simp only [walk_nil, h]
  rfl

/-- The argument `decode` passes to `try_extract_code` is never the empty queue. -/
theorem decode_queue_ne_nil (data : List Nat) (pos : Nat) (buffer : List Bool) (pos1 : Nat)
    (buffer1 : List Bool)
    (h : (if buffer = [] then fill_buffer data pos buffer else some (pos, buffer)) =
      some (pos1, buffer1)) :
    buffer1 ≠ [] ∧ (buffer = [] → pos1 = pos + 1 ∧ buffer1.length = 8) ∧
      (buffer ≠ [] → pos1 = pos ∧ buffer1 = buffer) := by
  by_cases hb : buffer = []
  · rw [if_pos hb] at h
    unfold fill_buffer at h
    cases hg : data.get? pos with
    | none => rw [hg] at h; exact Option.noConfusion h
    | some c =>
      rw [hg] at h
      have h2 := Prod.mk.inj (Option.some.inj h)
      have hl : buffer1.length = 8 := by
        rw [← h2.2, hb, List.nil_append, byte_bits_length]
      refine ⟨?_, fun _ => ⟨h2.1.symm, hl⟩, fun h0 => absurd hb h0⟩
      intro h0; rw [h0] at hl; simp at hl
  · rw [if_neg hb] at h
    have h2 := Prod.mk.inj (Option.some.inj h)
    refine ⟨by rw [← h2.2]; exact hb, fun h0 => absurd h0 hb, fun _ => ⟨h2.1.symm, h2.2.symm⟩⟩

/-- Bit accounting along the decode loop: the symbols emitted and the bits still queued
never exceed eight times the number of payload bytes read. -/
theorem decode_loop_bits (data : List Nat) (n pos0 fuel : Nat) :
    ∀ (s s' : DecodeState), decode_loop data n fuel s = some (.done s') →
      (s.tree.cur_node = s.tree.root ∨ s.tree.cur_node.is_leaf = false) →
      pos0 ≤ s.in_pos → s.i + s.buffer.length ≤ 8 * (s.in_pos - pos0) →
      pos0 ≤ s'.in_pos ∧ n ≤ 8 * (s'.in_pos - pos0) := by
  induction fuel with
  | zero =>
    intro s s' h hinv hp hb
    by_cases hi : s.i < n
    · rw [decode_loop, if_pos hi] at h; exact Option.noConfusion h
    · rw [decode_loop_done data n 0 s hi] at h
      have := Outcome.done.inj (Option.some.inj h)
      rw [← this]
      exact ⟨hp, by omega⟩
  | succ fuel ih =>
    intro s s' h hinv hp hb
    by_cases hi : s.i < n
    · cases hfill : (if s.buffer = [] then fill_buffer data s.in_pos s.buffer
          else some (s.in_pos, s.buffer)) with
      | none =>
        rw [decode_loop_fail data n fuel s hi hfill] at h
        exact Outcome.noConfusion (Option.some.inj h)
      | some pb =>
        obtain ⟨pos1, buffer1⟩ := pb
        obtain ⟨q1, q2, q3⟩ := decode_queue_ne_nil _ _ _ _ _ hfill
        have hacc : pos0 ≤ pos1 ∧ s.i + buffer1.length ≤ 8 * (pos1 - pos0) := by
          by_cases hbe : s.buffer = []
          · obtain ⟨e1, e2⟩ := q2 hbe
            rw [hbe] at hb
            simp only [List.length_nil] at hb
            omega
          · obtain ⟨e1, e2⟩ := q3 hbe
            rw [e1, e2]
            exact ⟨hp, hb⟩
        obtain ⟨c1, c2, c3⟩ := try_extract_code_consumes s.tree buffer1 s.chr hinv q1
        rw [decode_loop_succ data n fuel s hi pos1 buffer1 hfill] at h
        cases hret : (try_extract_code s.tree buffer1 s.chr).ret with
        | none =>
          rw [hret] at h
          exact Outcome.noConfusion (Option.some.inj h)
        | some b =>
          rw [hret] at h
          cases b with
          | true =>
            have := c3 hret
            exact ih _ _ h c1 hacc.1 (by dsimp only; omega)
          | false =>
            exact ih _ _ h c1 hacc.1 (by dsimp only; omega)
    · rw [decode_loop_done data n _ s hi] at h
      have := Outcome.done.inj (Option.some.inj h)
      rw [← this]
      exact ⟨hp, by omega⟩

theorem unzip_consumed_bits (be : Bool) (data : List Nat) (a' : HuffmanArchiver)
    (h : unzip be (HuffmanArchiver.new data) = some (.done a')) :
    8 + 5 * u32_of_bytes be ((data.drop 4).take 4) ≤ a'.in_pos ∧
    u32_of_bytes be (data.take 4) ≤
      8 * (a'.in_pos - (8 + 5 * u32_of_bytes be ((data.drop 4).take 4))) := by
  obtain ⟨b, vocabulary, pos, s', h1, h2, h3, h4⟩ := unzip_done_inv be data a' h
  have hb := (read_exact_some _ _ _ _ h1).1
  rw [List.drop_zero] at hb
  have hpos := (extract_vocabulary_pos be data vocabulary pos h2).1
  unfold decode at h3
  have := decode_loop_bits data (u32_of_bytes be b) pos _ _ s' h3 (Or.inl rfl)
    (Nat.le_refl _) (by dsimp only; simp)
  rw [h4]
  dsimp only
  rw [← hpos, ← hb]
  exact this

/-- C35: in `decode`, the queue handed to `try_extract_code` is never empty (a queue found
empty is refilled with the 8 bits of the next source byte first), although on a
single-leaf tree a call with an empty queue would report the symbol without consuming
anything; with the cursor where `decode` keeps it, a call on a non-empty queue that
reports a symbol has removed at least one bit; hence a successful `unzip` whose header
declares the original size `n` has read at least `ceil (n / 8)` payload bytes after the
header, which is what `get_in_file_size` reports for a source below `2 ^ 32` bytes. -/
theorem decoded_symbol_costs_bit :
    (∀ (data : List Nat) (pos : Nat) (buffer : List Bool) (pos1 : Nat) (buffer1 : List Bool),
      (if buffer = [] then fill_buffer data pos buffer else some (pos, buffer)) =
        some (pos1, buffer1) → buffer1 ≠ []) ∧
    (∀ (vocabulary : List Nat) (a : Nat), nonzero_symbols vocabulary = [a] → ∀ chr : Nat,
      try_extract_code (HuffTree.new vocabulary) [] chr =
        { ret := some true, tree := HuffTree.new vocabulary, buffer := [], chr := a }) ∧
    (∀ (tree : HuffTree) (buffer : List Bool) (chr : Nat),
      (tree.cur_node = tree.root ∨ tree.cur_node.is_leaf = false) → buffer ≠ [] →
      ((try_extract_code tree buffer chr).tree.cur_node =
          (try_extract_code tree buffer chr).tree.root ∨
        (try_extract_code tree buffer chr).tree.cur_node.is_leaf = false) ∧
      ((try_extract_code tree buffer chr).ret = some true →
        (try_extract_code tree buffer chr).buffer.length < buffer.length)) ∧
    (∀ (be : Bool) (data : List Nat) (a' : HuffmanArchiver),
      unzip be (HuffmanArchiver.new data) = some (.done a') →
      8 + 5 * u32_of_bytes be ((data.drop 4).take 4) ≤ a'.in_pos ∧
      (u32_of_bytes be (data.take 4) + 7) / 8 ≤
        a'.in_pos - (8 + 5 * u32_of_bytes be ((data.drop 4).take 4)) ∧
      (data.length < 2 ^ 32 →
        (u32_of_bytes be (data.take 4) + 7) / 8 ≤ a'.get_in_file_size)) := by
  refine ⟨fun data pos buffer pos1 buffer1 h => (decode_queue_ne_nil _ _ _ _ _ h).1, ?_, ?_, ?_⟩
  · intro vocabulary a h1 chr
    have hcur : (HuffTree.new vocabulary).cur_node =
        mk (vocabulary.getD a 0) true a nullptr nullptr := build_tree_single vocabulary a h1
    exact try_extract_code_leaf_nil (HuffTree.new vocabulary) chr _ a _ _ hcur
  · intro tree buffer chr hinv hB
    obtain ⟨c1, _, c3⟩ := try_extract_code_consumes tree buffer chr hinv hB
    exact ⟨c1, c3⟩
  · intro be data a' h
    obtain ⟨u1, u2⟩ := unzip_consumed_bits be data a' h
    obtain ⟨_, _, _, m4, m5⟩ := unzip_counters_mod be data a' h
    refine ⟨u1, by omega, fun hlt => ?_⟩
    unfold HuffmanArchiver.get_in_file_size
    rw [m5, Nat.mod_eq_of_lt (by omega)]
    omega

set_option maxRecDepth 100000 in
theorem decoded_symbol_costs_bit_witness :
    unzip false (HuffmanArchiver.new [3, 0, 0, 0, 2, 0, 0, 0, 97, 2, 0, 0, 0, 98, 1, 0, 0, 0, 2])
      = some (.done (HuffmanArchiver.mk
          [3, 0, 0, 0, 2, 0, 0, 0, 97, 2, 0, 0, 0, 98, 1, 0, 0, 0, 2] 19 [97, 98, 97] 1 3 18)) ∧
    (u32_of_bytes false
        (([3, 0, 0, 0, 2, 0, 0, 0, 97, 2, 0, 0, 0, 98, 1, 0, 0, 0, 2] : List Nat).take 4) + 7) / 8
      ≤ (HuffmanArchiver.mk [3, 0, 0, 0, 2, 0, 0, 0, 97, 2, 0, 0, 0, 98, 1, 0, 0, 0, 2] 19
          [97, 98, 97] 1 3 18).get_in_file_size :=
  ⟨by decide,
    (decoded_symbol_costs_bit.2.2.2 false
      [3, 0, 0, 0, 2, 0, 0, 0, 97, 2, 0, 0, 0, 98, 1, 0, 0, 0, 2]
      (HuffmanArchiver.mk [3, 0, 0, 0, 2, 0, 0, 0, 97, 2, 0, 0, 0, 98, 1, 0, 0, 0, 2] 19
        [97, 98, 97] 1 3 18) (by decide)).2.2 (by decide)⟩

/-- With two or more symbols, the code of one present symbol is not the beginning of the
code of another. -/
theorem code_not_initial (vocabulary : List Nat)
    (h2 : 2 ≤ (nonzero_symbols vocabulary).length) (a b : Nat)
    (ha : a ∈ nonzero_symbols vocabulary) (hb : b ∈ nonzero_symbols vocabulary)
    (hab : a ≠ b) :
    ¬ ((HuffTree.new vocabulary).get_code_by_char a <+:
        (HuffTree.new vocabulary).get_code_by_char b) := by
  have ha2 := (mem_nonzero_symbols vocabulary a).1 ha
  have hb2 := (mem_nonzero_symbols vocabulary b).1 hb
  intro hpre
  obtain ⟨x, hx⟩ := hpre
  have h1 := code_mem_leaf_paths vocabulary h2 a ha2.1 ha2.2
  have h3 := code_mem_leaf_paths vocabulary h2 b hb2.1 hb2.2
  rw [← hx] at h3
  exact hab (leaf_paths_no_extension _ _ _ _ _ h1 h3).2

/-- Changing a summand at two places of a duplicate-free list changes the sum by the
changes at those two places. -/
theorem sum_map_change_two (L : List Nat) (hnd : L.Nodup) (a b : Nat) (ha : a ∈ L)
    (hb : b ∈ L) (hab : a ≠ b) (g g' : Nat → Nat)
    (hg : ∀ s, s ≠ a → s ≠ b → g' s = g s) :
    (L.map g').sum + g a + g b = (L.map g).sum + g' a + g' b := by
  obtain ⟨L1, hp1⟩ := exists_perm_cons a L ha
  have hb1 : b ∈ L1 := by
    have := hp1.subset hb
    simp only [List.mem_cons] at this
    rcases this with h | h
    · exact absurd h.symm hab
    · exact h
  obtain ⟨L2, hp2⟩ := exists_perm_cons b L1 hb1
  have hp : L.Perm (a :: b :: L2) := hp1.trans (List.Perm.cons a hp2)
  have hnd2 : (a :: b :: L2).Nodup := hp.nodup_iff.1 hnd
  have ha2 : a ∉ L2 := fun h => (List.nodup_cons.1 hnd2).1 (List.mem_cons_of_mem _ h)
  have hb2 : b ∉ L2 := (List.nodup_cons.1 (List.nodup_cons.1 hnd2).2).1
  have e : L2.map g' = L2.map g := by
    apply List.map_congr_left
    intro s hs
    exact hg s (fun h => ha2 (h ▸ hs)) (fun h => hb2 (h ▸ hs))
  rw [(hp.map g').sum_eq, (hp.map g).sum_eq]
  simp only [List.map_cons, List.sum_cons, e]
  omega

/-- C31: for a frequency table whose total count is below `2 ^ 32` and two symbols `a`,
`b` with `count(a) > count(b) > 0`, the code of `a` is not longer than the code of `b`. -/
theorem frequent_symbol_code_le (vocabulary : List Nat)
    (htotal : ((nonzero_symbols vocabulary).map fun s => vocabulary.getD s 0).sum < 2 ^ 32)
    (a b : Nat) (ha : a < 256) (hb : b < 256)
    (hb0 : 0 < vocabulary.getD b 0) (hab : vocabulary.getD b 0 < vocabulary.getD a 0) :
    ((HuffTree.new vocabulary).get_code_by_char a).length ≤
      ((HuffTree.new vocabulary).get_code_by_char b).length := by
  have hne : a ≠ b := by intro h; rw [h] at hab; exact Nat.lt_irrefl _ hab
  have ham := (mem_nonzero_symbols vocabulary a).2 ⟨ha, by omega⟩
  have hbm := (mem_nonzero_symbols vocabulary b).2 ⟨hb, by omega⟩
  have hnd := nonzero_symbols_nodup vocabulary
  have h2 : 2 ≤ (nonzero_symbols vocabulary).length := by
    obtain ⟨L1, hp1⟩ := exists_perm_cons a _ ham
    have hb1 : b ∈ L1 := by
      have := hp1.subset hbm
      simp only [List.mem_cons] at this
      rcases this with h | h
      · exact absurd h.symm hne
      · exact h
    have hl := hp1.length_eq
    have := List.length_pos_of_mem hb1
    rw [hl, List.length_cons]
    omega
  have hc : ∀ x ∈ nonzero_symbols vocabulary, ∀ y ∈ nonzero_symbols vocabulary, x ≠ y →
      ¬ ((HuffTree.new vocabulary).get_code_by_char
            (if x = a then b else if x = b then a else x) <+:
          (HuffTree.new vocabulary).get_code_by_char
            (if y = a then b else if y = b then a else y)) := by
    intro x hx y hy hxy
    apply code_not_initial vocabulary h2
    · split_ifs <;> assumption
    · split_ifs <;> assumption
    · split_ifs <;> omega
  have hopt := codebook_cost_le vocabulary h2 htotal
    (fun s => (HuffTree.new vocabulary).get_code_by_char
      (if s = a then b else if s = b then a else s)) hc
  have hsw := sum_map_change_two (nonzero_symbols vocabulary) hnd a b ham hbm hne
    (fun s => vocabulary.getD s 0 * ((HuffTree.new vocabulary).get_code_by_char s).length)
    (fun s => vocabulary.getD s 0 * ((HuffTree.new vocabulary).get_code_by_char
      (if s = a then b else if s = b then a else s)).length)
    (by intro s h1 h2; simp only [if_neg h1, if_neg h2])
  simp only [if_true, if_neg hne.symm] at hsw
  beta_reduce at hopt
  by_contra hlen
  rw [Nat.not_le] at hlen
  generalize ((HuffTree.new vocabulary).get_code_by_char a).length = la at *
  generalize ((HuffTree.new vocabulary).get_code_by_char b).length = lb at *
  generalize vocabulary.getD a 0 = wa at *
  generalize vocabulary.getD b 0 = wb at *
  have hprod : 0 < (wa - wb) * (la - lb) := Nat.mul_pos (by omega) (by omega)
  obtain ⟨d, hd⟩ : ∃ d, wa = wb + d := ⟨wa - wb, by omega⟩
  obtain ⟨e, he⟩ : ∃ e, la = lb + e := ⟨la - lb, by omega⟩
  subst hd he
  simp only [Nat.add_sub_cancel_left] at hprod
  have hx : (wb + d) * (lb + e) + wb * lb = (wb + d) * lb + wb * (lb + e) + d * e := by ring
  omega

set_option maxRecDepth 100000 in
theorem frequent_symbol_code_le_witness :
    ((nonzero_symbols (List.replicate 97 0 ++ [100, 200, 300] ++ List.replicate 156 0)).map
      fun s => (List.replicate 97 0 ++ [100, 200, 300] ++ List.replicate 156 0).getD s 0).sum
      < 2 ^ 32 ∧
    (HuffTree.new (List.replicate 97 0 ++ [100, 200, 300] ++
      List.replicate 156 0)).get_code_by_char 99 = [true] ∧
    (HuffTree.new (List.replicate 97 0 ++ [100, 200, 300] ++
      List.replicate 156 0)).get_code_by_char 97 = [false, true] ∧
    ((HuffTree.new (List.replicate 97 0 ++ [100, 200, 300] ++
      List.replicate 156 0)).get_code_by_char 99).length ≤
    ((HuffTree.new (List.replicate 97 0 ++ [100, 200, 300] ++
      List.replicate 156 0)).get_code_by_char 97).length :=
  ⟨by decide, by decide, by decide,
    frequent_symbol_code_le (List.replicate 97 0 ++ [100, 200, 300] ++ List.replicate 156 0)
      (by decide) 99 97 (by decide) (by decide) (by decide) (by decide)⟩

end huffman_algo
